import Mathlib

/-
Verification of the presence/engagement tracking core of the reception-agent
repository: the detection filter, the Hungarian assignment solver, the face
track manager and the presence (engagement) state machine.

Numbers: the source operates on JavaScript IEEE doubles.  The embedding uses
exact rationals (ℚ) for confidences, bounding-box coordinates, IoU values and
costs, and integers (ℤ) for timestamps; frame counts and track ids are ℕ.
Every ℚ value is finite, so the source's Number.isFinite branches (which can
only fire on NaN/Infinity inputs) have no counterpart here; where that
matters it is noted at the definition.

Field names ending in "Ratio" from the source are rendered with the suffix
"Frac" (minFaceAreaRatio -> minFaceAreaFrac, interactionZoneMarginRatio ->
interactionZoneMarginFrac, computeAreaRatio -> computeAreaFrac); everything
else keeps its source name.
-/

namespace Reception

/-! ## PresenceStateMachine (src/app/vision/presence/PresenceStateMachine.ts) -/

inductive PresenceKind where
  | noPresence
  | present
  deriving DecidableEq, Repr

/-- PresenceEvent: tagged union of the four event shapes of the source.
greetSuppressed always carries suppressionReason "cooldown" in the source,
so the reason field is omitted (it has a single possible value). -/
inductive PresenceEvent where
  | enter (detectedAtMs : Int) (stableCount : Int)
  | exit (detectedAtMs : Int) (stableCount : Int)
  | greet (detectedAtMs : Int) (stableCount : Int) (visitDurationMs : Int)
  | greetSuppressed (detectedAtMs : Int) (stableCount : Int) (visitDurationMs : Int)
  deriving DecidableEq, Repr

structure PresenceState where
  state : PresenceKind
  visitStartedAtMs : Option Int
  hasGreetedThisVisit : Bool
  hasEmittedCooldownSuppressionThisVisit : Bool
  lastGreetedAtMs : Option Int
  deriving DecidableEq, Repr

structure PresenceStateMachineSettings where
  dwellMsToGreet : Int
  greetCooldownMs : Int
  deriving DecidableEq, Repr

def INITIAL_STATE : PresenceState :=
  { state := .noPresence
    visitStartedAtMs := none
    hasGreetedThisVisit := false
    hasEmittedCooldownSuppressionThisVisit := false
    lastGreetedAtMs := none }

/-- Source: `this.state.lastGreetedAtMs ?? -Infinity` followed by
`detectedAtMs - lastGreetedAtMs < greetCooldownMs`.  With lastGreetedAtMs
null the subtraction is +Infinity, which is never < a finite cooldown, so
the null case is never in cooldown. -/
def isInCooldown (lastGreetedAtMs : Option Int) (detectedAtMs greetCooldownMs : Int) : Bool :=
  match lastGreetedAtMs with
  | none => false
  | some g => detectedAtMs - g < greetCooldownMs

/-- PresenceStateMachine.update, as a pure step on the explicit state. -/
def update (cfg : PresenceStateMachineSettings) (s : PresenceState)
    (stableCount detectedAtMs : Int) : PresenceState × List PresenceEvent :=
  if stableCount ≤ 0 then
    ({ s with
        state := .noPresence
        visitStartedAtMs := none
        hasGreetedThisVisit := false
        hasEmittedCooldownSuppressionThisVisit := false },
     if s.state = .present then [.exit detectedAtMs 0] else [])
  else if s.state = .noPresence then
    ({ s with
        state := .present
        visitStartedAtMs := some detectedAtMs
        hasGreetedThisVisit := false
        hasEmittedCooldownSuppressionThisVisit := false },
     [.enter detectedAtMs stableCount])
  else
    let visitStartedAtMs := s.visitStartedAtMs.getD detectedAtMs
    let visitDurationMs := max 0 (detectedAtMs - visitStartedAtMs)
    if s.hasGreetedThisVisit then (s, [])
    else if visitDurationMs < cfg.dwellMsToGreet then (s, [])
    else if isInCooldown s.lastGreetedAtMs detectedAtMs cfg.greetCooldownMs then
      if s.hasEmittedCooldownSuppressionThisVisit then (s, [])
      else
        ({ s with hasEmittedCooldownSuppressionThisVisit := true },
         [.greetSuppressed detectedAtMs stableCount visitDurationMs])
    else
      ({ s with hasGreetedThisVisit := true, lastGreetedAtMs := some detectedAtMs },
       [.greet detectedAtMs stableCount visitDurationMs])

/-- Run a sequence of update calls; returns the final state and the event
list of each call, in call order. -/
def runUpdates (cfg : PresenceStateMachineSettings) :
    PresenceState → List (Int × Int) → PresenceState × List (List PresenceEvent)
  | s, [] => (s, [])
  | s, (c, t) :: rest =>
    let step := update cfg s c t
    let tail := runUpdates cfg step.1 rest
    (tail.1, step.2 :: tail.2)

/-- Event lists per update call for a machine started from the initial state. -/
def perCallEvents (cfg : PresenceStateMachineSettings) (inputs : List (Int × Int)) :
    List (List PresenceEvent) :=
  (runUpdates cfg INITIAL_STATE inputs).2

def PresenceEvent.isGreet : PresenceEvent → Bool
  | .greet _ _ _ => true
  | _ => false

def PresenceEvent.isEnter : PresenceEvent → Bool
  | .enter _ _ => true
  | _ => false

def PresenceEvent.isExit : PresenceEvent → Bool
  | .exit _ _ => true
  | _ => false

def PresenceEvent.isSuppressed : PresenceEvent → Bool
  | .greetSuppressed _ _ _ => true
  | _ => false

/-! ### Step lemmas for update -/

theorem update_nonpos_step (cfg : PresenceStateMachineSettings) (s : PresenceState)
    (c t : Int) (hc : c ≤ 0) :
    update cfg s c t =
      ({ s with
          state := .noPresence
          visitStartedAtMs := none
          hasGreetedThisVisit := false
          hasEmittedCooldownSuppressionThisVisit := false },
       if s.state = .present then [.exit t 0] else []) := by
  simp [update, hc]

theorem update_exit_step (cfg : PresenceStateMachineSettings) (s : PresenceState)
    (c t : Int) (hs : s.state = .present) (hc : c ≤ 0) :
    update cfg s c t =
      ({ s with
          state := .noPresence
          visitStartedAtMs := none
          hasGreetedThisVisit := false
          hasEmittedCooldownSuppressionThisVisit := false },
       [.exit t 0]) := by
  simp [update, hc, hs]

theorem update_enter_step (cfg : PresenceStateMachineSettings) (s : PresenceState)
    (c t : Int) (hs : s.state = .noPresence) (hc : 0 < c) :
    update cfg s c t =
      ({ s with
          state := .present
          visitStartedAtMs := some t
          hasGreetedThisVisit := false
          hasEmittedCooldownSuppressionThisVisit := false },
       [.enter t c]) := by
  have hc' : ¬ c ≤ 0 := not_le.mpr hc
  simp [update, hc', hs]

theorem update_greeted_silent (cfg : PresenceStateMachineSettings) (s : PresenceState)
    (c t : Int) (hs : s.state = .present) (hc : 0 < c)
    (hg : s.hasGreetedThisVisit = true) :
    update cfg s c t = (s, []) := by
  have hc' : ¬ c ≤ 0 := not_le.mpr hc
  simp [update, hc', hs, hg]

theorem update_dwell_silent (cfg : PresenceStateMachineSettings) (s : PresenceState)
    (c t : Int) (hs : s.state = .present) (hc : 0 < c)
    (hg : s.hasGreetedThisVisit = false)
    (hd : max 0 (t - s.visitStartedAtMs.getD t) < cfg.dwellMsToGreet) :
    update cfg s c t = (s, []) := by
  have hc' : ¬ c ≤ 0 := not_le.mpr hc
  simp [update, hc', hs, hg, hd]

theorem update_greet_step (cfg : PresenceStateMachineSettings) (s : PresenceState)
    (c t : Int) (hs : s.state = .present) (hc : 0 < c)
    (hg : s.hasGreetedThisVisit = false)
    (hd : cfg.dwellMsToGreet ≤ max 0 (t - s.visitStartedAtMs.getD t))
    (hcd : isInCooldown s.lastGreetedAtMs t cfg.greetCooldownMs = false) :
    update cfg s c t =
      ({ s with hasGreetedThisVisit := true, lastGreetedAtMs := some t },
       [.greet t c (max 0 (t - s.visitStartedAtMs.getD t))]) := by
  have hc' : ¬ c ≤ 0 := not_le.mpr hc
  have hd' : ¬ max 0 (t - s.visitStartedAtMs.getD t) < cfg.dwellMsToGreet := not_lt.mpr hd
  simp [update, hc', hs, hg, hd', hcd]

theorem update_suppress_step (cfg : PresenceStateMachineSettings) (s : PresenceState)
    (c t : Int) (hs : s.state = .present) (hc : 0 < c)
    (hg : s.hasGreetedThisVisit = false)
    (hd : cfg.dwellMsToGreet ≤ max 0 (t - s.visitStartedAtMs.getD t))
    (hcd : isInCooldown s.lastGreetedAtMs t cfg.greetCooldownMs = true)
    (hf : s.hasEmittedCooldownSuppressionThisVisit = false) :
    update cfg s c t =
      ({ s with hasEmittedCooldownSuppressionThisVisit := true },
       [.greetSuppressed t c (max 0 (t - s.visitStartedAtMs.getD t))]) := by
  have hc' : ¬ c ≤ 0 := not_le.mpr hc
  have hd' : ¬ max 0 (t - s.visitStartedAtMs.getD t) < cfg.dwellMsToGreet := not_lt.mpr hd
  simp [update, hc', hs, hg, hd', hcd, hf]

theorem update_suppressed_silent (cfg : PresenceStateMachineSettings) (s : PresenceState)
    (c t : Int) (hs : s.state = .present) (hc : 0 < c)
    (hg : s.hasGreetedThisVisit = false)
    (hd : cfg.dwellMsToGreet ≤ max 0 (t - s.visitStartedAtMs.getD t))
    (hcd : isInCooldown s.lastGreetedAtMs t cfg.greetCooldownMs = true)
    (hf : s.hasEmittedCooldownSuppressionThisVisit = true) :
    update cfg s c t = (s, []) := by
  have hc' : ¬ c ≤ 0 := not_le.mpr hc
  have hd' : ¬ max 0 (t - s.visitStartedAtMs.getD t) < cfg.dwellMsToGreet := not_lt.mpr hd
  simp [update, hc', hs, hg, hd', hcd, hf]

theorem runUpdates_append (cfg : PresenceStateMachineSettings) (s : PresenceState)
    (xs ys : List (Int × Int)) :
    runUpdates cfg s (xs ++ ys) =
      ((runUpdates cfg (runUpdates cfg s xs).1 ys).1,
       (runUpdates cfg s xs).2 ++ (runUpdates cfg (runUpdates cfg s xs).1 ys).2) := by
  induction xs generalizing s with
  | nil => simp [runUpdates]
  | cons p rest ih =>
    obtain ⟨c, t⟩ := p
    simp [runUpdates, ih]

/-! ### Claim C3 -/

/-- Claim C3 as stated is false on the code: with dwellMsToGreet = 0 and the
stableCount sequence [1,1,1] at timestamps [0,10,20], the first update call
(at timestamp 0) emits only the enter event and zero greet events — the one
greet is emitted by the second update call, at timestamp 10. -/
theorem C3_counterexample :
    perCallEvents ⟨0, 1000⟩ [(1, 0), (1, 10), (1, 20)]
      = [[.enter 0 1], [.greet 10 1 10], []] ∧
    ((perCallEvents ⟨0, 1000⟩ [(1, 0), (1, 10), (1, 20)]).getD 0 []).countP
        PresenceEvent.isGreet = 0 := by
  constructor
  · rfl
  · rfl

/-- Claim C3 (amended): with dwellMsToGreet = 0 and any greetCooldownMs, a
fresh PresenceStateMachine fed stableCount [1,1,1] at timestamps [0,10,20]
emits exactly one greet across the three update calls, and that greet is
emitted by the second update call (at timestamp 10); the first call emits
only enter, the third call emits nothing. -/
theorem C3_one_greet_at_second_update (cd : Int) :
    perCallEvents ⟨0, cd⟩ [(1, 0), (1, 10), (1, 20)]
      = [[.enter 0 1], [.greet 10 1 10], []] ∧
    ((perCallEvents ⟨0, cd⟩ [(1, 0), (1, 10), (1, 20)]).foldr (· ++ ·) []).countP
        PresenceEvent.isGreet = 1 := by
  constructor
  · rfl
  · rfl

/-! ### Claim C9 -/

/-- Concatenate the per-call event lists into one chronological event list. -/
def concatAll (ls : List (List PresenceEvent)) : List PresenceEvent :=
  ls.foldr (· ++ ·) []

theorem concatAll_nil : concatAll [] = [] := rfl

theorem concatAll_cons (l : List PresenceEvent) (ls : List (List PresenceEvent)) :
    concatAll (l :: ls) = l ++ concatAll ls := rfl

theorem concatAll_append (xs ys : List (List PresenceEvent)) :
    concatAll (xs ++ ys) = concatAll xs ++ concatAll ys := by
  induction xs with
  | nil => rfl
  | cons l rest ih => rw [List.cons_append, concatAll_cons, ih, concatAll_cons,
      List.append_assoc]

theorem mem_concatAll (e : PresenceEvent) (ls : List (List PresenceEvent)) :
    e ∈ concatAll ls ↔ ∃ l, l ∈ ls ∧ e ∈ l := by
  induction ls with
  | nil => simp [concatAll]
  | cons l rest ih =>
    rw [concatAll_cons, List.mem_append, ih]
    constructor
    · rintro (he | ⟨l', hl', he⟩)
      · exact ⟨l, List.mem_cons_self _ _, he⟩
      · exact ⟨l', List.mem_cons_of_mem _ hl', he⟩
    · rintro ⟨l', hl', he⟩
      rcases List.mem_cons.mp hl' with rfl | hl'
      · exact Or.inl he
      · exact Or.inr ⟨l', hl', he⟩

theorem update_present_no_enter_exit (cfg : PresenceStateMachineSettings)
    (s : PresenceState) (c t : Int) (hs : s.state = .present) (hc : 0 < c) :
    (update cfg s c t).1.state = .present ∧
    ∀ e ∈ (update cfg s c t).2, e.isEnter = false ∧ e.isExit = false := by
  have hc' : ¬ c ≤ 0 := not_le.mpr hc
  have hs' : ¬ s.state = PresenceKind.noPresence := by simp [hs]
  unfold update
  simp only [if_neg hc', if_neg hs']
  split
  · simp [hs]
  · split
    · simp [hs]
    · split
      · split
        · simp [hs]
        · simp [hs, PresenceEvent.isEnter, PresenceEvent.isExit]
      · simp [hs, PresenceEvent.isEnter, PresenceEvent.isExit]

theorem runUpdates_present (cfg : PresenceStateMachineSettings) (s : PresenceState)
    (L : List (Int × Int)) (hs : s.state = .present) (hL : ∀ p ∈ L, 0 < p.1) :
    (runUpdates cfg s L).1.state = .present ∧
    ∀ l ∈ (runUpdates cfg s L).2, ∀ e ∈ l, e.isEnter = false ∧ e.isExit = false := by
  induction L generalizing s with
  | nil => simpa [runUpdates] using hs
  | cons p rest ih =>
    obtain ⟨c, t⟩ := p
    have hc : 0 < c := hL (c, t) (List.mem_cons_self _ _)
    have hstep := update_present_no_enter_exit cfg s c t hs hc
    have hrest := ih (update cfg s c t).1 hstep.1
      (fun q hq => hL q (List.mem_cons_of_mem _ hq))
    refine ⟨?_, ?_⟩
    · simpa [runUpdates] using hrest.1
    · intro l hl e he
      simp only [runUpdates, List.mem_cons] at hl
      rcases hl with rfl | hl
      · exact hstep.2 e he
      · exact hrest.2 l hl e he

/-- Claim C9: fed k ≥ 1 positive stableCount values followed by one zero, a
fresh PresenceStateMachine emits exactly one enter (at the first update) and
exactly one exit (at the last update), with no enter or exit events at any
update in between. -/
theorem C9_enter_exit_bracket (cfg : PresenceStateMachineSettings)
    (c0 t0 tz : Int) (L : List (Int × Int))
    (hc0 : 0 < c0) (hL : ∀ p ∈ L, 0 < p.1)
    (hmono : List.Chain' (fun p q : Int × Int => p.2 < q.2)
      ((c0, t0) :: (L ++ [(0, tz)]))) :
    (perCallEvents cfg ((c0, t0) :: (L ++ [(0, tz)]))).head? = some [.enter t0 c0] ∧
    (perCallEvents cfg ((c0, t0) :: (L ++ [(0, tz)]))).getLast? = some [.exit tz 0] ∧
    (∀ l ∈ ((perCallEvents cfg ((c0, t0) :: (L ++ [(0, tz)]))).drop 1).dropLast,
      ∀ e ∈ l, e.isEnter = false ∧ e.isExit = false) ∧
    (concatAll (perCallEvents cfg ((c0, t0) :: (L ++ [(0, tz)])))).countP
      PresenceEvent.isEnter = 1 ∧
    (concatAll (perCallEvents cfg ((c0, t0) :: (L ++ [(0, tz)])))).countP
      PresenceEvent.isExit = 1 := by
  have hinit : INITIAL_STATE.state = .noPresence := rfl
  have henter := update_enter_step cfg INITIAL_STATE c0 t0 hinit hc0
  have hs1 : (update cfg INITIAL_STATE c0 t0).1.state = .present := by
    rw [henter]
  have he1 : (update cfg INITIAL_STATE c0 t0).2 = [PresenceEvent.enter t0 c0] := by
    rw [henter]
  have hmid := runUpdates_present cfg (update cfg INITIAL_STATE c0 t0).1 L hs1 hL
  have hexit := update_exit_step cfg
    (runUpdates cfg (update cfg INITIAL_STATE c0 t0).1 L).1 0 tz hmid.1 le_rfl
  have he2 : (update cfg (runUpdates cfg (update cfg INITIAL_STATE c0 t0).1 L).1 0 tz).2
      = [PresenceEvent.exit tz 0] := by
    rw [hexit]
  have hper : perCallEvents cfg ((c0, t0) :: (L ++ [(0, tz)]))
      = [PresenceEvent.enter t0 c0]
        :: ((runUpdates cfg (update cfg INITIAL_STATE c0 t0).1 L).2
            ++ [[PresenceEvent.exit tz 0]]) := by
    show (runUpdates cfg INITIAL_STATE ((c0, t0) :: (L ++ [(0, tz)]))).2 = _
    rw [show runUpdates cfg INITIAL_STATE ((c0, t0) :: (L ++ [(0, tz)]))
        = ((runUpdates cfg (update cfg INITIAL_STATE c0 t0).1 (L ++ [(0, tz)])).1,
           (update cfg INITIAL_STATE c0 t0).2
             :: (runUpdates cfg (update cfg INITIAL_STATE c0 t0).1 (L ++ [(0, tz)])).2)
        from rfl]
    rw [runUpdates_append]
    simp only [he1]
    rw [show (runUpdates cfg
         (runUpdates cfg (update cfg INITIAL_STATE c0 t0).1 L).1 [(0, tz)]).2
        = [(update cfg (runUpdates cfg (update cfg INITIAL_STATE c0 t0).1 L).1 0 tz).2]
        from rfl]
    rw [he2]
  rw [hper]
  have hsplit : [PresenceEvent.enter t0 c0]
      :: ((runUpdates cfg (update cfg INITIAL_STATE c0 t0).1 L).2
          ++ [[PresenceEvent.exit tz 0]])
      = ([PresenceEvent.enter t0 c0]
          :: (runUpdates cfg (update cfg INITIAL_STATE c0 t0).1 L).2)
        ++ [[PresenceEvent.exit tz 0]] := by
    simp
  refine ⟨rfl, ?_, ?_, ?_, ?_⟩
  · rw [hsplit, List.getLast?_concat]
  · intro l hl e he
    simp only [List.drop_one, List.tail_cons, List.dropLast_concat] at hl
    exact hmid.2 l hl e he
  · have hz : (concatAll
        ((runUpdates cfg (update cfg INITIAL_STATE c0 t0).1 L).2)).countP
        PresenceEvent.isEnter = 0 := by
      rw [List.countP_eq_zero]
      intro e he
      rw [mem_concatAll] at he
      rcases he with ⟨l, hl, he⟩
      simp [(hmid.2 l hl e he).1]
    rw [concatAll_cons, concatAll_append, concatAll_cons, concatAll_nil]
    simp [List.countP_cons, List.countP_append, hz, PresenceEvent.isEnter]
  · have hz : (concatAll
        ((runUpdates cfg (update cfg INITIAL_STATE c0 t0).1 L).2)).countP
        PresenceEvent.isExit = 0 := by
      rw [List.countP_eq_zero]
      intro e he
      rw [mem_concatAll] at he
      rcases he with ⟨l, hl, he⟩
      simp [(hmid.2 l hl e he).2]
    rw [concatAll_cons, concatAll_append, concatAll_cons, concatAll_nil]
    simp [List.countP_cons, List.countP_append, hz, PresenceEvent.isExit,
      PresenceEvent.isEnter]

/-- Witness for C9 at cfg = ⟨0,0⟩, counts [1,1], timestamps [0,1], zero at 2. -/
theorem C9_enter_exit_bracket_witness :
    ((0:Int) < 1 ∧ (∀ p ∈ [((1:Int), (1:Int))], 0 < p.1)) ∧
    ((perCallEvents ⟨0, 0⟩ (((1:Int), (0:Int)) :: ([((1:Int), (1:Int))] ++ [(0, 2)]))).head?
        = some [.enter 0 1] ∧
      (perCallEvents ⟨0, 0⟩ ((1, 0) :: ([(1, 1)] ++ [(0, 2)]))).getLast? = some [.exit 2 0] ∧
      (∀ l ∈ ((perCallEvents ⟨0, 0⟩ ((1, 0) :: ([(1, 1)] ++ [(0, 2)]))).drop 1).dropLast,
        ∀ e ∈ l, e.isEnter = false ∧ e.isExit = false) ∧
      (concatAll (perCallEvents ⟨0, 0⟩ ((1, 0) :: ([(1, 1)] ++ [(0, 2)])))).countP
        PresenceEvent.isEnter = 1 ∧
      (concatAll (perCallEvents ⟨0, 0⟩ ((1, 0) :: ([(1, 1)] ++ [(0, 2)])))).countP
        PresenceEvent.isExit = 1) :=
  ⟨⟨by decide, by decide⟩,
    C9_enter_exit_bracket ⟨0, 0⟩ 1 0 2 [(1, 1)] (by decide) (by decide)
      (by norm_num [List.chain'_cons])⟩

/-! ### Claim C10 -/

/-- States reachable from the initial state by any sequence of update and
reset calls (reset restores the construction-time INITIAL_STATE). -/
inductive Reachable (cfg : PresenceStateMachineSettings) : PresenceState → Prop where
  | init : Reachable cfg INITIAL_STATE
  | step (s : PresenceState) (c t : Int) :
      Reachable cfg s → Reachable cfg (update cfg s c t).1
  | reset (s : PresenceState) : Reachable cfg s → Reachable cfg INITIAL_STATE

/-- Claim C10: in every reachable PresenceStateMachine state, present implies
visitStartedAtMs is non-null and hasGreetedThisVisit implies lastGreetedAtMs
is non-null; consequently the null-fallback in update is the identity (the
getD default is never taken) and visitDurationMs is computed from the true
visit start. -/
theorem C10_reachable_invariant (cfg : PresenceStateMachineSettings)
    (s : PresenceState) (h : Reachable cfg s) :
    (s.state = .present → s.visitStartedAtMs ≠ none) ∧
    (s.hasGreetedThisVisit = true → s.lastGreetedAtMs ≠ none) ∧
    (s.state = .present → ∀ t : Int, some (s.visitStartedAtMs.getD t) = s.visitStartedAtMs) := by
  induction h with
  | init => simp [INITIAL_STATE]
  | reset s _ _ => simp [INITIAL_STATE]
  | step s c t hr ih =>
    obtain ⟨ih1, ih2, ih3⟩ := ih
    by_cases hc : c ≤ 0
    · rw [update_nonpos_step cfg s c t hc]
      simp
    · push_neg at hc
      by_cases hnp : s.state = PresenceKind.noPresence
      · rw [update_enter_step cfg s c t hnp hc]
        simp
      · have hpres : s.state = PresenceKind.present := by
          cases hst : s.state
          · exact absurd hst hnp
          · rfl
        by_cases hg : s.hasGreetedThisVisit = true
        · rw [update_greeted_silent cfg s c t hpres hc hg]
          exact ⟨ih1, ih2, ih3⟩
        · have hg' : s.hasGreetedThisVisit = false := by
            simpa using hg
          by_cases hd : max 0 (t - s.visitStartedAtMs.getD t) < cfg.dwellMsToGreet
          · rw [update_dwell_silent cfg s c t hpres hc hg' hd]
            exact ⟨ih1, ih2, ih3⟩
          · push_neg at hd
            by_cases hcd : isInCooldown s.lastGreetedAtMs t cfg.greetCooldownMs = true
            · by_cases hf : s.hasEmittedCooldownSuppressionThisVisit = true
              · rw [update_suppressed_silent cfg s c t hpres hc hg' hd hcd hf]
                exact ⟨ih1, ih2, ih3⟩
              · have hf' : s.hasEmittedCooldownSuppressionThisVisit = false := by
                  simpa using hf
                rw [update_suppress_step cfg s c t hpres hc hg' hd hcd hf']
                refine ⟨fun _ => by simpa using ih1 hpres,
                  fun hgr => by simpa using ih2 (by simpa using hgr),
                  fun _ t' => by simpa using ih3 hpres t'⟩
            · have hcd' : isInCooldown s.lastGreetedAtMs t cfg.greetCooldownMs = false := by
                simpa using hcd
              rw [update_greet_step cfg s c t hpres hc hg' hd hcd']
              refine ⟨fun _ => by simpa using ih1 hpres,
                fun _ => by simp,
                fun _ t' => by simpa using ih3 hpres t'⟩

/-- Witness for C10 at the initial state of a concrete machine. -/
theorem C10_reachable_invariant_witness :
    (INITIAL_STATE.state = .present → INITIAL_STATE.visitStartedAtMs ≠ none) ∧
    (INITIAL_STATE.hasGreetedThisVisit = true → INITIAL_STATE.lastGreetedAtMs ≠ none) ∧
    (INITIAL_STATE.state = .present →
      ∀ t : Int, some (INITIAL_STATE.visitStartedAtMs.getD t) = INITIAL_STATE.visitStartedAtMs) :=
  C10_reachable_invariant ⟨0, 0⟩ INITIAL_STATE Reachable.init

/-! ### Claim C2 -/

theorem runUpdates_cons_of (cfg : PresenceStateMachineSettings) (s s1 s2 : PresenceState)
    (c t : Int) (ev : List PresenceEvent) (rest : List (Int × Int))
    (ess : List (List PresenceEvent))
    (h1 : update cfg s c t = (s1, ev)) (h2 : runUpdates cfg s1 rest = (s2, ess)) :
    runUpdates cfg s ((c, t) :: rest) = (s2, ev :: ess) := by
  show ((runUpdates cfg (update cfg s c t).1 rest).1,
    (update cfg s c t).2 :: (runUpdates cfg (update cfg s c t).1 rest).2) = _
  rw [h1]
  simp [h2]

theorem runUpdates_append_of (cfg : PresenceStateMachineSettings) (s s1 s2 : PresenceState)
    (xs ys : List (Int × Int)) (e1 e2 : List (List PresenceEvent))
    (h1 : runUpdates cfg s xs = (s1, e1)) (h2 : runUpdates cfg s1 ys = (s2, e2)) :
    runUpdates cfg s (xs ++ ys) = (s2, e1 ++ e2) := by
  have h := runUpdates_append cfg s xs ys
  rw [h1] at h
  simp only at h
  rw [h2] at h
  simpa using h

/-- A present, not-yet-greeted visit stays silent and unchanged while the
dwell period has not been reached. -/
theorem runUpdates_dwell_silent (cfg : PresenceStateMachineSettings) (s : PresenceState)
    (A : List (Int × Int)) (hs : s.state = .present)
    (hg : s.hasGreetedThisVisit = false)
    (hA : ∀ p ∈ A, 0 < p.1 ∧ max 0 (p.2 - s.visitStartedAtMs.getD p.2) < cfg.dwellMsToGreet) :
    runUpdates cfg s A = (s, A.map fun _ => []) := by
  induction A with
  | nil => rfl
  | cons p rest ih =>
    obtain ⟨c, t⟩ := p
    obtain ⟨hc, hd⟩ := hA (c, t) (List.mem_cons_self _ _)
    exact runUpdates_cons_of cfg s s s c t [] rest (rest.map fun _ => [])
      (update_dwell_silent cfg s c t hs hc hg hd)
      (ih fun q hq => hA q (List.mem_cons_of_mem _ hq))

/-- After the greet, the rest of the visit is silent and unchanged. -/
theorem runUpdates_greeted_silent (cfg : PresenceStateMachineSettings) (s : PresenceState)
    (B : List (Int × Int)) (hs : s.state = .present)
    (hg : s.hasGreetedThisVisit = true) (hB : ∀ p ∈ B, 0 < p.1) :
    runUpdates cfg s B = (s, B.map fun _ => []) := by
  induction B with
  | nil => rfl
  | cons p rest ih =>
    obtain ⟨c, t⟩ := p
    exact runUpdates_cons_of cfg s s s c t [] rest (rest.map fun _ => [])
      (update_greeted_silent cfg s c t hs (hB (c, t) (List.mem_cons_self _ _)) hg)
      (ih fun q hq => hB q (List.mem_cons_of_mem _ hq))

/-- After the one cooldown suppression, the rest of a visit that stays inside
the cooldown window is silent and unchanged. -/
theorem runUpdates_suppressed_silent (cfg : PresenceStateMachineSettings)
    (s : PresenceState) (g : Int) (B : List (Int × Int)) (hs : s.state = .present)
    (hg : s.hasGreetedThisVisit = false)
    (hf : s.hasEmittedCooldownSuppressionThisVisit = true)
    (hlg : s.lastGreetedAtMs = some g)
    (hB : ∀ p ∈ B, 0 < p.1 ∧ p.2 - g < cfg.greetCooldownMs) :
    runUpdates cfg s B = (s, B.map fun _ => []) := by
  induction B with
  | nil => rfl
  | cons p rest ih =>
    obtain ⟨c, t⟩ := p
    obtain ⟨hc, hcool⟩ := hB (c, t) (List.mem_cons_self _ _)
    have hstep : update cfg s c t = (s, []) := by
      by_cases hd : max 0 (t - s.visitStartedAtMs.getD t) < cfg.dwellMsToGreet
      · exact update_dwell_silent cfg s c t hs hc hg hd
      · push_neg at hd
        have hcd : isInCooldown s.lastGreetedAtMs t cfg.greetCooldownMs = true := by
          simp [isInCooldown, hlg, hcool]
        exact update_suppressed_silent cfg s c t hs hc hg hd hcd hf
    exact runUpdates_cons_of cfg s s s c t [] rest (rest.map fun _ => []) hstep
      (ih fun q hq => hB q (List.mem_cons_of_mem _ hq))

/-- Claim C2: two visits, separated by an intervening exit/enter and with the
whole second visit inside greetCooldownMs of the first visit's greet, behave
as follows: visit 1 emits enter then (at its first dwell-reaching update) the
greet; visit 2 emits enter then exactly one greet-suppressed (cooldown) at
its first dwell-reaching update, and every further update within visit 2
emits no event at all — in particular visit 2 never emits a greet. -/
theorem C2_second_visit_suppressed_once (cfg : PresenceStateMachineSettings)
    (c0 t0 cg tg tx c1 t1 cs ts : Int)
    (A B A2 B2 : List (Int × Int))
    (hc0 : 0 < c0)
    (hA : ∀ p ∈ A, 0 < p.1 ∧ max 0 (p.2 - t0) < cfg.dwellMsToGreet)
    (hcg : 0 < cg) (hd1 : cfg.dwellMsToGreet ≤ max 0 (tg - t0))
    (hB : ∀ p ∈ B, 0 < p.1)
    (hc1 : 0 < c1)
    (hA2 : ∀ p ∈ A2, 0 < p.1 ∧ max 0 (p.2 - t1) < cfg.dwellMsToGreet)
    (hcs : 0 < cs) (hd2 : cfg.dwellMsToGreet ≤ max 0 (ts - t1))
    (hcool : ts - tg < cfg.greetCooldownMs)
    (hB2 : ∀ p ∈ B2, 0 < p.1 ∧ p.2 - tg < cfg.greetCooldownMs) :
    perCallEvents cfg
      ((c0, t0) :: (A ++ (cg, tg) :: (B ++ (0, tx) :: (c1, t1)
        :: (A2 ++ (cs, ts) :: B2))))
      = [[.enter t0 c0]] ++ (A.map fun _ => [])
        ++ [[.greet tg cg (max 0 (tg - t0))]] ++ (B.map fun _ => [])
        ++ [[.exit tx 0], [.enter t1 c1]] ++ (A2.map fun _ => [])
        ++ [[.greetSuppressed ts cs (max 0 (ts - t1))]]
        ++ (B2.map fun _ => []) := by
  have e1 : update cfg INITIAL_STATE c0 t0
      = (⟨.present, some t0, false, false, none⟩, [.enter t0 c0]) := by
    rw [update_enter_step cfg INITIAL_STATE c0 t0 rfl hc0]
    rfl
  have e2 : runUpdates cfg ⟨.present, some t0, false, false, none⟩ A
      = (⟨.present, some t0, false, false, none⟩, A.map fun _ => []) :=
    runUpdates_dwell_silent cfg _ A rfl rfl (by simpa using hA)
  have e3 : update cfg ⟨.present, some t0, false, false, none⟩ cg tg
      = (⟨.present, some t0, true, false, some tg⟩, [.greet tg cg (max 0 (tg - t0))]) := by
    rw [update_greet_step cfg ⟨.present, some t0, false, false, none⟩ cg tg rfl hcg rfl
      (by simpa using hd1) rfl]
    rfl
  have e4 : runUpdates cfg ⟨.present, some t0, true, false, some tg⟩ B
      = (⟨.present, some t0, true, false, some tg⟩, B.map fun _ => []) :=
    runUpdates_greeted_silent cfg _ B rfl rfl hB
  have e5 : update cfg ⟨.present, some t0, true, false, some tg⟩ 0 tx
      = (⟨.noPresence, none, false, false, some tg⟩, [.exit tx 0]) := by
    rw [update_exit_step cfg ⟨.present, some t0, true, false, some tg⟩ 0 tx rfl le_rfl]
  have e6 : update cfg ⟨.noPresence, none, false, false, some tg⟩ c1 t1
      = (⟨.present, some t1, false, false, some tg⟩, [.enter t1 c1]) := by
    rw [update_enter_step cfg ⟨.noPresence, none, false, false, some tg⟩ c1 t1 rfl hc1]
  have e7 : runUpdates cfg ⟨.present, some t1, false, false, some tg⟩ A2
      = (⟨.present, some t1, false, false, some tg⟩, A2.map fun _ => []) :=
    runUpdates_dwell_silent cfg _ A2 rfl rfl (by simpa using hA2)
  have e8 : update cfg ⟨.present, some t1, false, false, some tg⟩ cs ts
      = (⟨.present, some t1, false, true, some tg⟩,
         [.greetSuppressed ts cs (max 0 (ts - t1))]) := by
    rw [update_suppress_step cfg ⟨.present, some t1, false, false, some tg⟩ cs ts rfl hcs rfl
      (by simpa using hd2) (by simp [isInCooldown, hcool]) rfl]
    rfl
  have e9 : runUpdates cfg ⟨.present, some t1, false, true, some tg⟩ B2
      = (⟨.present, some t1, false, true, some tg⟩, B2.map fun _ => []) :=
    runUpdates_suppressed_silent cfg _ tg B2 rfl rfl rfl rfl hB2
  have r8 := runUpdates_cons_of cfg _ _ _ cs ts _ B2 _ e8 e9
  have r7 := runUpdates_append_of cfg _ _ _ A2 ((cs, ts) :: B2) _ _ e7 r8
  have r6 := runUpdates_cons_of cfg _ _ _ c1 t1 _ (A2 ++ (cs, ts) :: B2) _ e6 r7
  have r5 := runUpdates_cons_of cfg _ _ _ 0 tx _ ((c1, t1) :: (A2 ++ (cs, ts) :: B2)) _ e5 r6
  have r4 := runUpdates_append_of cfg _ _ _ B
    ((0, tx) :: (c1, t1) :: (A2 ++ (cs, ts) :: B2)) _ _ e4 r5
  have r3 := runUpdates_cons_of cfg _ _ _ cg tg _
    (B ++ (0, tx) :: (c1, t1) :: (A2 ++ (cs, ts) :: B2)) _ e3 r4
  have r2 := runUpdates_append_of cfg _ _ _ A
    ((cg, tg) :: (B ++ (0, tx) :: (c1, t1) :: (A2 ++ (cs, ts) :: B2))) _ _ e2 r3
  have r1 := runUpdates_cons_of cfg _ _ _ c0 t0 _
    (A ++ (cg, tg) :: (B ++ (0, tx) :: (c1, t1) :: (A2 ++ (cs, ts) :: B2))) _ e1 r2
  show (runUpdates cfg INITIAL_STATE _).2 = _
  rw [r1]
  simp

/-- Witness for C2 with dwell 5 ms, cooldown 100 ms, and concrete visits. -/
theorem C2_second_visit_suppressed_once_witness :
    ((0:Int) < 1 ∧ ((5:Int) ≤ max 0 ((10:Int) - 0)) ∧ ((40:Int) - 10 < 100) ∧
      (∀ p ∈ [((1:Int), (50:Int))], 0 < p.1 ∧ p.2 - 10 < 100)) ∧
    perCallEvents ⟨5, 100⟩
        ((1, 0) :: (([] : List (Int × Int)) ++ (1, 10) :: (([] : List (Int × Int))
          ++ (0, 20) :: (1, 30) :: (([] : List (Int × Int)) ++ (1, 40) :: [(1, 50)]))))
      = [[.enter 0 1]] ++ (([] : List (Int × Int)).map fun _ => [])
        ++ [[.greet 10 1 (max 0 ((10:Int) - 0))]] ++ (([] : List (Int × Int)).map fun _ => [])
        ++ [[.exit 20 0], [.enter 30 1]] ++ (([] : List (Int × Int)).map fun _ => [])
        ++ [[.greetSuppressed 40 1 (max 0 ((40:Int) - 30))]]
        ++ ([((1:Int), (50:Int))].map fun _ => []) :=
  ⟨⟨by decide, by decide, by decide, by decide⟩,
    C2_second_visit_suppressed_once ⟨5, 100⟩ 1 0 1 10 20 1 30 1 40 [] [] [] [(1, 50)]
      (by decide) (by decide) (by decide) (by decide) (by decide) (by decide)
      (by decide) (by decide) (by decide) (by decide) (by decide)⟩

/-! ## DetectionFilter (src/app/vision/presence/FaceTrackManager.ts) -/

structure NormalizedBoundingBox where
  xMin : ℚ
  yMin : ℚ
  width : ℚ
  height : ℚ
  deriving DecidableEq, Repr

structure FaceDetection where
  confidence : ℚ
  boundingBox : NormalizedBoundingBox
  deriving DecidableEq, Repr

/-- Source fields minFaceAreaRatio / interactionZoneMarginRatio. -/
structure DetectionFilterSettings where
  minFaceAreaFrac : ℚ
  interactionZoneMarginFrac : ℚ
  deriving DecidableEq, Repr

/-- Source reason strings: belowMinConfidence, belowMinFaceAreaRatio,
outsideInteractionZone. -/
inductive DetectionRejectionReason where
  | belowMinConfidence
  | belowMinFaceAreaFrac
  | outsideInteractionZone
  deriving DecidableEq, Repr

/-- clampToUnit; the source's Number.isFinite branch is unrepresentable in ℚ
(every rational is finite) and is omitted. -/
def clampToUnit (value : ℚ) : ℚ :=
  if value < 0 then 0 else if value > 1 then 1 else value

def getBoxCenter (box : NormalizedBoundingBox) : ℚ × ℚ :=
  (box.xMin + box.width / 2, box.yMin + box.height / 2)

/-- Source: computeAreaRatio. -/
def computeAreaFrac (box : NormalizedBoundingBox) : ℚ :=
  clampToUnit box.width * clampToUnit box.height

def isInInteractionZone (box : NormalizedBoundingBox) (marginFrac : ℚ) : Bool :=
  marginFrac ≤ (getBoxCenter box).1 ∧ (getBoxCenter box).1 ≤ 1 - marginFrac ∧
    marginFrac ≤ (getBoxCenter box).2 ∧ (getBoxCenter box).2 ≤ 1 - marginFrac

/-- The rejection reasons accumulated for one detection, in push order. -/
def computeRejectionReasons (minConfidence : ℚ) (fs : DetectionFilterSettings)
    (d : FaceDetection) : List DetectionRejectionReason :=
  (if d.confidence < minConfidence then [.belowMinConfidence] else [])
  ++ (if computeAreaFrac d.boundingBox < fs.minFaceAreaFrac
      then [.belowMinFaceAreaFrac] else [])
  ++ (if ¬ isInInteractionZone d.boundingBox fs.interactionZoneMarginFrac
      then [.outsideInteractionZone] else [])

/-- filterDetectionsForPresence: a detection goes to acceptedDetections when
its reason list is empty, to rejectedDetections (with its reasons) otherwise,
preserving input order. -/
def filterDetectionsForPresence (detections : List FaceDetection) (minConfidence : ℚ)
    (fs : DetectionFilterSettings) :
    List FaceDetection × List (FaceDetection × List DetectionRejectionReason) :=
  match detections with
  | [] => ([], [])
  | d :: rest =>
    let tail := filterDetectionsForPresence rest minConfidence fs
    let reasons := computeRejectionReasons minConfidence fs d
    if reasons = [] then (d :: tail.1, tail.2)
    else (tail.1, (d, reasons) :: tail.2)

/-! ### Claim C7 -/

/-- Claim C7: the filter accepts a detection exactly when it accrues zero
rejection reasons, and all three threshold comparisons are inclusive at the
boundary: confidence exactly equal to minConfidence, area exactly equal to
minFaceAreaRatio, and a box center exactly on the margin-inset zone boundary
each pass their respective check (so such a detection is accepted when it
fails no other criterion). -/
theorem C7_filter_accept_iff_no_reason_boundary_inclusive
    (dets : List FaceDetection) (minConfidence : ℚ) (fs : DetectionFilterSettings) :
    ((filterDetectionsForPresence dets minConfidence fs).1
        = dets.filter (fun d => computeRejectionReasons minConfidence fs d
            = ([] : List DetectionRejectionReason)) ∧
      (filterDetectionsForPresence dets minConfidence fs).2
        = (dets.filter (fun d => ¬ computeRejectionReasons minConfidence fs d
            = ([] : List DetectionRejectionReason))).map
            (fun d => (d, computeRejectionReasons minConfidence fs d))) ∧
    (∀ d : FaceDetection, d.confidence = minConfidence →
      fs.minFaceAreaFrac ≤ computeAreaFrac d.boundingBox →
      isInInteractionZone d.boundingBox fs.interactionZoneMarginFrac = true →
      computeRejectionReasons minConfidence fs d = []) ∧
    (∀ d : FaceDetection, computeAreaFrac d.boundingBox = fs.minFaceAreaFrac →
      minConfidence ≤ d.confidence →
      isInInteractionZone d.boundingBox fs.interactionZoneMarginFrac = true →
      computeRejectionReasons minConfidence fs d = []) ∧
    (∀ d : FaceDetection,
      ((((getBoxCenter d.boundingBox).1 = fs.interactionZoneMarginFrac ∨
          (getBoxCenter d.boundingBox).1 = 1 - fs.interactionZoneMarginFrac) ∧
         fs.interactionZoneMarginFrac ≤ (getBoxCenter d.boundingBox).2 ∧
         (getBoxCenter d.boundingBox).2 ≤ 1 - fs.interactionZoneMarginFrac) ∨
       (((getBoxCenter d.boundingBox).2 = fs.interactionZoneMarginFrac ∨
          (getBoxCenter d.boundingBox).2 = 1 - fs.interactionZoneMarginFrac) ∧
         fs.interactionZoneMarginFrac ≤ (getBoxCenter d.boundingBox).1 ∧
         (getBoxCenter d.boundingBox).1 ≤ 1 - fs.interactionZoneMarginFrac)) →
      minConfidence ≤ d.confidence →
      fs.minFaceAreaFrac ≤ computeAreaFrac d.boundingBox →
      computeRejectionReasons minConfidence fs d = []) := by
  refine ⟨⟨?_, ?_⟩, ?_, ?_, ?_⟩
  · induction dets with
    | nil => rfl
    | cons d rest ih =>
      by_cases h : computeRejectionReasons minConfidence fs d = []
      · simp [filterDetectionsForPresence, h, ih]
      · simp [filterDetectionsForPresence, h, ih]
  · induction dets with
    | nil => rfl
    | cons d rest ih =>
      by_cases h : computeRejectionReasons minConfidence fs d = []
      · simp [filterDetectionsForPresence, h, ih]
      · simp [filterDetectionsForPresence, h, ih]
  · intro d h1 h2 h3
    simp [computeRejectionReasons, h1, lt_irrefl, not_lt.mpr h2, h3]
  · intro d h1 h2 h3
    simp [computeRejectionReasons, h1, lt_irrefl, not_lt.mpr h2, h3]
  · intro d hzone hconf harea
    have hz : isInInteractionZone d.boundingBox fs.interactionZoneMarginFrac = true := by
      have hmm : fs.interactionZoneMarginFrac ≤ 1 - fs.interactionZoneMarginFrac := by
        rcases hzone with ⟨_, hy1, hy2⟩ | ⟨_, hx1, hx2⟩
        · linarith
        · linarith
      simp only [isInInteractionZone, decide_eq_true_eq]
      rcases hzone with ⟨hx, hy1, hy2⟩ | ⟨hy, hx1, hx2⟩
      · rcases hx with hx | hx
        · exact ⟨le_of_eq hx.symm, by rw [hx]; exact hmm, hy1, hy2⟩
        · exact ⟨by rw [hx]; exact hmm, le_of_eq hx, hy1, hy2⟩
      · rcases hy with hy | hy
        · exact ⟨hx1, hx2, le_of_eq hy.symm, by rw [hy]; exact hmm⟩
        · exact ⟨hx1, hx2, by rw [hy]; exact hmm, le_of_eq hy⟩
    simp [computeRejectionReasons, not_lt.mpr hconf, not_lt.mpr harea, hz]

/-- Witness for C7: a detection sitting exactly on all three boundaries
(confidence = minConfidence, center at x = margin) is accepted. -/
theorem C7_filter_witness :
    (((⟨1/2, ⟨0, 2/5, 1/5, 1/5⟩⟩ : FaceDetection).confidence = 1/2 ∧
      (1:ℚ)/100 ≤ computeAreaFrac (⟨0, 2/5, 1/5, 1/5⟩ : NormalizedBoundingBox) ∧
      isInInteractionZone (⟨0, 2/5, 1/5, 1/5⟩ : NormalizedBoundingBox) (1/10) = true) ∧
    computeRejectionReasons (1/2) ⟨1/100, 1/10⟩ ⟨1/2, ⟨0, 2/5, 1/5, 1/5⟩⟩ = []) ∧
    (filterDetectionsForPresence [⟨1/2, ⟨0, 2/5, 1/5, 1/5⟩⟩] (1/2) ⟨1/100, 1/10⟩).1
      = [⟨1/2, ⟨0, 2/5, 1/5, 1/5⟩⟩] :=
  ⟨⟨⟨rfl, by norm_num [computeAreaFrac, clampToUnit],
      by norm_num [isInInteractionZone, getBoxCenter]⟩,
    (C7_filter_accept_iff_no_reason_boundary_inclusive
        [⟨1/2, ⟨0, 2/5, 1/5, 1/5⟩⟩] (1/2) ⟨1/100, 1/10⟩).2.1
      ⟨1/2, ⟨0, 2/5, 1/5, 1/5⟩⟩ rfl (by norm_num [computeAreaFrac, clampToUnit])
      (by norm_num [isInInteractionZone, getBoxCenter])⟩,
   by norm_num [filterDetectionsForPresence, computeRejectionReasons, computeAreaFrac,
     clampToUnit, isInInteractionZone, getBoxCenter]⟩

/-! ## HungarianAssignment (solveHungarianAssignment; HungarianAssignment.ts,
included in the src/app/page.test.tsx bundle)

The imperative arrays u, v, p, way, minv, used (all indexed 0..size, used
1-based like the source) are embedded as functions from ℕ with pointwise
update; every access in the source is in bounds, so this is faithful.  The
float +Infinity initial value of minv (and of delta) is represented by
Option ℚ with none = +Infinity.  The two do/while loops are embedded with
explicit fuel; the source loops terminate within size+1 iterations, and the
fuel size+2 never runs out (fuel exhaustion is a distinct error string). -/

def LARGE_FINITE_COST : ℚ := 1000000

/-- toFiniteCost: the Number.isFinite branch cannot fire on ℚ inputs (every
rational is finite), so this is the identity on the embedded domain. -/
def toFiniteCost (value : ℚ) : ℚ := value

/-- assertSquareCostMatrix.  The per-value finiteness loop is vacuous on ℚ
and does not appear; the emptiness and squareness checks are as in the
source. -/
def assertSquareCostMatrix (costMatrix : List (List ℚ)) : Except String Unit :=
  if costMatrix.length = 0 then
    .error "Cost matrix must be a non-empty square matrix"
  else if costMatrix.all (fun row => row.length = costMatrix.length) then
    .ok ()
  else
    .error "Cost matrix must be square (same row length)"

/-- Pointwise function update, modelling a single array-cell write. -/
def upd {α : Type} (f : ℕ → α) (i : ℕ) (x : α) : ℕ → α :=
  fun j => if j = i then x else f j

/-- Strict order on ℚ ∪ \x7b+∞\x7d (none is +Infinity). -/
def oLT : Option ℚ → Option ℚ → Bool
  | some a, some b => a < b
  | some _, none => true
  | none, _ => false

/-- Subtraction of a finite delta on ℚ ∪ \x7b+∞\x7d. -/
def oSub (x : Option ℚ) (d : ℚ) : Option ℚ :=
  match x with
  | none => none
  | some a => some (a - d)

/-- Matrix cell read costMatrix[i][j]; always in bounds in the source. -/
def costAt (m : List (List ℚ)) (i j : ℕ) : ℚ :=
  (m.getD i []).getD j 0

/-- The inner `for columnIndex in 1..size` scan of one do/while iteration:
updates minv and way with improved reduced costs and tracks the running
minimum delta (with its column column1). -/
def scanCols (cost : ℕ → ℕ → ℚ) (uPot vPot : ℕ → ℚ) (row0 column0 : ℕ)
    (used : ℕ → Bool) :
    List ℕ → ((ℕ → Option ℚ) × (ℕ → ℕ) × Option ℚ × ℕ) →
    ((ℕ → Option ℚ) × (ℕ → ℕ) × Option ℚ × ℕ)
  | [], st => st
  | j :: rest, (minv, way, delta, column1) =>
    if used j then
      scanCols cost uPot vPot row0 column0 used rest (minv, way, delta, column1)
    else
      let reduced := toFiniteCost (cost (row0 - 1) (j - 1)) - uPot row0 - vPot j
      let minv2 := if oLT (some reduced) (minv j) then upd minv j (some reduced) else minv
      let way2 := if oLT (some reduced) (minv j) then upd way j column0 else way
      if oLT (minv2 j) delta then
        scanCols cost uPot vPot row0 column0 used rest (minv2, way2, minv2 j, j)
      else
        scanCols cost uPot vPot row0 column0 used rest (minv2, way2, delta, column1)

/-- The `for columnIndex in 0..size` potential update after delta is found:
used columns shift u (at p[column]) and v, unused columns shift minv. -/
def applyDelta (p : ℕ → ℕ) (used : ℕ → Bool) (delta : ℚ) :
    List ℕ → ((ℕ → ℚ) × (ℕ → ℚ) × (ℕ → Option ℚ)) →
    ((ℕ → ℚ) × (ℕ → ℚ) × (ℕ → Option ℚ))
  | [], st => st
  | j :: rest, (uPot, vPot, minv) =>
    if used j then
      applyDelta p used delta rest
        (upd uPot (p j) (uPot (p j) + delta), upd vPot j (vPot j - delta), minv)
    else
      applyDelta p used delta rest (uPot, vPot, upd minv j (oSub (minv j) delta))

/-- The outer do/while loop of one row (shortest augmenting path search),
with fuel.  Returns the updated potentials, way and the final column0. -/
def hungarianLoop (size : ℕ) (cost : ℕ → ℕ → ℚ) (p : ℕ → ℕ) :
    ℕ → (ℕ → ℚ) → (ℕ → ℚ) → (ℕ → ℕ) → (ℕ → Bool) → (ℕ → Option ℚ) → ℕ →
    Except String ((ℕ → ℚ) × (ℕ → ℚ) × (ℕ → ℕ) × ℕ)
  | 0, _, _, _, _, _, _ =>
    .error "Hungarian assignment failed: loop fuel exhausted"
  | fuel + 1, uPot, vPot, way, used, minv, column0 =>
    let used2 := upd used column0 true
    let row0 := p column0
    match scanCols cost uPot vPot row0 column0 used2 (List.range' 1 size)
        (minv, way, none, 0) with
    | (minv2, way2, deltaOpt, column1) =>
      match deltaOpt with
      | none => .error "Hungarian assignment failed: delta became infinite"
      | some delta =>
        match applyDelta p used2 delta (List.range (size + 1)) (uPot, vPot, minv2) with
        | (u2, v2, minv3) =>
          if p column1 ≠ 0 then
            hungarianLoop size cost p fuel u2 v2 way2 used2 minv3 column1
          else
            .ok (u2, v2, way2, column1)

/-- The final do/while that flips the matching along the way-links, with
fuel. -/
def augmentPath (way : ℕ → ℕ) : ℕ → (ℕ → ℕ) → ℕ → Except String (ℕ → ℕ)
  | 0, _, _ =>
    .error "Hungarian assignment failed: augment fuel exhausted"
  | fuel + 1, p, column0 =>
    let column1 := way column0
    let p2 := upd p column0 (p column1)
    if column1 ≠ 0 then augmentPath way fuel p2 column1
    else .ok p2

/-- One iteration of the outer `for rowIndex in 1..size` loop. -/
def processRow (size : ℕ) (cost : ℕ → ℕ → ℚ)
    (st : (ℕ → ℚ) × (ℕ → ℚ) × (ℕ → ℕ) × (ℕ → ℕ)) (rowIndex : ℕ) :
    Except String ((ℕ → ℚ) × (ℕ → ℚ) × (ℕ → ℕ) × (ℕ → ℕ)) :=
  match st with
  | (uPot, vPot, p, way) =>
    let p0 := upd p 0 rowIndex
    match hungarianLoop size cost p0 (size + 2) uPot vPot way
        (fun _ => false) (fun _ => none) 0 with
    | .error e => .error e
    | .ok (u2, v2, way2, column0) =>
      match augmentPath way2 (size + 2) p0 column0 with
      | .error e => .error e
      | .ok p2 => .ok (u2, v2, p2, way2)

def processRows (size : ℕ) (cost : ℕ → ℕ → ℚ) :
    List ℕ → ((ℕ → ℚ) × (ℕ → ℚ) × (ℕ → ℕ) × (ℕ → ℕ)) →
    Except String ((ℕ → ℚ) × (ℕ → ℚ) × (ℕ → ℕ) × (ℕ → ℕ))
  | [], st => .ok st
  | r :: rest, st =>
    match processRow size cost st r with
    | .error e => .error e
    | .ok st2 => processRows size cost rest st2

/-- Read the assignment array out of the final column→row matching p:
assignment is filled with -1, then assignment[p[c]-1] = c-1 for every
column c with p[c] > 0. -/
def buildAssignment (size : ℕ) (p : ℕ → ℕ) : List Int :=
  let asg := (List.range' 1 size).foldl
    (fun (asg : ℕ → Int) columnIndex =>
      if p columnIndex > 0 then
        upd asg (p columnIndex - 1) ((columnIndex - 1 : ℕ) : Int)
      else asg)
    (fun _ => -1)
  (List.range size).map asg

/-- solveHungarianAssignment: validate, run the row loop from zeroed
potentials and empty matching, and extract the assignment. -/
def solveHungarianAssignment (costMatrix : List (List ℚ)) : Except String (List Int) :=
  match assertSquareCostMatrix costMatrix with
  | .error e => .error e
  | .ok _ =>
    let size := costMatrix.length
    match processRows size (costAt costMatrix) (List.range' 1 size)
        (fun _ => 0, fun _ => 0, fun _ => 0, fun _ => 0) with
    | .error e => .error e
    | .ok st => .ok (buildAssignment size st.2.2.1)

/-! ## FaceTrackManager (src/app/vision/presence/FaceTrackManager.ts) -/

structure FaceTrack where
  trackId : ℕ
  latestBoundingBox : NormalizedBoundingBox
  latestConfidence : ℚ
  firstMatchedAtMs : Int
  lastMatchedAtMs : Int
  missedFrameCount : ℕ
  consecutiveMatchCount : ℕ
  deriving DecidableEq, Repr

structure FaceTrackSettings where
  assignmentIouThreshold : ℚ
  trackMaxMissedFrames : ℕ
  stableFramesRequired : ℕ
  deriving DecidableEq, Repr

def UNASSIGNED_COST : ℚ := 99 / 100

def UNMATCHABLE_COST : ℚ := 1000000

def defaultBox : NormalizedBoundingBox := ⟨0, 0, 0, 0⟩

def defaultDetection : FaceDetection := ⟨0, defaultBox⟩

def defaultTrack : FaceTrack := ⟨0, defaultBox, 0, 0, 0, 0, 0⟩

def computeIntersectionOverUnion (a b : NormalizedBoundingBox) : ℚ :=
  let ax1 := a.xMin
  let ay1 := a.yMin
  let ax2 := a.xMin + a.width
  let ay2 := a.yMin + a.height
  let bx1 := b.xMin
  let by1 := b.yMin
  let bx2 := b.xMin + b.width
  let by2 := b.yMin + b.height
  let ix1 := max ax1 bx1
  let iy1 := max ay1 by1
  let ix2 := min ax2 bx2
  let iy2 := min ay2 by2
  let intersectionWidth := max 0 (ix2 - ix1)
  let intersectionHeight := max 0 (iy2 - iy1)
  let intersectionArea := intersectionWidth * intersectionHeight
  let areaA := max 0 (ax2 - ax1) * max 0 (ay2 - ay1)
  let areaB := max 0 (bx2 - bx1) * max 0 (by2 - by1)
  let unionArea := areaA + areaB - intersectionArea
  if unionArea ≤ 0 then 0 else intersectionArea / unionArea

/-- toSquareCostMatrix: pads to max(trackCount, detectionCount); padding
vs padding cells cost 0, cells with exactly one real side cost
UNASSIGNED_COST, real pairs below the IoU threshold cost UNMATCHABLE_COST,
and real pairs at or above it cost 1 - IoU.  Returns (costMatrix,
paddedSize, trackCount, detectionCount). -/
def toSquareCostMatrix (tracks : List FaceTrack) (detections : List FaceDetection)
    (assignmentIouThreshold : ℚ) : List (List ℚ) × ℕ × ℕ × ℕ :=
  let trackCount := tracks.length
  let detectionCount := detections.length
  let paddedSize := max trackCount detectionCount
  let costMatrix := (List.range paddedSize).map (fun rowIndex =>
    (List.range paddedSize).map (fun columnIndex =>
      let hasTrack := rowIndex < trackCount
      let hasDetection := columnIndex < detectionCount
      if ¬ hasTrack ∧ ¬ hasDetection then 0
      else if ¬ hasTrack ∨ ¬ hasDetection then UNASSIGNED_COST
      else
        let track := tracks.getD rowIndex defaultTrack
        let detection := detections.getD columnIndex defaultDetection
        let iou := computeIntersectionOverUnion track.latestBoundingBox
          detection.boundingBox
        if iou < assignmentIouThreshold then UNMATCHABLE_COST
        else 1 - iou))
  (costMatrix, paddedSize, trackCount, detectionCount)

structure AssignmentEntry where
  trackId : ℕ
  detectionIndex : ℕ
  iou : ℚ
  cost : ℚ
  deriving DecidableEq, Repr

structure TrackUpdateResult where
  tracks : List FaceTrack
  stableTracks : List FaceTrack
  assignments : List AssignmentEntry
  createdTrackIds : List ℕ
  removedTrackIds : List ℕ
  deriving DecidableEq, Repr

/-- The manager's private mutable state: nextTrackId counter and live track
list.  Construction and reset both give ManagerState.initial. -/
structure ManagerState where
  nextTrackId : ℕ
  tracks : List FaceTrack
  deriving DecidableEq, Repr

def ManagerState.initial : ManagerState := ⟨1, []⟩

/-- The body of the per-row acceptance loop: row rowIndex is accepted as a
match when it has a track, the solver gave it a real detection column, and
the recomputed IoU is at or above the threshold (the guard against the
solver landing on a padded or sentinel slot).  Rows ≥ trackCount are
skipped by the source's hasTrack test, so iterating rows over the track
count below is equivalent to iterating over paddedSize. -/
def assignEntryForRow (thr : ℚ) (tracks : List FaceTrack) (dets : List FaceDetection)
    (assignmentByRow : List Int) (rowIndex : ℕ) : Option AssignmentEntry :=
  match tracks.get? rowIndex with
  | none => none
  | some track =>
    if assignmentByRow.getD rowIndex (-1) < 0 then none
    else
      match dets.get? (assignmentByRow.getD rowIndex (-1)).toNat with
      | none => none
      | some detection =>
        if computeIntersectionOverUnion track.latestBoundingBox
            detection.boundingBox < thr then none
        else
          some ⟨track.trackId, (assignmentByRow.getD rowIndex (-1)).toNat,
            computeIntersectionOverUnion track.latestBoundingBox detection.boundingBox,
            1 - computeIntersectionOverUnion track.latestBoundingBox detection.boundingBox⟩

def matchForRow (thr : ℚ) (tracks : List FaceTrack) (dets : List FaceDetection)
    (assignmentByRow : List Int) (rowIndex : ℕ) : Option ℕ :=
  (assignEntryForRow thr tracks dets assignmentByRow rowIndex).map
    (fun e => e.detectionIndex)

def buildAssignments (thr : ℚ) (tracks : List FaceTrack) (dets : List FaceDetection)
    (assignmentByRow : List Int) : List AssignmentEntry :=
  (List.range tracks.length).filterMap (assignEntryForRow thr tracks dets assignmentByRow)

/-- The matched/missed/evict pass over the existing tracks, paired with
their matched detection index (none = miss). -/
def stepExistingTracks (cfg : FaceTrackSettings) (dets : List FaceDetection)
    (detectedAtMs : Int) : List (FaceTrack × Option ℕ) → List FaceTrack × List ℕ
  | [] => ([], [])
  | (track, none) :: rest =>
    let tail := stepExistingTracks cfg dets detectedAtMs rest
    let nextMissedFrameCount := track.missedFrameCount + 1
    if nextMissedFrameCount > cfg.trackMaxMissedFrames then
      (tail.1, track.trackId :: tail.2)
    else
      ({ track with
          missedFrameCount := nextMissedFrameCount
          consecutiveMatchCount := 0 } :: tail.1, tail.2)
  | (track, some detectionIndex) :: rest =>
    let tail := stepExistingTracks cfg dets detectedAtMs rest
    let detection := dets.getD detectionIndex defaultDetection
    ({ track with
        latestBoundingBox := detection.boundingBox
        latestConfidence := detection.confidence
        lastMatchedAtMs := detectedAtMs
        missedFrameCount := 0
        consecutiveMatchCount := track.consecutiveMatchCount + 1 } :: tail.1, tail.2)

/-- The new-track pass over the detections paired with whether they were
matched; returns (new tracks, createdTrackIds, new nextTrackId). -/
def createNewTracks (detectedAtMs : Int) :
    ℕ → List (FaceDetection × Bool) → List FaceTrack × List ℕ × ℕ
  | nextId, [] => ([], [], nextId)
  | nextId, (detection, matched) :: rest =>
    if matched then createNewTracks detectedAtMs nextId rest
    else
      let tail := createNewTracks detectedAtMs (nextId + 1) rest
      ({ trackId := nextId
         latestBoundingBox := detection.boundingBox
         latestConfidence := detection.confidence
         firstMatchedAtMs := detectedAtMs
         lastMatchedAtMs := detectedAtMs
         missedFrameCount := 0
         consecutiveMatchCount := 1 } :: tail.1, nextId :: tail.2.1, tail.2.2)

/-- Everything FaceTrackManager.update does after the solver call, as a
function of the solver's assignment. -/
def updateWithAssignment (cfg : FaceTrackSettings) (s : ManagerState)
    (detections : List FaceDetection) (detectedAtMs : Int)
    (assignmentByRow : List Int) : ManagerState × TrackUpdateResult :=
  let matched := (List.range s.tracks.length).map
    (matchForRow cfg.assignmentIouThreshold s.tracks detections assignmentByRow)
  let assignments := buildAssignments cfg.assignmentIouThreshold s.tracks
    detections assignmentByRow
  let existing := stepExistingTracks cfg detections detectedAtMs (s.tracks.zip matched)
  let matchedSet := matched.filterMap id
  let created := createNewTracks detectedAtMs s.nextTrackId
    (detections.enum.map (fun q => (q.2, matchedSet.contains q.1)))
  let nextTracks := existing.1 ++ created.1
  let stableTracks := nextTracks.filter
    (fun track => cfg.stableFramesRequired ≤ track.consecutiveMatchCount)
  (⟨created.2.2, nextTracks⟩,
   ⟨nextTracks, stableTracks, assignments, created.2.1, existing.2⟩)

/-- FaceTrackManager.update as a pure step on ManagerState. -/
def FaceTrackManager.update (cfg : FaceTrackSettings) (s : ManagerState)
    (detections : List FaceDetection) (detectedAtMs : Int) :
    Except String (ManagerState × TrackUpdateResult) :=
  match solveHungarianAssignment
      (toSquareCostMatrix s.tracks detections cfg.assignmentIouThreshold).1 with
  | .error e => .error e
  | .ok assignmentByRow =>
    .ok (updateWithAssignment cfg s detections detectedAtMs assignmentByRow)

/-- A session: a sequence of update calls from a given state; fails if any
update call throws. -/
def runManager (cfg : FaceTrackSettings) :
    ManagerState → List (List FaceDetection × Int) →
    Except String (ManagerState × List TrackUpdateResult)
  | s, [] => .ok (s, [])
  | s, (dets, t) :: rest =>
    match FaceTrackManager.update cfg s dets t with
    | .error e => .error e
    | .ok (s2, r) =>
      match runManager cfg s2 rest with
      | .error e => .error e
      | .ok (s3, rs) => .ok (s3, r :: rs)

/-! ### Claim C5 -/

theorem assignEntryForRow_spec (thr : ℚ) (tracks : List FaceTrack)
    (dets : List FaceDetection) (asg : List Int) (i : ℕ) (e : AssignmentEntry)
    (h : assignEntryForRow thr tracks dets asg i = some e) :
    thr ≤ e.iou ∧
    ∃ track, tracks.get? i = some track ∧ e.trackId = track.trackId ∧
      ∃ det, dets.get? e.detectionIndex = some det ∧
        e.iou = computeIntersectionOverUnion track.latestBoundingBox det.boundingBox := by
  unfold assignEntryForRow at h
  split at h
  · exact absurd h (by simp)
  · rename_i track htr
    split at h
    · exact absurd h (by simp)
    · split at h
      · exact absurd h (by simp)
      · rename_i det hdet
        split at h
        · exact absurd h (by simp)
        · rename_i hio
          have he := Option.some.inj h
          subst he
          exact ⟨le_of_not_lt hio, track, htr, rfl, det, hdet, rfl⟩

/-- Claim C5: every accepted track-detection match in the returned
assignments list has IoU (between the track's previous bounding box and the
matched detection's bounding box, which is the recorded iou field) at or
above assignmentIouThreshold; solver columns landing on padding or
below-threshold pairs never produce an assignment entry. -/
theorem C5_assignments_at_or_above_iou_threshold (cfg : FaceTrackSettings)
    (s s2 : ManagerState) (dets : List FaceDetection) (t : Int)
    (r : TrackUpdateResult)
    (h : FaceTrackManager.update cfg s dets t = .ok (s2, r)) :
    ∀ e ∈ r.assignments, cfg.assignmentIouThreshold ≤ e.iou ∧
      ∃ track, track ∈ s.tracks ∧ e.trackId = track.trackId ∧
        ∃ det, dets.get? e.detectionIndex = some det ∧
          e.iou = computeIntersectionOverUnion track.latestBoundingBox
            det.boundingBox := by
  intro e he
  simp only [FaceTrackManager.update] at h
  cases hsol : solveHungarianAssignment
      (toSquareCostMatrix s.tracks dets cfg.assignmentIouThreshold).1 with
  | error msg => rw [hsol] at h; exact absurd h (by simp)
  | ok asg =>
    rw [hsol] at h
    have hr : r = (updateWithAssignment cfg s dets t asg).2 := by
      have hpair := Except.ok.inj h
      rw [hpair]
    rw [hr] at he
    have hasg : (updateWithAssignment cfg s dets t asg).2.assignments
        = buildAssignments cfg.assignmentIouThreshold s.tracks dets asg := rfl
    rw [hasg, buildAssignments, List.mem_filterMap] at he
    obtain ⟨i, _, hEntry⟩ := he
    obtain ⟨hiou, track, htr, hid, det, hdet, hieq⟩ :=
      assignEntryForRow_spec cfg.assignmentIouThreshold s.tracks dets asg i e hEntry
    exact ⟨hiou, track, List.get?_mem htr, hid, det, hdet, hieq⟩

/-- Witness for C5: one track and one identical detection; the single
assignment entry has iou 1 ≥ threshold 1/2. -/
theorem C5_assignments_witness :
    (1:ℚ)/2 ≤ (⟨1, 0, 1, 0⟩ : AssignmentEntry).iou ∧
    ∃ track, track ∈ [(⟨1, ⟨0, 0, 1/2, 1/2⟩, 1, 0, 0, 0, 1⟩ : FaceTrack)] ∧
      (⟨1, 0, 1, 0⟩ : AssignmentEntry).trackId = track.trackId ∧
      ∃ det, ([(⟨1, ⟨0, 0, 1/2, 1/2⟩⟩ : FaceDetection)]).get?
          (⟨1, 0, 1, 0⟩ : AssignmentEntry).detectionIndex = some det ∧
        (⟨1, 0, 1, 0⟩ : AssignmentEntry).iou =
          computeIntersectionOverUnion track.latestBoundingBox det.boundingBox :=
  C5_assignments_at_or_above_iou_threshold ⟨1/2, 1, 3⟩
    ⟨2, [⟨1, ⟨0, 0, 1/2, 1/2⟩, 1, 0, 0, 0, 1⟩]⟩
    ⟨2, [⟨1, ⟨0, 0, 1/2, 1/2⟩, 1, 0, 10, 0, 2⟩]⟩
    [⟨1, ⟨0, 0, 1/2, 1/2⟩⟩] 10
    ⟨[⟨1, ⟨0, 0, 1/2, 1/2⟩, 1, 0, 10, 0, 2⟩], [], [⟨1, 0, 1, 0⟩], [], []⟩
    (by norm_num [FaceTrackManager.update, updateWithAssignment, toSquareCostMatrix,
      solveHungarianAssignment, assertSquareCostMatrix, processRows, processRow,
      hungarianLoop, augmentPath, scanCols, applyDelta, buildAssignment, costAt,
      upd, oLT, oSub, toFiniteCost, computeIntersectionOverUnion, UNASSIGNED_COST,
      UNMATCHABLE_COST, assignEntryForRow, matchForRow, buildAssignments,
      stepExistingTracks, createNewTracks, List.range', List.range, List.range.loop,
      defaultDetection, defaultBox, List.filterMap_cons, List.filterMap_nil,
      Option.map])
    ⟨1, 0, 1, 0⟩ (List.mem_singleton_self _)

/-! ### Claim C4 -/

theorem stepExistingTracks_retained (cfg : FaceTrackSettings)
    (dets : List FaceDetection) (t : Int) (L : List (FaceTrack × Option ℕ))
    (track : FaceTrack) (h : (track, (none : Option ℕ)) ∈ L)
    (hret : track.missedFrameCount + 1 ≤ cfg.trackMaxMissedFrames) :
    { track with
        missedFrameCount := track.missedFrameCount + 1
        consecutiveMatchCount := 0 } ∈ (stepExistingTracks cfg dets t L).1 := by
  induction L with
  | nil => cases h
  | cons p rest ih =>
    rcases List.mem_cons.mp h with heq | hmem
    · subst heq
      simp only [stepExistingTracks]
      rw [if_neg (not_lt.mpr hret)]
      exact List.mem_cons_self _ _
    · rcases p with ⟨tr2, m2⟩
      cases m2 with
      | none =>
        simp only [stepExistingTracks]
        split
        · exact ih hmem
        · exact List.mem_cons_of_mem _ (ih hmem)
      | some j =>
        simp only [stepExistingTracks]
        exact List.mem_cons_of_mem _ (ih hmem)

theorem stepExistingTracks_removed_mem (cfg : FaceTrackSettings)
    (dets : List FaceDetection) (t : Int) (L : List (FaceTrack × Option ℕ))
    (track : FaceTrack) (h : (track, (none : Option ℕ)) ∈ L)
    (hev : cfg.trackMaxMissedFrames < track.missedFrameCount + 1) :
    track.trackId ∈ (stepExistingTracks cfg dets t L).2 := by
  induction L with
  | nil => cases h
  | cons p rest ih =>
    rcases List.mem_cons.mp h with heq | hmem
    · subst heq
      simp only [stepExistingTracks]
      rw [if_pos hev]
      exact List.mem_cons_self _ _
    · rcases p with ⟨tr2, m2⟩
      cases m2 with
      | none =>
        simp only [stepExistingTracks]
        split
        · exact List.mem_cons_of_mem _ (ih hmem)
        · exact ih hmem
      | some j =>
        simp only [stepExistingTracks]
        exact ih hmem

theorem stepExistingTracks_removed_spec (cfg : FaceTrackSettings)
    (dets : List FaceDetection) (t : Int) (L : List (FaceTrack × Option ℕ)) :
    ∀ id ∈ (stepExistingTracks cfg dets t L).2, ∃ track,
      (track, (none : Option ℕ)) ∈ L ∧ id = track.trackId ∧
      cfg.trackMaxMissedFrames < track.missedFrameCount + 1 := by
  induction L with
  | nil => intro id hid; cases hid
  | cons p rest ih =>
    intro id hid
    rcases p with ⟨tr2, m2⟩
    cases m2 with
    | none =>
      simp only [stepExistingTracks] at hid
      by_cases hev : tr2.missedFrameCount + 1 > cfg.trackMaxMissedFrames
      · rw [if_pos hev] at hid
        rcases List.mem_cons.mp hid with heq | hmem
        · exact ⟨tr2, List.mem_cons_self _ _, heq, hev⟩
        · obtain ⟨track, hL, hide, hevt⟩ := ih id hmem
          exact ⟨track, List.mem_cons_of_mem _ hL, hide, hevt⟩
      · rw [if_neg hev] at hid
        obtain ⟨track, hL, hide, hevt⟩ := ih id hid
        exact ⟨track, List.mem_cons_of_mem _ hL, hide, hevt⟩
    | some j =>
      simp only [stepExistingTracks] at hid
      obtain ⟨track, hL, hide, hevt⟩ := ih id hid
      exact ⟨track, List.mem_cons_of_mem _ hL, hide, hevt⟩

theorem stepExistingTracks_ids (cfg : FaceTrackSettings)
    (dets : List FaceDetection) (t : Int) (L : List (FaceTrack × Option ℕ)) :
    ∀ tr2 ∈ (stepExistingTracks cfg dets t L).1, ∃ p, p ∈ L ∧
      tr2.trackId = p.1.trackId ∧
      (p.2 = none → p.1.missedFrameCount + 1 ≤ cfg.trackMaxMissedFrames) := by
  induction L with
  | nil => intro tr2 h; cases h
  | cons p rest ih =>
    intro tr2 h
    rcases p with ⟨tr, m⟩
    cases m with
    | none =>
      simp only [stepExistingTracks] at h
      by_cases hev : tr.missedFrameCount + 1 > cfg.trackMaxMissedFrames
      · rw [if_pos hev] at h
        obtain ⟨q, hL, hid, him⟩ := ih tr2 h
        exact ⟨q, List.mem_cons_of_mem _ hL, hid, him⟩
      · rw [if_neg hev] at h
        rcases List.mem_cons.mp h with heq | hmem
        · exact ⟨(tr, none), List.mem_cons_self _ _, by rw [heq],
            fun _ => not_lt.mp hev⟩
        · obtain ⟨q, hL, hid, him⟩ := ih tr2 hmem
          exact ⟨q, List.mem_cons_of_mem _ hL, hid, him⟩
    | some j =>
      simp only [stepExistingTracks] at h
      rcases List.mem_cons.mp h with heq | hmem
      · exact ⟨(tr, some j), List.mem_cons_self _ _, by rw [heq], by simp⟩
      · obtain ⟨q, hL, hid, him⟩ := ih tr2 hmem
        exact ⟨q, List.mem_cons_of_mem _ hL, hid, him⟩

theorem stepExistingTracks_missed_le (cfg : FaceTrackSettings)
    (dets : List FaceDetection) (t : Int) (L : List (FaceTrack × Option ℕ)) :
    ∀ tr2 ∈ (stepExistingTracks cfg dets t L).1,
      tr2.missedFrameCount ≤ cfg.trackMaxMissedFrames := by
  induction L with
  | nil => intro tr2 h; cases h
  | cons p rest ih =>
    intro tr2 h
    rcases p with ⟨tr, m⟩
    cases m with
    | none =>
      simp only [stepExistingTracks] at h
      by_cases hev : tr.missedFrameCount + 1 > cfg.trackMaxMissedFrames
      · rw [if_pos hev] at h
        exact ih tr2 h
      · rw [if_neg hev] at h
        rcases List.mem_cons.mp h with heq | hmem
        · rw [heq]
          exact not_lt.mp hev
        · exact ih tr2 hmem
    | some j =>
      simp only [stepExistingTracks] at h
      rcases List.mem_cons.mp h with heq | hmem
      · rw [heq]
        exact Nat.zero_le _
      · exact ih tr2 hmem

theorem createNewTracks_spec (t : Int) (n : ℕ) (L : List (FaceDetection × Bool)) :
    (∀ tr ∈ (createNewTracks t n L).1,
      tr.missedFrameCount = 0 ∧ tr.consecutiveMatchCount = 1 ∧ n ≤ tr.trackId) ∧
    n ≤ (createNewTracks t n L).2.2 ∧
    (createNewTracks t n L).1.map (fun tr => tr.trackId) = (createNewTracks t n L).2.1 ∧
    List.Pairwise (· < ·) (createNewTracks t n L).2.1 ∧
    (∀ id ∈ (createNewTracks t n L).2.1, n ≤ id ∧ id < (createNewTracks t n L).2.2) := by
  induction L generalizing n with
  | nil =>
    exact ⟨fun tr h => absurd h (by simp [createNewTracks]),
      le_rfl, rfl, List.Pairwise.nil, fun id h => absurd h (by simp [createNewTracks])⟩
  | cons p rest ih =>
    rcases p with ⟨d, matched⟩
    cases matched with
    | true =>
      rw [show createNewTracks t n ((d, true) :: rest) = createNewTracks t n rest from rfl]
      exact ih n
    | false =>
      obtain ⟨ihm, ihn, ihids, ihpw, ihbd⟩ := ih (n + 1)
      rw [show createNewTracks t n ((d, false) :: rest)
          = (⟨n, d.boundingBox, d.confidence, t, t, 0, 1⟩
              :: (createNewTracks t (n + 1) rest).1,
             n :: (createNewTracks t (n + 1) rest).2.1,
             (createNewTracks t (n + 1) rest).2.2) from rfl]
      refine ⟨?_, ?_, ?_, ?_, ?_⟩
      · intro tr h
        rcases List.mem_cons.mp h with heq | hmem
        · rw [heq]
          exact ⟨rfl, rfl, le_rfl⟩
        · obtain ⟨h0, h1, h2⟩ := ihm tr hmem
          exact ⟨h0, h1, Nat.le_of_succ_le h2⟩
      · exact Nat.le_of_succ_le ihn
      · simp only [List.map_cons, ihids]
      · exact List.Pairwise.cons (fun id hid => Nat.lt_of_lt_of_le (Nat.lt_succ_self n) (ihbd id hid).1) ihpw
      · intro id hid
        rcases List.mem_cons.mp hid with heq | hmem
        · subst heq
          exact ⟨le_rfl, Nat.lt_of_lt_of_le (Nat.lt_succ_self id) ihn⟩
        · obtain ⟨h1, h2⟩ := ihbd id hmem
          exact ⟨Nat.le_of_succ_le h1, h2⟩

theorem zip_snd_of_nodup (l1 : List FaceTrack) (M : List (Option ℕ))
    (a : FaceTrack) (b c : Option ℕ) (i : ℕ) (hnd : l1.Nodup)
    (hmem : (a, b) ∈ l1.zip M) (ha : l1.get? i = some a) (hc : M.get? i = some c) :
    b = c := by
  obtain ⟨j, hj⟩ := List.mem_iff_get?.mp hmem
  obtain ⟨hj1, hj2⟩ := (List.get?_zip_eq_some _ _ _ _).mp hj
  have hjlen : j < l1.length := by
    by_contra hge
    rw [List.get?_eq_none.mpr (le_of_not_lt hge)] at hj1
    cases hj1
  have hij : j = i := List.get?_inj hjlen hnd (by rw [hj1, ha])
  subst hij
  rw [hj2] at hc
  exact Option.some.inj hc

/-- Claim C4: eviction uses a strict inequality.  For an unmatched track,
if its incremented missedFrameCount equals trackMaxMissedFrames it is
retained in the returned tracks (with the incremented count), not removed;
if the incremented count equals trackMaxMissedFrames + 1 its trackId is
recorded in removedTrackIds and does not appear among the returned tracks;
and no returned track ever has missedFrameCount > trackMaxMissedFrames. -/
theorem C4_eviction_strict_inequality (cfg : FaceTrackSettings)
    (s s2 : ManagerState) (dets : List FaceDetection) (t : Int)
    (r : TrackUpdateResult) (asg : List Int) (i : ℕ) (track : FaceTrack)
    (hsol : solveHungarianAssignment
      (toSquareCostMatrix s.tracks dets cfg.assignmentIouThreshold).1 = .ok asg)
    (h : FaceTrackManager.update cfg s dets t = .ok (s2, r))
    (htr : s.tracks.get? i = some track)
    (hm : matchForRow cfg.assignmentIouThreshold s.tracks dets asg i = none)
    (hnodup : (s.tracks.map (fun tr => tr.trackId)).Nodup)
    (hbound : ∀ tr ∈ s.tracks, tr.trackId < s.nextTrackId) :
    (track.missedFrameCount + 1 = cfg.trackMaxMissedFrames →
      { track with
          missedFrameCount := track.missedFrameCount + 1
          consecutiveMatchCount := 0 } ∈ r.tracks ∧
      track.trackId ∉ r.removedTrackIds) ∧
    (track.missedFrameCount + 1 = cfg.trackMaxMissedFrames + 1 →
      track.trackId ∈ r.removedTrackIds ∧
      track.trackId ∉ r.tracks.map (fun tr => tr.trackId)) ∧
    (∀ tr2 ∈ r.tracks, tr2.missedFrameCount ≤ cfg.trackMaxMissedFrames) := by
  simp only [FaceTrackManager.update, hsol] at h
  have hr : r = (updateWithAssignment cfg s dets t asg).2 := by
    have hpair := Except.ok.inj h
    rw [hpair]
  have hilen : i < s.tracks.length := by
    by_contra hge
    rw [List.get?_eq_none.mpr (le_of_not_lt hge)] at htr
    cases htr
  have hMi : ((List.range s.tracks.length).map
      (matchForRow cfg.assignmentIouThreshold s.tracks dets asg)).get? i
      = some none := by
    rw [List.get?_map, List.get?_range hilen]
    simp [hm]
  have hz : (track, (none : Option ℕ)) ∈ s.tracks.zip
      ((List.range s.tracks.length).map
        (matchForRow cfg.assignmentIouThreshold s.tracks dets asg)) :=
    List.get?_mem ((List.get?_zip_eq_some _ _ _ _).mpr ⟨htr, hMi⟩)
  have htracksnd : s.tracks.Nodup := hnodup.of_map
  have htrmem : track ∈ s.tracks := List.get?_mem htr
  have hrt : r.tracks
      = (stepExistingTracks cfg dets t (s.tracks.zip
          ((List.range s.tracks.length).map
            (matchForRow cfg.assignmentIouThreshold s.tracks dets asg)))).1
        ++ (createNewTracks t s.nextTrackId
            (dets.enum.map (fun q => (q.2,
              (((List.range s.tracks.length).map
                (matchForRow cfg.assignmentIouThreshold s.tracks dets asg)).filterMap
                  id).contains q.1)))).1 := by
    rw [hr]
    rfl
  have hrm : r.removedTrackIds
      = (stepExistingTracks cfg dets t (s.tracks.zip
          ((List.range s.tracks.length).map
            (matchForRow cfg.assignmentIouThreshold s.tracks dets asg)))).2 := by
    rw [hr]
    rfl
  refine ⟨?_, ?_, ?_⟩
  · intro heq
    have hret : track.missedFrameCount + 1 ≤ cfg.trackMaxMissedFrames := le_of_eq heq
    constructor
    · rw [hrt]
      exact List.mem_append_left _
        (stepExistingTracks_retained cfg dets t _ track hz hret)
    · intro hidrm
      rw [hrm] at hidrm
      obtain ⟨track2, hz2, hid2, hev2⟩ :=
        stepExistingTracks_removed_spec cfg dets t _ _ hidrm
      have htr2mem : track2 ∈ s.tracks := (List.of_mem_zip hz2).1
      have : track = track2 :=
        List.inj_on_of_nodup_map hnodup htrmem htr2mem hid2
      rw [← this] at hev2
      omega
  · intro heq
    have hev : cfg.trackMaxMissedFrames < track.missedFrameCount + 1 := by omega
    constructor
    · rw [hrm]
      exact stepExistingTracks_removed_mem cfg dets t _ track hz hev
    · intro hidmem
      rw [hrt, List.map_append, List.mem_append] at hidmem
      rcases hidmem with hex | hnew
      · obtain ⟨tr2, htr2, hid2⟩ := List.mem_map.mp hex
        obtain ⟨p, hpz, hpid, hpnone⟩ := stepExistingTracks_ids cfg dets t _ tr2 htr2
        rcases p with ⟨a, b⟩
        have hp1mem : a ∈ s.tracks := (List.of_mem_zip hpz).1
        have hp1eq : track = a := List.inj_on_of_nodup_map hnodup htrmem hp1mem
          (by rw [← hid2]; exact hpid)
        subst hp1eq
        have hp2 : b = none :=
          zip_snd_of_nodup s.tracks _ track b none i htracksnd hpz htr hMi
        subst hp2
        have hple : track.missedFrameCount + 1 ≤ cfg.trackMaxMissedFrames :=
          hpnone rfl
        omega
      · obtain ⟨tr2, htr2, hid2⟩ := List.mem_map.mp hnew
        have := ((createNewTracks_spec t s.nextTrackId _).1 tr2 htr2).2.2
        have hlt := hbound track htrmem
        omega
  · intro tr2 htr2
    rw [hrt, List.mem_append] at htr2
    rcases htr2 with hex | hnew
    · exact stepExistingTracks_missed_le cfg dets t _ tr2 hex
    · rw [((createNewTracks_spec t s.nextTrackId _).1 tr2 hnew).1]
      exact Nat.zero_le _

/-- Witness for C4: one track, no detections, trackMaxMissedFrames = 1;
the unmatched track's missed count rises to 1 = max and it is retained. -/
theorem C4_eviction_strict_inequality_witness :
    ((0 : ℕ) + 1 = 1 →
      ({ trackId := 1, latestBoundingBox := ⟨0, 0, 1/2, 1/2⟩, latestConfidence := 1,
         firstMatchedAtMs := 0, lastMatchedAtMs := 0, missedFrameCount := 0 + 1,
         consecutiveMatchCount := 0 } : FaceTrack) ∈
        [(⟨1, ⟨0, 0, 1/2, 1/2⟩, 1, 0, 0, 1, 0⟩ : FaceTrack)] ∧
      (1 : ℕ) ∉ ([] : List ℕ)) ∧
    ((0 : ℕ) + 1 = 1 + 1 →
      (1 : ℕ) ∈ ([] : List ℕ) ∧
      (1 : ℕ) ∉ ([(⟨1, ⟨0, 0, 1/2, 1/2⟩, 1, 0, 0, 1, 0⟩ : FaceTrack)].map
        (fun tr => tr.trackId))) ∧
    (∀ tr2 ∈ [(⟨1, ⟨0, 0, 1/2, 1/2⟩, 1, 0, 0, 1, 0⟩ : FaceTrack)],
      tr2.missedFrameCount ≤ 1) :=
  C4_eviction_strict_inequality ⟨1/2, 1, 1⟩
    ⟨2, [⟨1, ⟨0, 0, 1/2, 1/2⟩, 1, 0, 0, 0, 1⟩]⟩
    ⟨2, [⟨1, ⟨0, 0, 1/2, 1/2⟩, 1, 0, 0, 1, 0⟩]⟩ [] 10
    ⟨[⟨1, ⟨0, 0, 1/2, 1/2⟩, 1, 0, 0, 1, 0⟩], [], [], [], []⟩ [0] 0
    ⟨1, ⟨0, 0, 1/2, 1/2⟩, 1, 0, 0, 0, 1⟩
    (by norm_num [toSquareCostMatrix, solveHungarianAssignment,
      assertSquareCostMatrix, processRows, processRow, hungarianLoop, augmentPath,
      scanCols, applyDelta, buildAssignment, costAt, upd, oLT, oSub, toFiniteCost,
      computeIntersectionOverUnion, UNASSIGNED_COST, UNMATCHABLE_COST,
      List.range', List.range, List.range.loop])
    (by norm_num [FaceTrackManager.update, updateWithAssignment, toSquareCostMatrix,
      solveHungarianAssignment, assertSquareCostMatrix, processRows, processRow,
      hungarianLoop, augmentPath, scanCols, applyDelta, buildAssignment, costAt,
      upd, oLT, oSub, toFiniteCost, computeIntersectionOverUnion, UNASSIGNED_COST,
      UNMATCHABLE_COST, assignEntryForRow, matchForRow, buildAssignments,
      stepExistingTracks, createNewTracks, List.range', List.range, List.range.loop,
      defaultDetection, defaultBox, List.filterMap_cons, List.filterMap_nil,
      Option.map])
    rfl rfl (by simp) (by simp)

/-! ### Claim C6 -/

def concatLists {α : Type} (ls : List (List α)) : List α :=
  ls.foldr (· ++ ·) []

theorem concatLists_nil {α : Type} : concatLists ([] : List (List α)) = [] := rfl

theorem concatLists_cons {α : Type} (l : List α) (ls : List (List α)) :
    concatLists (l :: ls) = l ++ concatLists ls := rfl

theorem mem_concatLists {α : Type} (a : α) (ls : List (List α)) :
    a ∈ concatLists ls ↔ ∃ l, l ∈ ls ∧ a ∈ l := by
  induction ls with
  | nil => simp [concatLists]
  | cons l rest ih =>
    rw [concatLists_cons, List.mem_append, ih]
    constructor
    · rintro (ha | ⟨l2, hl2, ha⟩)
      · exact ⟨l, List.mem_cons_self _ _, ha⟩
      · exact ⟨l2, List.mem_cons_of_mem _ hl2, ha⟩
    · rintro ⟨l2, hl2, ha⟩
      rcases List.mem_cons.mp hl2 with rfl | hl2
      · exact Or.inl ha
      · exact Or.inr ⟨l2, hl2, ha⟩

theorem stepExistingTracks_tracks_sublist (cfg : FaceTrackSettings)
    (dets : List FaceDetection) (t : Int) (L : List (FaceTrack × Option ℕ)) :
    ((stepExistingTracks cfg dets t L).1.map (fun tr => tr.trackId)).Sublist
      (L.map (fun p => p.1.trackId)) := by
  induction L with
  | nil => simp [stepExistingTracks]
  | cons p rest ih =>
    rcases p with ⟨tr, m⟩
    cases m with
    | none =>
      simp only [stepExistingTracks]
      split
      · simp only [List.map_cons]
        exact ih.cons _
      · simp only [List.map_cons]
        exact ih.cons₂ _
    | some j =>
      simp only [stepExistingTracks]
      simp only [List.map_cons]
      exact ih.cons₂ _

theorem stepExistingTracks_removed_sublist (cfg : FaceTrackSettings)
    (dets : List FaceDetection) (t : Int) (L : List (FaceTrack × Option ℕ)) :
    ((stepExistingTracks cfg dets t L).2).Sublist (L.map (fun p => p.1.trackId)) := by
  induction L with
  | nil => simp [stepExistingTracks]
  | cons p rest ih =>
    rcases p with ⟨tr, m⟩
    cases m with
    | none =>
      simp only [stepExistingTracks]
      split
      · simp only [List.map_cons]
        exact ih.cons₂ _
      · simp only [List.map_cons]
        exact ih.cons _
    | some j =>
      simp only [stepExistingTracks]
      simp only [List.map_cons]
      exact ih.cons _

theorem stepExistingTracks_disjoint (cfg : FaceTrackSettings)
    (dets : List FaceDetection) (t : Int) (L : List (FaceTrack × Option ℕ))
    (hnd : (L.map (fun p => p.1.trackId)).Nodup) :
    ∀ id ∈ (stepExistingTracks cfg dets t L).2,
      id ∉ (stepExistingTracks cfg dets t L).1.map (fun tr => tr.trackId) := by
  induction L with
  | nil => intro id hid; cases hid
  | cons p rest ih =>
    rcases p with ⟨tr, m⟩
    have hnd2 : (rest.map (fun p => p.1.trackId)).Nodup := hnd.of_cons
    have hhd : tr.trackId ∉ rest.map (fun p => p.1.trackId) :=
      (List.nodup_cons.mp hnd).1
    cases m with
    | none =>
      simp only [stepExistingTracks]
      split
      · intro id hid
        rcases List.mem_cons.mp hid with rfl | hmem
        · intro hc
          exact hhd ((stepExistingTracks_tracks_sublist cfg dets t rest).subset hc)
        · exact ih hnd2 id hmem
      · intro id hid
        have hne : id ≠ tr.trackId := by
          intro he
          subst he
          exact hhd ((stepExistingTracks_removed_sublist cfg dets t rest).subset hid)
        intro hc
        simp only [List.map_cons, List.mem_cons] at hc
        rcases hc with he | hmem
        · exact hne he
        · exact ih hnd2 id hid hmem
    | some j =>
      simp only [stepExistingTracks]
      intro id hid
      have hne : id ≠ tr.trackId := by
        intro he
        subst he
        exact hhd ((stepExistingTracks_removed_sublist cfg dets t rest).subset hid)
      intro hc
      simp only [List.map_cons, List.mem_cons] at hc
      rcases hc with he | hmem
      · exact hne he
      · exact ih hnd2 id hid hmem

/-- The manager-state invariant: live track ids are distinct and all below
the nextTrackId counter. -/
def Good (s : ManagerState) : Prop :=
  (s.tracks.map (fun tr => tr.trackId)).Nodup ∧
  ∀ tr ∈ s.tracks, tr.trackId < s.nextTrackId

theorem zip_map_fst_trackId (l1 : List FaceTrack) (M : List (Option ℕ))
    (hlen : l1.length ≤ M.length) :
    (l1.zip M).map (fun p => p.1.trackId) = l1.map (fun tr => tr.trackId) := by
  conv_rhs => rw [← List.map_fst_zip l1 M hlen]
  rw [List.map_map]
  rfl

theorem assemble_spec (cfg : FaceTrackSettings) (dets : List FaceDetection)
    (t : Int) (tracks : List FaceTrack) (nextId : ℕ)
    (M : List (Option ℕ)) (D : List (FaceDetection × Bool))
    (hnd : (tracks.map (fun tr => tr.trackId)).Nodup)
    (hlt : ∀ tr ∈ tracks, tr.trackId < nextId)
    (hlen : tracks.length ≤ M.length) :
    (((stepExistingTracks cfg dets t (tracks.zip M)).1
        ++ (createNewTracks t nextId D).1).map (fun tr => tr.trackId)).Nodup ∧
    (∀ tr ∈ (stepExistingTracks cfg dets t (tracks.zip M)).1
        ++ (createNewTracks t nextId D).1,
      tr.trackId < (createNewTracks t nextId D).2.2) ∧
    nextId ≤ (createNewTracks t nextId D).2.2 ∧
    List.Pairwise (· < ·) (createNewTracks t nextId D).2.1 ∧
    (∀ id ∈ (createNewTracks t nextId D).2.1,
      nextId ≤ id ∧ id < (createNewTracks t nextId D).2.2) ∧
    (∀ id ∈ (stepExistingTracks cfg dets t (tracks.zip M)).2,
      id ∈ tracks.map (fun tr => tr.trackId) ∧
      id ∉ ((stepExistingTracks cfg dets t (tracks.zip M)).1
        ++ (createNewTracks t nextId D).1).map (fun tr => tr.trackId)) ∧
    (∀ tr2 ∈ (stepExistingTracks cfg dets t (tracks.zip M)).1
        ++ (createNewTracks t nextId D).1,
      tr2.trackId ∈ tracks.map (fun tr => tr.trackId) ∨
      tr2.trackId ∈ (createNewTracks t nextId D).2.1) := by
  have hzipids := zip_map_fst_trackId tracks M hlen
  have hsub := stepExistingTracks_tracks_sublist cfg dets t (tracks.zip M)
  rw [hzipids] at hsub
  have hremsub := stepExistingTracks_removed_sublist cfg dets t (tracks.zip M)
  rw [hzipids] at hremsub
  have hdisj := stepExistingTracks_disjoint cfg dets t (tracks.zip M)
    (by rw [hzipids]; exact hnd)
  obtain ⟨hcm, hcn, hcids, hcpw, hcbd⟩ := createNewTracks_spec t nextId D
  have hexid : ∀ tr2 ∈ (stepExistingTracks cfg dets t (tracks.zip M)).1,
      tr2.trackId ∈ tracks.map (fun tr => tr.trackId) :=
    fun tr2 h2 => hsub.subset (List.mem_map_of_mem _ h2)
  have hexlt : ∀ tr2 ∈ (stepExistingTracks cfg dets t (tracks.zip M)).1,
      tr2.trackId < nextId := by
    intro tr2 h2
    obtain ⟨tr3, htr3, hid3⟩ := List.mem_map.mp (hexid tr2 h2)
    rw [← hid3]
    exact hlt tr3 htr3
  have hcrid : ∀ tr2 ∈ (createNewTracks t nextId D).1,
      tr2.trackId ∈ (createNewTracks t nextId D).2.1 := by
    intro tr2 h2
    rw [← hcids]
    exact List.mem_map_of_mem _ h2
  refine ⟨?_, ?_, hcn, hcpw, hcbd, ?_, ?_⟩
  · rw [List.map_append]
    refine List.Nodup.append (hnd.sublist hsub) ?_ ?_
    · rw [hcids]
      exact hcpw.imp (fun hab => Nat.ne_of_lt hab)
    · intro a ha hb
      obtain ⟨tr2, h2, hid2⟩ := List.mem_map.mp ha
      obtain ⟨tr3, h3, hid3⟩ := List.mem_map.mp hb
      have h1 : a < nextId := by
        rw [← hid2]
        exact hexlt tr2 h2
      have h4 : nextId ≤ a := by
        rw [← hid3]
        exact (hcm tr3 h3).2.2
      omega
  · intro tr2 h2
    rcases List.mem_append.mp h2 with hex | hcr
    · exact Nat.lt_of_lt_of_le (hexlt tr2 hex) hcn
    · exact (hcbd tr2.trackId (hcrid tr2 hcr)).2
  · intro id hid
    refine ⟨hremsub.subset hid, ?_⟩
    rw [List.map_append, List.mem_append]
    rintro (hex | hcr)
    · exact hdisj id hid hex
    · obtain ⟨tr3, h3, hid3⟩ := List.mem_map.mp hcr
      have h4 : nextId ≤ id := by
        rw [← hid3]
        exact (hcm tr3 h3).2.2
      obtain ⟨tr5, h5, hid5⟩ := List.mem_map.mp (hremsub.subset hid)
      have h6 : id < nextId := by
        rw [← hid5]
        exact hlt tr5 h5
      omega
  · intro tr2 h2
    rcases List.mem_append.mp h2 with hex | hcr
    · exact Or.inl (hexid tr2 hex)
    · exact Or.inr (hcrid tr2 hcr)

theorem update_step_spec (cfg : FaceTrackSettings) (s s2 : ManagerState)
    (dets : List FaceDetection) (t : Int) (r : TrackUpdateResult)
    (h : FaceTrackManager.update cfg s dets t = .ok (s2, r)) (hg : Good s) :
    Good s2 ∧ s.nextTrackId ≤ s2.nextTrackId ∧ r.tracks = s2.tracks ∧
    List.Pairwise (· < ·) r.createdTrackIds ∧
    (∀ id ∈ r.createdTrackIds, s.nextTrackId ≤ id ∧ id < s2.nextTrackId) ∧
    (∀ id ∈ r.removedTrackIds, id ∈ s.tracks.map (fun tr => tr.trackId) ∧
      id ∉ s2.tracks.map (fun tr => tr.trackId)) ∧
    (∀ e ∈ r.assignments, e.trackId ∈ s.tracks.map (fun tr => tr.trackId)) ∧
    (∀ tr2 ∈ s2.tracks, tr2.trackId ∈ s.tracks.map (fun tr => tr.trackId) ∨
      tr2.trackId ∈ r.createdTrackIds) := by
  simp only [FaceTrackManager.update] at h
  cases hsol : solveHungarianAssignment
      (toSquareCostMatrix s.tracks dets cfg.assignmentIouThreshold).1 with
  | error msg => rw [hsol] at h; exact absurd h (by simp)
  | ok asg =>
    rw [hsol] at h
    have hpair := Except.ok.inj h
    have hs2 : s2 = (updateWithAssignment cfg s dets t asg).1 := by rw [hpair]
    have hrr : r = (updateWithAssignment cfg s dets t asg).2 := by rw [hpair]
    subst hs2
    subst hrr
    have hasgn : ∀ e ∈ buildAssignments cfg.assignmentIouThreshold s.tracks dets asg,
        e.trackId ∈ s.tracks.map (fun tr => tr.trackId) := by
      intro e he
      rw [buildAssignments, List.mem_filterMap] at he
      obtain ⟨i, _, hE⟩ := he
      obtain ⟨_, track, htr, hid, _⟩ :=
        assignEntryForRow_spec cfg.assignmentIouThreshold s.tracks dets asg i e hE
      rw [hid]
      exact List.mem_map_of_mem _ (List.get?_mem htr)
    obtain ⟨a1, a2, a3, a4, a5, a6, a7⟩ := assemble_spec cfg dets t s.tracks
      s.nextTrackId
      ((List.range s.tracks.length).map
        (matchForRow cfg.assignmentIouThreshold s.tracks dets asg))
      (dets.enum.map (fun q => (q.2,
        ((((List.range s.tracks.length).map
          (matchForRow cfg.assignmentIouThreshold s.tracks dets asg)).filterMap
            id).contains q.1))))
      hg.1 hg.2 (by simp)
    exact ⟨⟨a1, a2⟩, a3, rfl, a4, a5, a6, hasgn, a7⟩

theorem runManager_spec (cfg : FaceTrackSettings) (s : ManagerState)
    (inputs : List (List FaceDetection × Int)) (sfin : ManagerState)
    (results : List TrackUpdateResult) (hg : Good s)
    (h : runManager cfg s inputs = .ok (sfin, results)) :
    Good sfin ∧ s.nextTrackId ≤ sfin.nextTrackId ∧
    List.Pairwise (· < ·) (concatLists (results.map (fun r => r.createdTrackIds))) ∧
    (∀ id ∈ concatLists (results.map (fun r => r.createdTrackIds)),
      s.nextTrackId ≤ id) ∧
    (∀ id, id < s.nextTrackId → id ∉ s.tracks.map (fun tr => tr.trackId) →
      ∀ r2 ∈ results, id ∉ r2.tracks.map (fun tr => tr.trackId) ∧
        id ∉ r2.createdTrackIds ∧ id ∉ r2.removedTrackIds ∧
        id ∉ r2.assignments.map (fun e => e.trackId)) := by
  induction inputs generalizing s results with
  | nil =>
    simp only [runManager] at h
    obtain ⟨he1, he2⟩ := Prod.mk.injEq .. |>.mp (Except.ok.inj h)
    subst he1
    subst he2
    exact ⟨hg, le_rfl, by simp [concatLists], by simp [concatLists], by simp⟩
  | cons q rest ih =>
    rcases q with ⟨dets, t⟩
    simp only [runManager] at h
    split at h
    · exact absurd h (by simp)
    · rename_i s1 r1 hup
      split at h
      · exact absurd h (by simp)
      · rename_i s3 rs hrun
        obtain ⟨he1, he2⟩ := Prod.mk.injEq .. |>.mp (Except.ok.inj h)
        subst he1
        subst he2
        obtain ⟨hgood1, hmono1, hrt1, hpw1, hcb1, hrm1, has1, htr1⟩ :=
          update_step_spec cfg s s1 dets t r1 hup hg
        obtain ⟨hgood2, hmono2, hpw2, hlb2, hdead2⟩ := ih s1 rs hgood1 hrun
        refine ⟨hgood2, le_trans hmono1 hmono2, ?_, ?_, ?_⟩
        · rw [List.map_cons, concatLists_cons, List.pairwise_append]
          refine ⟨hpw1, hpw2, ?_⟩
          intro a ha b hb
          have h1 := (hcb1 a ha).2
          have h2 := hlb2 b hb
          omega
        · rw [List.map_cons, concatLists_cons]
          intro id hid
          rcases List.mem_append.mp hid with h1 | h2
          · exact (hcb1 id h1).1
          · exact le_trans hmono1 (hlb2 id h2)
        · intro id hlt hnmem r2 hr2
          rcases List.mem_cons.mp hr2 with rfl | hr2m
          · refine ⟨?_, ?_, ?_, ?_⟩
            · rw [hrt1]
              intro hc
              obtain ⟨tr2, h2, hid2⟩ := List.mem_map.mp hc
              rcases htr1 tr2 h2 with hin | hnew
              · rw [hid2] at hin
                exact hnmem hin
              · have hge := (hcb1 _ hnew).1
                rw [hid2] at hge
                omega
            · intro hc
              have := (hcb1 id hc).1
              omega
            · intro hc
              exact hnmem (hrm1 id hc).1
            · intro hc
              obtain ⟨e, he, hide⟩ := List.mem_map.mp hc
              have hmem := has1 e he
              rw [hide] at hmem
              exact hnmem hmem
          · have hlt1 : id < s1.nextTrackId := Nat.lt_of_lt_of_le hlt hmono1
            have hnmem1 : id ∉ s1.tracks.map (fun tr => tr.trackId) := by
              intro hc
              obtain ⟨tr2, h2, hid2⟩ := List.mem_map.mp hc
              rcases htr1 tr2 h2 with hin | hnew
              · rw [hid2] at hin
                exact hnmem hin
              · have hge := (hcb1 _ hnew).1
                rw [hid2] at hge
                omega
            exact hdead2 id hlt1 hnmem1 r2 hr2m

theorem runManager_split (cfg : FaceTrackSettings) (s : ManagerState)
    (inputs : List (List FaceDetection × Int)) (sfin : ManagerState)
    (res1 : List TrackUpdateResult) (rr : TrackUpdateResult)
    (res2 : List TrackUpdateResult)
    (h : runManager cfg s inputs = .ok (sfin, res1 ++ rr :: res2)) :
    ∃ xs q ys s1 s2, inputs = xs ++ q :: ys ∧
      runManager cfg s xs = .ok (s1, res1) ∧
      FaceTrackManager.update cfg s1 q.1 q.2 = .ok (s2, rr) ∧
      runManager cfg s2 ys = .ok (sfin, res2) := by
  induction res1 generalizing s inputs with
  | nil =>
    cases inputs with
    | nil =>
      simp only [runManager] at h
      obtain ⟨_, he2⟩ := Prod.mk.injEq .. |>.mp (Except.ok.inj h)
      exact absurd he2 (by simp)
    | cons q ys =>
      rcases q with ⟨dets, t⟩
      simp only [runManager] at h
      split at h
      · exact absurd h (by simp)
      · rename_i s2 r1 hup
        split at h
        · exact absurd h (by simp)
        · rename_i s3 rs hrun
          obtain ⟨he1, he2⟩ := Prod.mk.injEq .. |>.mp (Except.ok.inj h)
          rw [List.nil_append] at he2
          obtain ⟨hr1, hrs⟩ := List.cons.injEq .. |>.mp he2
          subst he1
          subst hr1
          subst hrs
          exact ⟨[], (dets, t), ys, s, s2, rfl, rfl, hup, hrun⟩
  | cons a res1x ih =>
    cases inputs with
    | nil =>
      simp only [runManager] at h
      obtain ⟨_, he2⟩ := Prod.mk.injEq .. |>.mp (Except.ok.inj h)
      exact absurd he2 (by simp)
    | cons q ys =>
      rcases q with ⟨dets, t⟩
      simp only [runManager] at h
      split at h
      · exact absurd h (by simp)
      · rename_i s2 r1 hup
        split at h
        · exact absurd h (by simp)
        · rename_i s3 rs hrun
          obtain ⟨he1, he2⟩ := Prod.mk.injEq .. |>.mp (Except.ok.inj h)
          rw [List.cons_append] at he2
          obtain ⟨hr1, hrs⟩ := List.cons.injEq .. |>.mp he2
          subst he1
          subst hr1
          obtain ⟨xs, q2, ys2, t1, t2, hi, h1, h2, h3⟩ :=
            ih s2 ys (by rw [hrun, hrs])
          refine ⟨(dets, t) :: xs, q2, ys2, t1, t2, by rw [hi, List.cons_append],
            ?_, h2, h3⟩
          simp only [runManager, hup, h1]

/-- Claim C6: within a session (from construction or reset to the next
reset), trackIds are never reused: the createdTrackIds concatenated over
the whole session are strictly increasing pairwise (so every created id is
distinct and each new id exceeds every earlier one), and once a trackId is
recorded in removedTrackIds it never reappears in any later result — not
among tracks, createdTrackIds, removedTrackIds, nor assignments. -/
theorem C6_track_ids_never_reused (cfg : FaceTrackSettings)
    (inputs : List (List FaceDetection × Int)) (sfin : ManagerState)
    (results : List TrackUpdateResult)
    (h : runManager cfg ManagerState.initial inputs = .ok (sfin, results)) :
    List.Pairwise (· < ·) (concatLists (results.map (fun r => r.createdTrackIds))) ∧
    (∀ pre rr post, results = pre ++ rr :: post →
      ∀ id ∈ rr.removedTrackIds, ∀ r2 ∈ post,
        id ∉ r2.tracks.map (fun tr => tr.trackId) ∧
        id ∉ r2.createdTrackIds ∧
        id ∉ r2.removedTrackIds ∧
        id ∉ r2.assignments.map (fun e => e.trackId)) := by
  have hginit : Good ManagerState.initial :=
    ⟨List.nodup_nil, by intro tr htr; cases htr⟩
  obtain ⟨_, _, hpw, _, _⟩ :=
    runManager_spec cfg ManagerState.initial inputs sfin results hginit h
  refine ⟨hpw, ?_⟩
  intro pre rr post hdecomp id hid r2 hr2
  subst hdecomp
  obtain ⟨xs, q, ys, s1, s2, hi, h1, h2, h3⟩ :=
    runManager_split cfg ManagerState.initial inputs sfin pre rr post h
  have hgood1 :=
    (runManager_spec cfg ManagerState.initial xs s1 pre hginit h1).1
  obtain ⟨hgood2, hmono2, hrt2, hpw2, hcb2, hrm2, has2, htr2⟩ :=
    update_step_spec cfg s1 s2 q.1 q.2 rr h2 hgood1
  have hin1 : id ∈ s1.tracks.map (fun tr => tr.trackId) := (hrm2 id hid).1
  have hnotin2 : id ∉ s2.tracks.map (fun tr => tr.trackId) := (hrm2 id hid).2
  have hlt2 : id < s2.nextTrackId := by
    obtain ⟨tr3, htr3, hid3⟩ := List.mem_map.mp hin1
    have hlt1 := hgood1.2 tr3 htr3
    omega
  obtain ⟨_, _, _, _, hdead⟩ := runManager_spec cfg s2 ys sfin post hgood2 h3
  exact hdead id hlt2 hnotin2 r2 hr2

/-- Witness for C6: a three-step session (create id 1, evict it, create
id 2) from the reset state. -/
theorem C6_track_ids_never_reused_witness :
    List.Pairwise (· < ·) (concatLists
      (([⟨[⟨1, ⟨0, 0, 1/2, 1/2⟩, 1, 10, 10, 0, 1⟩],
          [⟨1, ⟨0, 0, 1/2, 1/2⟩, 1, 10, 10, 0, 1⟩], [], [1], []⟩,
         ⟨[], [], [], [], [1]⟩,
         ⟨[⟨2, ⟨0, 0, 1/2, 1/2⟩, 1, 30, 30, 0, 1⟩],
          [⟨2, ⟨0, 0, 1/2, 1/2⟩, 1, 30, 30, 0, 1⟩], [], [2], []⟩] :
        List TrackUpdateResult).map (fun r => r.createdTrackIds))) ∧
    (∀ pre rr post,
      ([⟨[⟨1, ⟨0, 0, 1/2, 1/2⟩, 1, 10, 10, 0, 1⟩],
          [⟨1, ⟨0, 0, 1/2, 1/2⟩, 1, 10, 10, 0, 1⟩], [], [1], []⟩,
         ⟨[], [], [], [], [1]⟩,
         ⟨[⟨2, ⟨0, 0, 1/2, 1/2⟩, 1, 30, 30, 0, 1⟩],
          [⟨2, ⟨0, 0, 1/2, 1/2⟩, 1, 30, 30, 0, 1⟩], [], [2], []⟩] :
        List TrackUpdateResult) = pre ++ rr :: post →
      ∀ id ∈ rr.removedTrackIds, ∀ r2 ∈ post,
        id ∉ r2.tracks.map (fun tr => tr.trackId) ∧
        id ∉ r2.createdTrackIds ∧
        id ∉ r2.removedTrackIds ∧
        id ∉ r2.assignments.map (fun e => e.trackId)) :=
  C6_track_ids_never_reused ⟨1/2, 0, 1⟩
    [([⟨1, ⟨0, 0, 1/2, 1/2⟩⟩], 10), ([], 20), ([⟨1, ⟨0, 0, 1/2, 1/2⟩⟩], 30)]
    ⟨3, [⟨2, ⟨0, 0, 1/2, 1/2⟩, 1, 30, 30, 0, 1⟩]⟩
    [⟨[⟨1, ⟨0, 0, 1/2, 1/2⟩, 1, 10, 10, 0, 1⟩],
      [⟨1, ⟨0, 0, 1/2, 1/2⟩, 1, 10, 10, 0, 1⟩], [], [1], []⟩,
     ⟨[], [], [], [], [1]⟩,
     ⟨[⟨2, ⟨0, 0, 1/2, 1/2⟩, 1, 30, 30, 0, 1⟩],
      [⟨2, ⟨0, 0, 1/2, 1/2⟩, 1, 30, 30, 0, 1⟩], [], [2], []⟩]
    (by norm_num [runManager, FaceTrackManager.update, updateWithAssignment,
      toSquareCostMatrix, solveHungarianAssignment, assertSquareCostMatrix,
      processRows, processRow, hungarianLoop, augmentPath, scanCols, applyDelta,
      buildAssignment, costAt, upd, oLT, oSub, toFiniteCost,
      computeIntersectionOverUnion, UNASSIGNED_COST, UNMATCHABLE_COST,
      assignEntryForRow, matchForRow, buildAssignments, stepExistingTracks,
      createNewTracks, List.range', List.range, List.range.loop,
      defaultDetection, defaultBox, List.filterMap_cons, List.filterMap_nil,
      Option.map, ManagerState.initial])

/-! ### Claim C8: the solver throws exactly on malformed input.

The forward direction is the assertSquareCostMatrix check.  The backward
direction (well-formed input never throws) needs the classic termination
invariants of the shortest-augmenting-path loop: the marked (used) columns
of one row-phase always lie inside the set of matched columns, which has
fewer than size elements, so the scan always finds a finite delta; and the
way-links always point to a column marked strictly earlier, so the final
augmentation walk reaches column 0.  The marking order is tracked by the
ghost list L below. -/

theorem upd_self {α : Type} (f : ℕ → α) (i : ℕ) (x : α) : upd f i x i = x := by
  simp [upd]

theorem upd_other {α : Type} (f : ℕ → α) (i j : ℕ) (x : α) (h : j ≠ i) :
    upd f i x j = f j := by
  simp [upd, h]

theorem mem_range'_one {s n m : ℕ} : m ∈ List.range' s n ↔ s ≤ m ∧ m < s + n := by
  rw [List.mem_range']
  constructor
  · rintro ⟨i, hi, rfl⟩
    omega
  · intro ⟨h1, h2⟩
    exact ⟨m - s, by omega, by omega⟩

/-- a occurs strictly before c in L. -/
def before (L : List ℕ) (a c : ℕ) : Prop :=
  ∃ l1 l2, L = l1 ++ c :: l2 ∧ a ∈ l1

theorem before_append (L : List ℕ) (a c x : ℕ) (h : before L a c) :
    before (L ++ [x]) a c := by
  obtain ⟨l1, l2, rfl, ha⟩ := h
  exact ⟨l1, l2 ++ [x], by simp, ha⟩

theorem before_mem (L : List ℕ) (a c : ℕ) (h : before L a c) : a ∈ L := by
  obtain ⟨l1, l2, rfl, ha⟩ := h
  exact List.mem_append_left _ ha

theorem before_mem_right (L : List ℕ) (a c : ℕ) (h : before L a c) : c ∈ L := by
  obtain ⟨l1, l2, rfl, _⟩ := h
  exact List.mem_append_right _ (List.mem_cons_self _ _)

theorem indexOf_before_aux (a c : ℕ) : ∀ (l1 l2 : List ℕ),
    (l1 ++ c :: l2).Nodup → a ∈ l1 →
    (l1 ++ c :: l2).indexOf a < (l1 ++ c :: l2).indexOf c := by
  intro l1
  induction l1 with
  | nil =>
    intro l2 _ ha
    cases ha
  | cons x xs ih =>
    intro l2 hnd ha
    have hx : x ∉ xs ++ c :: l2 := (List.nodup_cons.mp hnd).1
    have hxc : x ≠ c := by
      intro he
      exact hx (he ▸ List.mem_append_right _ (List.mem_cons_self _ _))
    rcases List.mem_cons.mp ha with heq | ha2
    · rw [List.cons_append, List.indexOf_cons_eq _ heq.symm,
        List.indexOf_cons_ne _ hxc]
      exact Nat.succ_pos _
    · have hxa : x ≠ a := by
        intro he
        exact hx (he ▸ List.mem_append_left _ ha2)
      rw [List.cons_append, List.indexOf_cons_ne _ hxa, List.indexOf_cons_ne _ hxc]
      exact Nat.succ_lt_succ (ih l2 hnd.of_cons ha2)

theorem indexOf_lt_of_before (L : List ℕ) (a c : ℕ) (hnd : L.Nodup)
    (h : before L a c) : L.indexOf a < L.indexOf c := by
  obtain ⟨l1, l2, rfl, ha⟩ := h
  exact indexOf_before_aux a c l1 l2 hnd ha

theorem oLT_some_none (x : ℚ) : oLT (some x) none = true := rfl

theorem oLT_none (y : Option ℚ) : oLT none y = false := by
  cases y <;> rfl

theorem scanCols_delta_none (cost : ℕ → ℕ → ℚ) (u v : ℕ → ℚ) (row0 c0 : ℕ)
    (used : ℕ → Bool) :
    ∀ (js : List ℕ) (minv : ℕ → Option ℚ) (way : ℕ → ℕ) (delta : Option ℚ) (c1 : ℕ),
    (scanCols cost u v row0 c0 used js (minv, way, delta, c1)).2.2.1 = none →
    delta = none ∧ ∀ j ∈ js, used j = true := by
  intro js
  induction js with
  | nil =>
    intro minv way delta c1 h
    exact ⟨h, by simp⟩
  | cons j rest ih =>
    intro minv way delta c1 h
    simp only [scanCols] at h
    by_cases hu : used j = true
    · rw [if_pos hu] at h
      obtain ⟨h1, h2⟩ := ih _ _ _ _ h
      refine ⟨h1, ?_⟩
      intro x hx
      rcases List.mem_cons.mp hx with rfl | hx2
      · exact hu
      · exact h2 x hx2
    · rw [if_neg hu] at h
      by_cases himp : oLT (some (toFiniteCost (cost (row0 - 1) (j - 1)) - u row0 - v j))
          (minv j) = true
      · rw [if_pos himp, if_pos himp] at h
        have hsome : upd minv j (some (toFiniteCost (cost (row0 - 1) (j - 1))
            - u row0 - v j)) j ≠ none := by
          rw [upd_self]
          simp
        by_cases hd : oLT (upd minv j (some (toFiniteCost (cost (row0 - 1) (j - 1))
            - u row0 - v j)) j) delta = true
        · rw [if_pos hd] at h
          obtain ⟨h1, _⟩ := ih _ _ _ _ h
          exact absurd h1 hsome
        · rw [if_neg hd] at h
          obtain ⟨h1, _⟩ := ih _ _ _ _ h
          subst h1
          rw [upd_self] at hd
          exact absurd (oLT_some_none _) hd
      · rw [if_neg himp, if_neg himp] at h
        have hjsome : minv j ≠ none := by
          intro he
          rw [he] at himp
          exact himp (oLT_some_none _)
        by_cases hd : oLT (minv j) delta = true
        · rw [if_pos hd] at h
          obtain ⟨h1, _⟩ := ih _ _ _ _ h
          exact absurd h1 hjsome
        · rw [if_neg hd] at h
          obtain ⟨h1, h2⟩ := ih _ _ _ _ h
          subst h1
          rcases hj : minv j with _ | x
          · exact absurd hj hjsome
          · rw [hj] at hd
            exact absurd (oLT_some_none _) hd

/-! Invariant propagation through one column scan.  Q is an arbitrary
predicate holding on every scanned column (instantiated with membership in
[1..size]); W is an arbitrary predicate holding at the current column c0
(instantiated with membership in the ghost marking list), so every
way-write made by the scan lands on a W-column. -/

theorem scanCols_main (cost : ℕ → ℕ → ℚ) (u v : ℕ → ℚ) (row0 c0 : ℕ)
    (used : ℕ → Bool) (Q W : ℕ → Prop) (hc0 : W c0) :
    ∀ (js : List ℕ) (minv : ℕ → Option ℚ) (way : ℕ → ℕ) (delta : Option ℚ) (c1 : ℕ),
    js.Nodup →
    (∀ j ∈ js, Q j) →
    (delta ≠ none → used c1 = false ∧ Q c1 ∧ W (way c1) ∧ c1 ∉ js) →
    (∀ j, used j = false → minv j ≠ none → W (way j)) →
    ∀ minv2 way2 delta2 c2,
    scanCols cost u v row0 c0 used js (minv, way, delta, c1) = (minv2, way2, delta2, c2) →
    (delta2 ≠ none → used c2 = false ∧ Q c2 ∧ W (way2 c2)) ∧
    (∀ j, used j = false → minv2 j ≠ none → W (way2 j)) ∧
    (∀ c, used c = true → way2 c = way c) := by
  intro js
  induction js with
  | nil =>
    intro minv way delta c1 _ _ hinv h8 minv2 way2 delta2 c2 h
    simp only [scanCols, Prod.mk.injEq] at h
    obtain ⟨rfl, rfl, rfl, rfl⟩ := h
    refine ⟨?_, h8, fun _ _ => rfl⟩
    intro hd
    obtain ⟨ha, hb, hc, _⟩ := hinv hd
    exact ⟨ha, hb, hc⟩
  | cons j rest ih =>
    intro minv way delta c1 hnd hQ hinv h8 minv2 way2 delta2 c2 h
    have hndr : rest.Nodup := hnd.of_cons
    have hjr : j ∉ rest := (List.nodup_cons.mp hnd).1
    have hQr : ∀ x ∈ rest, Q x := fun x hx => hQ x (List.mem_cons_of_mem _ hx)
    simp only [scanCols] at h
    by_cases hu : used j = true
    · rw [if_pos hu] at h
      have hinvb : delta ≠ none → used c1 = false ∧ Q c1 ∧ W (way c1) ∧ c1 ∉ rest := by
        intro hd
        obtain ⟨ha, hb, hc, hd2⟩ := hinv hd
        exact ⟨ha, hb, hc, fun hm => hd2 (List.mem_cons_of_mem _ hm)⟩
      exact ih _ _ _ _ hndr hQr hinvb h8 _ _ _ _ h
    · rw [if_neg hu] at h
      have huf : used j = false := by simpa using hu
      by_cases himp : oLT (some (toFiniteCost (cost (row0 - 1) (j - 1)) - u row0 - v j))
          (minv j) = true
      · rw [if_pos himp, if_pos himp] at h
        have h8b : ∀ x, used x = false →
            upd minv j (some (toFiniteCost (cost (row0 - 1) (j - 1)) - u row0 - v j)) x ≠ none →
            W (upd way j c0 x) := by
          intro x hx hm
          by_cases hxj : x = j
          · subst hxj
            rw [upd_self]
            exact hc0
          · rw [upd_other _ _ _ _ hxj] at hm
            rw [upd_other _ _ _ _ hxj]
            exact h8 x hx hm
        by_cases hd : oLT (upd minv j (some (toFiniteCost (cost (row0 - 1) (j - 1))
            - u row0 - v j)) j) delta = true
        · rw [if_pos hd] at h
          have hinvb : upd minv j (some (toFiniteCost (cost (row0 - 1) (j - 1))
              - u row0 - v j)) j ≠ none →
              used j = false ∧ Q j ∧ W (upd way j c0 j) ∧ j ∉ rest := by
            intro _
            refine ⟨huf, hQ j (List.mem_cons_self _ _), ?_, hjr⟩
            rw [upd_self]
            exact hc0
          have hres := ih _ _ _ _ hndr hQr hinvb h8b _ _ _ _ h
          refine ⟨hres.1, hres.2.1, ?_⟩
          intro c hc
          have hcj : c ≠ j := by
            intro he
            rw [he, huf] at hc
            exact Bool.noConfusion hc
          rw [hres.2.2 c hc, upd_other way j c c0 hcj]
        · rw [if_neg hd] at h
          have hinvb : delta ≠ none →
              used c1 = false ∧ Q c1 ∧ W (upd way j c0 c1) ∧ c1 ∉ rest := by
            intro hdel
            obtain ⟨ha, hb, hc2, hd2⟩ := hinv hdel
            have hc1j : c1 ≠ j := fun he => hd2 (he ▸ List.mem_cons_self _ _)
            refine ⟨ha, hb, ?_, fun hm => hd2 (List.mem_cons_of_mem _ hm)⟩
            rw [upd_other way j c1 c0 hc1j]
            exact hc2
          have hres := ih _ _ _ _ hndr hQr hinvb h8b _ _ _ _ h
          refine ⟨hres.1, hres.2.1, ?_⟩
          intro c hc
          have hcj : c ≠ j := by
            intro he
            rw [he, huf] at hc
            exact Bool.noConfusion hc
          rw [hres.2.2 c hc, upd_other way j c c0 hcj]
      · rw [if_neg himp, if_neg himp] at h
        by_cases hd : oLT (minv j) delta = true
        · rw [if_pos hd] at h
          have hmj : minv j ≠ none := by
            intro he
            rw [he, oLT_none] at hd
            exact Bool.noConfusion hd
          have hinvb : minv j ≠ none → used j = false ∧ Q j ∧ W (way j) ∧ j ∉ rest :=
            fun _ => ⟨huf, hQ j (List.mem_cons_self _ _), h8 j huf hmj, hjr⟩
          exact ih _ _ _ _ hndr hQr hinvb h8 _ _ _ _ h
        · rw [if_neg hd] at h
          have hinvb : delta ≠ none → used c1 = false ∧ Q c1 ∧ W (way c1) ∧ c1 ∉ rest := by
            intro hdel
            obtain ⟨ha, hb, hc2, hd2⟩ := hinv hdel
            exact ⟨ha, hb, hc2, fun hm => hd2 (List.mem_cons_of_mem _ hm)⟩
          exact ih _ _ _ _ hndr hQr hinvb h8 _ _ _ _ h

/-- applyDelta never changes whether a minv cell of an unused column is
infinite (oSub maps some to some and none to none), and it only touches
minv at unused columns. -/
theorem applyDelta_none_iff (p : ℕ → ℕ) (used : ℕ → Bool) (delta : ℚ) :
    ∀ (cols : List ℕ) (u v : ℕ → ℚ) (minv : ℕ → Option ℚ) (j : ℕ),
    used j = false →
    ((applyDelta p used delta cols (u, v, minv)).2.2 j = none ↔ minv j = none) := by
  intro cols
  induction cols with
  | nil =>
    intro u v minv j hj
    exact Iff.rfl
  | cons c rest ih =>
    intro u v minv j hj
    simp only [applyDelta]
    by_cases hc : used c = true
    · rw [if_pos hc]
      exact ih _ _ _ j hj
    · rw [if_neg hc]
      rw [ih _ _ _ j hj]
      by_cases hjc : j = c
      · subst hjc
        rw [upd_self]
        cases hm : minv j with
        | none => simp [oSub]
        | some a => simp [oSub]
      · rw [upd_other _ _ _ _ hjc]

/-- A duplicate-free list of naturals all bounded by n has at most n+1
elements. -/
theorem length_le_of_nodup_bounded (L : List ℕ) (n : ℕ) (hnd : L.Nodup)
    (hb : ∀ c ∈ L, c ≤ n) : L.length ≤ n + 1 := by
  have h1 : L.toFinset.card = L.length := List.toFinset_card_of_nodup hnd
  have h2 : L.toFinset ⊆ Finset.range (n + 1) := by
    intro x hx
    rw [List.mem_toFinset] at hx
    rw [Finset.mem_range]
    exact Nat.lt_succ_of_le (hb x hx)
  calc L.length = L.toFinset.card := h1.symm
    _ ≤ (Finset.range (n + 1)).card := Finset.card_le_card h2
    _ = n + 1 := Finset.card_range _

/-- The augmenting walk: starting at a marked column c0 ≠ 0 it terminates
with enough fuel (the way-links point strictly earlier in the marking list
L, which starts at column 0), and the final matching p2 is nonzero exactly
where p was nonzero or at c0. -/
theorem augmentPath_spec (way : ℕ → ℕ) (L : List ℕ) (hnd : L.Nodup)
    (hway : ∀ c ∈ L, c ≠ 0 → before L (way c) c) :
    ∀ (fuel : ℕ) (c0 : ℕ) (p : ℕ → ℕ),
    c0 ∈ L → c0 ≠ 0 → L.indexOf c0 < fuel →
    p 0 ≠ 0 → (∀ c ∈ L, c ≠ 0 → p c ≠ 0) →
    ∃ p2, augmentPath way fuel p c0 = .ok p2 ∧
      ∀ c, (p2 c ≠ 0 ↔ (p c ≠ 0 ∨ c = c0)) := by
  intro fuel
  induction fuel with
  | zero =>
    intro c0 p _ _ hlt _ _
    exact absurd hlt (Nat.not_lt_zero _)
  | succ fuel ih =>
    intro c0 p hc0 hc0ne hlt hp0 hmark
    have hb : before L (way c0) c0 := hway c0 hc0 hc0ne
    have hwL : way c0 ∈ L := before_mem _ _ _ hb
    have hidx : L.indexOf (way c0) < L.indexOf c0 := indexOf_lt_of_before L _ _ hnd hb
    simp only [augmentPath]
    by_cases hz : way c0 ≠ 0
    · rw [if_pos hz]
      have hp0b : upd p c0 (p (way c0)) 0 ≠ 0 := by
        rw [upd_other p c0 0 _ (Ne.symm hc0ne)]
        exact hp0
      have hmarkb : ∀ c ∈ L, c ≠ 0 → upd p c0 (p (way c0)) c ≠ 0 := by
        intro c hc hcne
        by_cases hcc : c = c0
        · subst hcc
          rw [upd_self]
          exact hmark _ hwL hz
        · rw [upd_other p c0 c _ hcc]
          exact hmark c hc hcne
      obtain ⟨p2, heq, hiff⟩ := ih (way c0) (upd p c0 (p (way c0))) hwL hz
        (by omega) hp0b hmarkb
      refine ⟨p2, heq, ?_⟩
      intro c
      rw [hiff c]
      by_cases hcc0 : c = c0
      · subst hcc0
        rw [upd_self]
        have hwn : p (way c) ≠ 0 := hmark _ hwL hz
        constructor
        · intro _
          exact Or.inr rfl
        · intro _
          exact Or.inl hwn
      · rw [upd_other p c0 c _ hcc0]
        constructor
        · rintro (hpc | rfl)
          · exact Or.inl hpc
          · exact Or.inl (hmark _ hwL hz)
        · rintro (hpc | rfl)
          · exact Or.inl hpc
          · exact absurd rfl hcc0
    · rw [if_neg hz]
      push_neg at hz
      refine ⟨upd p c0 (p (way c0)), rfl, ?_⟩
      intro c
      by_cases hcc0 : c = c0
      · subst hcc0
        rw [upd_self, hz]
        constructor
        · intro _
          exact Or.inr rfl
        · intro _
          exact hp0
      · rw [upd_other p c0 c _ hcc0]
        constructor
        · intro hpc
          exact Or.inl hpc
        · rintro (hpc | rfl)
          · exact hpc
          · exact absurd rfl hcc0

/-- Entering the augmenting walk from the final (unmarked) column cf: with
fuel size+2 the walk terminates and augments the matching exactly at cf. -/
theorem augmentPath_start (way : ℕ → ℕ) (L : List ℕ) (size : ℕ) (hnd : L.Nodup)
    (h0 : L.head? = some 0)
    (hway : ∀ c ∈ L, c ≠ 0 → before L (way c) c)
    (hlen : L.length ≤ size + 1)
    (cf : ℕ) (hcf : cf ∉ L) (hwcf : way cf ∈ L)
    (p : ℕ → ℕ) (hp0 : p 0 ≠ 0) (hmark : ∀ c ∈ L, c ≠ 0 → p c ≠ 0) :
    ∃ p2, augmentPath way (size + 2) p cf = .ok p2 ∧
      ∀ c, (p2 c ≠ 0 ↔ (p c ≠ 0 ∨ c = cf)) := by
  have h0m : (0 : ℕ) ∈ L := by
    cases L with
    | nil => exact absurd h0 (by simp)
    | cons a t =>
      rw [List.head?_cons, Option.some.injEq] at h0
      rw [h0]
      exact List.mem_cons_self _ _
  have hcf0 : cf ≠ 0 := fun he => hcf (he ▸ h0m)
  show ∃ p2, augmentPath way (size + 1 + 1) p cf = .ok p2 ∧ _
  simp only [augmentPath]
  by_cases hz : way cf ≠ 0
  · rw [if_pos hz]
    have hp0b : upd p cf (p (way cf)) 0 ≠ 0 := by
      rw [upd_other p cf 0 _ (Ne.symm hcf0)]
      exact hp0
    have hmarkb : ∀ c ∈ L, c ≠ 0 → upd p cf (p (way cf)) c ≠ 0 := by
      intro c hc hcne
      have hccf : c ≠ cf := fun he => hcf (he ▸ hc)
      rw [upd_other p cf c _ hccf]
      exact hmark c hc hcne
    have hidx : L.indexOf (way cf) < size + 1 :=
      Nat.lt_of_lt_of_le (List.indexOf_lt_length.mpr hwcf) hlen
    obtain ⟨p2, heq, hiff⟩ := augmentPath_spec way L hnd hway (size + 1) (way cf)
      (upd p cf (p (way cf))) hwcf hz hidx hp0b hmarkb
    refine ⟨p2, heq, ?_⟩
    intro c
    rw [hiff c]
    by_cases hccf : c = cf
    · subst hccf
      rw [upd_self]
      have hwn : p (way c) ≠ 0 := hmark _ hwcf hz
      constructor
      · intro _
        exact Or.inr rfl
      · intro _
        exact Or.inl hwn
    · rw [upd_other p cf c _ hccf]
      constructor
      · rintro (hpc | rfl)
        · exact Or.inl hpc
        · exact Or.inl (hmark _ hwcf hz)
      · rintro (hpc | rfl)
        · exact Or.inl hpc
        · exact absurd rfl hccf
  · rw [if_neg hz]
    push_neg at hz
    refine ⟨upd p cf (p (way cf)), rfl, ?_⟩
    intro c
    by_cases hccf : c = cf
    · subst hccf
      rw [upd_self, hz]
      constructor
      · intro _
        exact Or.inr rfl
      · intro _
        exact hp0
    · rw [upd_other p cf c _ hccf]
      constructor
      · intro hpc
        exact Or.inl hpc
      · rintro (hpc | rfl)
        · exact hpc
        · exact absurd rfl hccf

/-- One unfolding of hungarianLoop, with the scan and potential-update
results supplied as equations. -/
theorem hungarianLoop_step (size : ℕ) (cost : ℕ → ℕ → ℚ) (p : ℕ → ℕ) (fuel : ℕ)
    (u v : ℕ → ℚ) (way : ℕ → ℕ) (used : ℕ → Bool) (minv : ℕ → Option ℚ)
    (column0 : ℕ) (minv2 : ℕ → Option ℚ) (way2 : ℕ → ℕ) (delta : ℚ) (column1 : ℕ)
    (u2 v2 : ℕ → ℚ) (minv3 : ℕ → Option ℚ)
    (hscan : scanCols cost u v (p column0) column0 (upd used column0 true)
      (List.range' 1 size) (minv, way, none, 0) = (minv2, way2, some delta, column1))
    (happ : applyDelta p (upd used column0 true) delta (List.range (size + 1))
      (u, v, minv2) = (u2, v2, minv3)) :
    hungarianLoop size cost p (fuel + 1) u v way used minv column0 =
      if p column1 ≠ 0 then
        hungarianLoop size cost p fuel u2 v2 way2 (upd used column0 true) minv3 column1
      else
        .ok (u2, v2, way2, column1) := by
  simp only [hungarianLoop, hscan, happ]
theorem head?_append_left {α : Type} (l r : List α) (x : α) (h : l.head? = some x) :
    (l ++ r).head? = some x := by
  cases l with
  | nil => exact absurd h (by simp)
  | cons a t => simpa using h

/-- The shortest-augmenting-path loop succeeds whenever the matching p
leaves at least one column of [1..size] free, and it hands augmentPath a
way array whose links walk back to column 0 along the marking list. -/
theorem hungarianLoop_ok (size : ℕ) (cost : ℕ → ℕ → ℚ) (p : ℕ → ℕ)
    (hM : ((Finset.Icc 1 size).filter fun c => p c ≠ 0).card < size) :
    ∀ (fuel : ℕ) (L : List ℕ) (u v : ℕ → ℚ) (way : ℕ → ℕ) (used : ℕ → Bool)
      (minv : ℕ → Option ℚ) (column0 : ℕ),
    (∀ c, used c = true ↔ c ∈ L) →
    column0 ∉ L →
    (L ++ [column0]).head? = some 0 →
    (L ++ [column0]).Nodup →
    (∀ c ∈ L ++ [column0], c ≤ size) →
    (∀ c ∈ L ++ [column0], c ≠ 0 → p c ≠ 0) →
    (∀ c ∈ L ++ [column0], c ≠ 0 → before (L ++ [column0]) (way c) c) →
    (∀ j, used j = false → j ≠ column0 → minv j ≠ none → way j ∈ L ++ [column0]) →
    size + 1 ≤ fuel + L.length →
    ∃ u2 v2 way2 cf Lf,
      hungarianLoop size cost p fuel u v way used minv column0 = .ok (u2, v2, way2, cf) ∧
      cf ∉ Lf ∧ 1 ≤ cf ∧ cf ≤ size ∧ p cf = 0 ∧ way2 cf ∈ Lf ∧
      Lf.head? = some 0 ∧ Lf.Nodup ∧ (∀ c ∈ Lf, c ≤ size) ∧
      (∀ c ∈ Lf, c ≠ 0 → p c ≠ 0) ∧
      (∀ c ∈ Lf, c ≠ 0 → before Lf (way2 c) c) ∧
      Lf.length ≤ size + 1 := by
  intro fuel
  induction fuel with
  | zero =>
    intro L u v way used minv column0 h1 h2 h3 h4 h5 h6 h7 h8 hfuel
    exfalso
    have hlen : (L ++ [column0]).length ≤ size + 1 :=
      length_le_of_nodup_bounded _ _ h4 h5
    rw [List.length_append, List.length_singleton] at hlen
    omega
  | succ fuel ih =>
    intro L u v way used minv column0 h1 h2 h3 h4 h5 h6 h7 h8 hfuel
    rcases hscan : scanCols cost u v (p column0) column0 (upd used column0 true)
        (List.range' 1 size) (minv, way, none, 0) with ⟨minv2, way2, deltaOpt, cf⟩
    have hused2 : ∀ c, (upd used column0 true) c = true ↔ c ∈ L ++ [column0] := by
      intro c
      by_cases hc : c = column0
      · subst hc
        rw [upd_self]
        simp
      · rw [upd_other _ _ _ _ hc, h1 c]
        simp [hc]
    have hdelta : deltaOpt ≠ none := by
      intro hnone
      obtain ⟨_, hall⟩ := scanCols_delta_none cost u v (p column0) column0
        (upd used column0 true) (List.range' 1 size) minv way none 0
        (by rw [hscan]; exact hnone)
      have hex : ∃ j, j ∈ Finset.Icc 1 size ∧ p j = 0 := by
        by_contra hno
        push_neg at hno
        have hsub : Finset.Icc 1 size ⊆ (Finset.Icc 1 size).filter fun c => p c ≠ 0 := by
          intro x hx
          rw [Finset.mem_filter]
          exact ⟨hx, hno x hx⟩
        have hcard := Finset.card_le_card hsub
        rw [Nat.card_Icc] at hcard
        omega
      obtain ⟨j, hjI, hjp⟩ := hex
      rw [Finset.mem_Icc] at hjI
      have hjrange : j ∈ List.range' 1 size := mem_range'_one.mpr ⟨hjI.1, by omega⟩
      have hju := hall j hjrange
      rw [hused2 j] at hju
      exact (h6 j hju (by omega)) hjp
    cases deltaOpt with
    | none => exact absurd rfl hdelta
    | some delta =>
    rcases happ : applyDelta p (upd used column0 true) delta (List.range (size + 1))
        (u, v, minv2) with ⟨u2, v2, minv3⟩
    rw [hungarianLoop_step size cost p fuel u v way used minv column0 minv2 way2
      delta cf u2 v2 minv3 hscan happ]
    have hscanres := scanCols_main cost u v (p column0) column0 (upd used column0 true)
      (fun j => 1 ≤ j ∧ j ≤ size) (fun c => c ∈ L ++ [column0])
      (List.mem_append_right _ (List.mem_cons_self _ _))
      (List.range' 1 size) minv way none 0
      (List.nodup_range' 1 size 1 Nat.one_pos)
      (fun j hj => by
        rw [mem_range'_one] at hj
        exact ⟨hj.1, by omega⟩)
      (fun hd => absurd rfl hd)
      (fun j hjf hjm => by
        have hjc : j ≠ column0 := by
          intro he
          rw [he, upd_self] at hjf
          exact Bool.noConfusion hjf
        rw [upd_other _ _ _ _ hjc] at hjf
        exact h8 j hjf hjc hjm)
      minv2 way2 (some delta) cf hscan
    obtain ⟨hcf_unused, ⟨hcf1, hcfs⟩, hwcf⟩ := hscanres.1 (by simp)
    have hr2 := hscanres.2.1
    have hr3 := hscanres.2.2
    have hcfnL2 : cf ∉ L ++ [column0] := by
      intro hmem
      rw [← hused2 cf] at hmem
      rw [hcf_unused] at hmem
      exact Bool.noConfusion hmem
    by_cases hpcf : p cf ≠ 0
    · rw [if_pos hpcf]
      refine ih (L ++ [column0]) u2 v2 way2 (upd used column0 true) minv3 cf
        hused2 hcfnL2 ?_ ?_ ?_ ?_ ?_ ?_ ?_
      · exact head?_append_left _ _ _ h3
      · rw [List.nodup_append]
        refine ⟨h4, List.nodup_singleton _, ?_⟩
        intro a ha hb
        rw [List.mem_singleton] at hb
        subst hb
        exact hcfnL2 ha
      · intro c hc
        rcases List.mem_append.mp hc with hc2 | hc2
        · exact h5 c hc2
        · rw [List.mem_singleton] at hc2
          subst hc2
          exact hcfs
      · intro c hc hcne
        rcases List.mem_append.mp hc with hc2 | hc2
        · exact h6 c hc2 hcne
        · rw [List.mem_singleton] at hc2
          subst hc2
          exact hpcf
      · intro c hc hcne
        rcases List.mem_append.mp hc with hc2 | hc2
        · have hcu : (upd used column0 true) c = true := (hused2 c).mpr hc2
          rw [hr3 c hcu]
          exact before_append _ _ _ _ (h7 c hc2 hcne)
        · rw [List.mem_singleton] at hc2
          subst hc2
          exact ⟨L ++ [column0], [], rfl, hwcf⟩
      · intro j hjf hjc hjm
        have hm2 : minv2 j ≠ none := by
          intro he
          have hiff := applyDelta_none_iff p (upd used column0 true) delta
            (List.range (size + 1)) u v minv2 j hjf
          rw [happ] at hiff
          exact hjm (hiff.mpr he)
        exact List.mem_append_left _ (hr2 j hjf hm2)
      · rw [List.length_append, List.length_singleton]
        omega
    · rw [if_neg hpcf]
      push_neg at hpcf
      refine ⟨u2, v2, way2, cf, L ++ [column0], rfl, hcfnL2, hcf1, hcfs, hpcf, hwcf,
        h3, h4, h5, h6, ?_, ?_⟩
      · intro c hc hcne
        have hcu : (upd used column0 true) c = true := (hused2 c).mpr hc
        rw [hr3 c hcu]
        exact h7 c hc hcne
      · exact length_le_of_nodup_bounded _ _ h4 h5

/-- One unfolding of processRow, with the loop and augmentation results
supplied as equations. -/
theorem processRow_step (size : ℕ) (cost : ℕ → ℕ → ℚ) (u v : ℕ → ℚ) (p way : ℕ → ℕ)
    (r : ℕ) (u2 v2 : ℕ → ℚ) (way2 : ℕ → ℕ) (cf : ℕ) (p2 : ℕ → ℕ)
    (hloop : hungarianLoop size cost (upd p 0 r) (size + 2) u v way
      (fun _ => false) (fun _ => none) 0 = .ok (u2, v2, way2, cf))
    (haug : augmentPath way2 (size + 2) (upd p 0 r) cf = .ok p2) :
    processRow size cost (u, v, p, way) r = .ok (u2, v2, p2, way2) := by
  simp only [processRow, hloop, haug]

/-- The outer row loop succeeds on rows k..size provided exactly k-1
columns are matched on entry; each row matches exactly one new column. -/
theorem processRows_ok (size : ℕ) (cost : ℕ → ℕ → ℚ) :
    ∀ (n k : ℕ) (u v : ℕ → ℚ) (p way : ℕ → ℕ),
    1 ≤ k → k + n ≤ size + 1 →
    ((Finset.Icc 1 size).filter fun c => p c ≠ 0).card + 1 = k →
    ∃ st2, processRows size cost (List.range' k n) (u, v, p, way) = .ok st2 := by
  intro n
  induction n with
  | zero =>
    intro k u v p way _ _ _
    exact ⟨(u, v, p, way), rfl⟩
  | succ n ih =>
    intro k u v p way hk1 hkn hcount
    have hksize : k ≤ size := by omega
    have hMp0 : ((Finset.Icc 1 size).filter fun c => (upd p 0 k) c ≠ 0).card < size := by
      have hfe : ((Finset.Icc 1 size).filter fun c => (upd p 0 k) c ≠ 0) =
          ((Finset.Icc 1 size).filter fun c => p c ≠ 0) := by
        apply Finset.filter_congr
        intro x hx
        rw [Finset.mem_Icc] at hx
        rw [upd_other p 0 x k (by omega)]
      rw [hfe]
      omega
    obtain ⟨u2, v2, way2, cf, Lf, hloop, hcfL, hcf1, hcfs, hpcf0, hwcf, hLh, hLnd,
        hLs, hLp, hLb, hLlen⟩ :=
      hungarianLoop_ok size cost (upd p 0 k) hMp0 (size + 2) [] u v way
        (fun _ => false) (fun _ => none) 0
        (by intro c; simp)
        (by simp)
        rfl
        (by simp)
        (by
          intro c hc
          rw [List.nil_append, List.mem_singleton] at hc
          subst hc
          exact Nat.zero_le _)
        (by
          intro c hc hcne
          rw [List.nil_append, List.mem_singleton] at hc
          exact absurd hc hcne)
        (by
          intro c hc hcne
          rw [List.nil_append, List.mem_singleton] at hc
          exact absurd hc hcne)
        (by
          intro j _ _ hm
          exact absurd rfl hm)
        (by simp)
    have hp00 : (upd p 0 k) 0 ≠ 0 := by
      rw [upd_self]
      omega
    obtain ⟨p2, haug, hiff⟩ := augmentPath_start way2 Lf size hLnd hLh hLb hLlen
      cf hcfL hwcf (upd p 0 k) hp00 hLp
    have hpcf : p cf = 0 := by
      rw [← upd_other p 0 cf k (by omega)]
      exact hpcf0
    have hstep : ((Finset.Icc 1 size).filter fun c => p2 c ≠ 0) =
        insert cf ((Finset.Icc 1 size).filter fun c => p c ≠ 0) := by
      ext x
      rw [Finset.mem_insert, Finset.mem_filter, Finset.mem_filter]
      constructor
      · rintro ⟨hxI, hx2⟩
        rw [hiff x] at hx2
        rcases hx2 with hx2 | rfl
        · right
          refine ⟨hxI, ?_⟩
          rwa [upd_other p 0 x k (by rw [Finset.mem_Icc] at hxI; omega)] at hx2
        · left
          rfl
      · rintro (rfl | ⟨hxI, hx2⟩)
        · refine ⟨?_, ?_⟩
          · rw [Finset.mem_Icc]
            exact ⟨hcf1, hcfs⟩
          · rw [hiff x]
            right
            rfl
        · refine ⟨hxI, ?_⟩
          rw [hiff x]
          left
          rwa [upd_other p 0 x k (by rw [Finset.mem_Icc] at hxI; omega)]
    have hcfM : cf ∉ (Finset.Icc 1 size).filter fun c => p c ≠ 0 := by
      rw [Finset.mem_filter]
      rintro ⟨_, hne⟩
      exact hne hpcf
    have hcount2 : ((Finset.Icc 1 size).filter fun c => p2 c ≠ 0).card + 1 = k + 1 := by
      rw [hstep, Finset.card_insert_of_not_mem hcfM]
      omega
    obtain ⟨st2, hrest⟩ := ih (k + 1) u2 v2 p2 way2 (by omega) (by omega) hcount2
    refine ⟨st2, ?_⟩
    rw [List.range'_succ k n 1]
    simp only [processRows,
      processRow_step size cost u v p way k u2 v2 way2 cf p2 hloop haug]
    exact hrest

/-- Every well-formed (non-empty, square) cost matrix is solved without an
error: validation passes, every row search finds a finite delta, and every
augmentation walk reaches column 0 within its fuel. -/
theorem solveHungarian_ok_of_wellformed (m : List (List ℚ)) (hne : m ≠ [])
    (hsq : ∀ row ∈ m, row.length = m.length) :
    ∃ a, solveHungarianAssignment m = .ok a := by
  have hassert : assertSquareCostMatrix m = .ok () := by
    rw [assertSquareCostMatrix]
    rw [if_neg (by simpa using hne)]
    rw [if_pos]
    rw [List.all_eq_true]
    intro row hrow
    simpa using hsq row hrow
  have hsize : 1 ≤ m.length := by
    cases m with
    | nil => exact absurd rfl hne
    | cons a t => simp
  obtain ⟨st2, hrows⟩ := processRows_ok m.length (costAt m) m.length 1
    (fun _ => 0) (fun _ => 0) (fun _ => 0) (fun _ => 0) le_rfl (by omega) (by simp)
  refine ⟨buildAssignment m.length st2.2.2.1, ?_⟩
  simp only [solveHungarianAssignment, hassert, hrows]

/-- C8: solveHungarianAssignment throws exactly on a malformed matrix: it
returns an error if and only if the input is empty or has a row whose
length differs from the number of rows.  (The source's additional
non-finite-value check is vacuous in this embedding: every ℚ cost is a
finite number, so the per-value finiteness loop can never fire, and on the
finite-valued inputs the claim quantifies over, well-formed means exactly
non-empty and square.) -/
theorem C8_throws_iff_malformed (m : List (List ℚ)) :
    (∃ e, solveHungarianAssignment m = .error e) ↔
      (m = [] ∨ ∃ row ∈ m, row.length ≠ m.length) := by
  constructor
  · rintro ⟨e, he⟩
    by_contra hno
    push_neg at hno
    obtain ⟨hne, hsq⟩ := hno
    obtain ⟨a, ha⟩ := solveHungarian_ok_of_wellformed m hne hsq
    rw [ha] at he
    exact Except.noConfusion he
  · intro h
    rcases h with rfl | ⟨row, hrow, hlen⟩
    · exact ⟨"Cost matrix must be a non-empty square matrix", rfl⟩
    · have hne : m ≠ [] := by
        intro he
        rw [he] at hrow
        exact List.not_mem_nil _ hrow
      have hassert : assertSquareCostMatrix m =
          .error "Cost matrix must be square (same row length)" := by
        rw [assertSquareCostMatrix]
        rw [if_neg (by simpa using hne)]
        rw [if_neg]
        intro hall
        rw [List.all_eq_true] at hall
        have := hall row hrow
        simp only [decide_eq_true_eq] at this
        exact hlen this
      exact ⟨"Cost matrix must be square (same row length)",
        by simp only [solveHungarianAssignment, hassert]⟩

/-! Toward the optimality claim: value-level facts about the scan, the
potential update and the augmentation.  oLE is the non-strict order on
ℚ ∪ \x7b+∞\x7d matching oLT; IsOMin S f o says o is the minimum of f over S
(none exactly when S is empty). -/

def oLE : Option ℚ → Option ℚ → Prop
  | _, none => True
  | some a, some b => a ≤ b
  | none, some _ => False

@[reducible] def IsOMin (S : ℕ → Prop) (f : ℕ → ℚ) : Option ℚ → Prop
  | none => ∀ c, S c → False
  | some x => (∃ c, S c ∧ x = f c) ∧ ∀ c, S c → x ≤ f c

theorem oLE_none_right (x : Option ℚ) : oLE x none := by
  cases x with
  | none => trivial
  | some a => trivial

theorem oLE_refl (x : Option ℚ) : oLE x x := by
  cases x with
  | none => trivial
  | some a => exact le_refl a

theorem oLE_trans (x y z : Option ℚ) (h1 : oLE x y) (h2 : oLE y z) : oLE x z := by
  cases z with
  | none => exact oLE_none_right x
  | some c =>
    cases y with
    | none => exact absurd h2 (by simp [oLE])
    | some b =>
      cases x with
      | none => exact absurd h1 (by simp [oLE])
      | some a => exact le_trans h1 h2

theorem oLT_some_some (a b : ℚ) : oLT (some a) (some b) = true ↔ a < b := by
  simp [oLT]

theorem oLE_of_oLT_false (x y : Option ℚ) (h : oLT x y = false) : oLE y x := by
  cases x with
  | none =>
    cases y with
    | none => trivial
    | some b => trivial
  | some a =>
    cases y with
    | none => exact absurd h (by simp [oLT])
    | some b =>
      rw [Bool.eq_false_iff, Ne, oLT_some_some] at h
      exact le_of_not_lt h
  
theorem oLE_of_oLT_true (x y : Option ℚ) (h : oLT x y = true) : oLE x y := by
  cases y with
  | none => exact oLE_none_right x
  | some b =>
    cases x with
    | none => exact absurd h (by simp [oLT])
    | some a => exact le_of_lt ((oLT_some_some a b).mp h)

theorem oLE_some_none (x : ℚ) : oLE (some x) none := trivial

theorem IsOMin_congr (S : ℕ → Prop) (f g : ℕ → ℚ) (o : Option ℚ)
    (hfg : ∀ c, S c → f c = g c) (h : IsOMin S f o) : IsOMin S g o := by
  cases o with
  | none => exact h
  | some x =>
    obtain ⟨⟨c, hc, hx⟩, hlb⟩ := h
    refine ⟨⟨c, hc, hx.trans (hfg c hc)⟩, ?_⟩
    intro c2 hc2
    rw [← hfg c2 hc2]
    exact hlb c2 hc2

theorem IsOMin_sub (S : ℕ → Prop) (f : ℕ → ℚ) (o : Option ℚ) (d : ℚ)
    (h : IsOMin S f o) : IsOMin S (fun c => f c - d) (oSub o d) := by
  cases o with
  | none => exact h
  | some x =>
    obtain ⟨⟨c, hc, hx⟩, hlb⟩ := h
    refine ⟨⟨c, hc, by rw [hx]⟩, ?_⟩
    intro c2 hc2
    have := hlb c2 hc2
    simp only
    linarith

theorem IsOMin_some_of_mem (S : ℕ → Prop) (f : ℕ → ℚ) (o : Option ℚ) (c : ℕ)
    (hc : S c) (h : IsOMin S f o) : ∃ x, o = some x ∧ x ≤ f c := by
  cases o with
  | none => exact absurd hc (h c)
  | some x => exact ⟨x, rfl, h.2 c hc⟩

/-- Value-level characterization of one column scan: cells outside the
scan list (or used) are untouched; each scanned unused cell becomes the
min of its old value and the fresh reduced cost (with the way-link set on
strict improvement); the returned delta is attained at the returned
column and bounds every scanned unused cell from below. -/
theorem scanCols_vals (cost : ℕ → ℕ → ℚ) (u v : ℕ → ℚ) (row0 c0 : ℕ)
    (used : ℕ → Bool) :
    ∀ (js : List ℕ) (minv : ℕ → Option ℚ) (way : ℕ → ℕ) (delta : Option ℚ) (c1 : ℕ),
    js.Nodup →
    (∀ d, delta = some d → minv c1 = some d ∧ used c1 = false ∧ c1 ∉ js) →
    ∀ minv2 way2 delta2 c2,
    scanCols cost u v row0 c0 used js (minv, way, delta, c1) = (minv2, way2, delta2, c2) →
    (∀ j, j ∉ js → minv2 j = minv j ∧ way2 j = way j) ∧
    (∀ j ∈ js, used j = true → minv2 j = minv j ∧ way2 j = way j) ∧
    (∀ j ∈ js, used j = false →
      (minv2 j = some (toFiniteCost (cost (row0 - 1) (j - 1)) - u row0 - v j) ∧
        way2 j = c0 ∧
        oLT (some (toFiniteCost (cost (row0 - 1) (j - 1)) - u row0 - v j)) (minv j) = true) ∨
      (minv2 j = minv j ∧ way2 j = way j ∧
        oLT (some (toFiniteCost (cost (row0 - 1) (j - 1)) - u row0 - v j)) (minv j) = false)) ∧
    (∀ d, delta2 = some d → minv2 c2 = some d ∧ used c2 = false) ∧
    (∀ j ∈ js, used j = false → oLE delta2 (minv2 j)) ∧
    oLE delta2 delta := by
  intro js
  induction js with
  | nil =>
    intro minv way delta c1 _ hinv minv2 way2 delta2 c2 h
    simp only [scanCols, Prod.mk.injEq] at h
    obtain ⟨rfl, rfl, rfl, rfl⟩ := h
    refine ⟨fun j _ => ⟨rfl, rfl⟩, fun j hj => absurd hj (List.not_mem_nil _),
      fun j hj => absurd hj (List.not_mem_nil _), ?_,
      fun j hj => absurd hj (List.not_mem_nil _), oLE_refl _⟩
    intro d hd
    obtain ⟨ha, hb, _⟩ := hinv d hd
    exact ⟨ha, hb⟩
  | cons j rest ih =>
    intro minv way delta c1 hnd hinv minv2 way2 delta2 c2 h
    have hndr : rest.Nodup := hnd.of_cons
    have hjr : j ∉ rest := (List.nodup_cons.mp hnd).1
    simp only [scanCols] at h
    by_cases hu : used j = true
    · rw [if_pos hu] at h
      have hinvr : ∀ d, delta = some d → minv c1 = some d ∧ used c1 = false ∧ c1 ∉ rest := by
        intro d hd
        obtain ⟨ha, hb, hc⟩ := hinv d hd
        exact ⟨ha, hb, fun hm => hc (List.mem_cons_of_mem _ hm)⟩
      obtain ⟨ihc1, ihc2, ihc3, ihc4, ihc5, ihc6⟩ := ih _ _ _ _ hndr hinvr _ _ _ _ h
      refine ⟨?_, ?_, ?_, ihc4, ?_, ihc6⟩
      · intro x hx
        exact ihc1 x (fun hm => hx (List.mem_cons_of_mem _ hm))
      · intro x hx hxu
        rcases List.mem_cons.mp hx with rfl | hx2
        · exact ihc1 x hjr
        · exact ihc2 x hx2 hxu
      · intro x hx hxu
        rcases List.mem_cons.mp hx with rfl | hx2
        · rw [hu] at hxu
          exact Bool.noConfusion hxu
        · exact ihc3 x hx2 hxu
      · intro x hx hxu
        rcases List.mem_cons.mp hx with rfl | hx2
        · rw [hu] at hxu
          exact Bool.noConfusion hxu
        · exact ihc5 x hx2 hxu
    · rw [if_neg hu] at h
      have huf : used j = false := by simpa using hu
      by_cases himp : oLT (some (toFiniteCost (cost (row0 - 1) (j - 1)) - u row0 - v j))
          (minv j) = true
      · rw [if_pos himp, if_pos himp] at h
        by_cases hd : oLT (upd minv j (some (toFiniteCost (cost (row0 - 1) (j - 1))
            - u row0 - v j)) j) delta = true
        · rw [if_pos hd] at h
          have hinvr : ∀ d,
              upd minv j (some (toFiniteCost (cost (row0 - 1) (j - 1)) - u row0 - v j)) j
                = some d →
              upd minv j (some (toFiniteCost (cost (row0 - 1) (j - 1)) - u row0 - v j)) j
                = some d ∧ used j = false ∧ j ∉ rest :=
            fun d hd2 => ⟨hd2, huf, hjr⟩
          obtain ⟨ihc1, ihc2, ihc3, ihc4, ihc5, ihc6⟩ := ih _ _ _ _ hndr hinvr _ _ _ _ h
          refine ⟨?_, ?_, ?_, ihc4, ?_, ?_⟩
          · intro x hx
            have hxj : x ≠ j := fun he => hx (he ▸ List.mem_cons_self _ _)
            have hres := ihc1 x (fun hm => hx (List.mem_cons_of_mem _ hm))
            rw [hres.1, hres.2, upd_other _ _ _ _ hxj, upd_other _ _ _ _ hxj]
            exact ⟨rfl, rfl⟩
          · intro x hx hxu
            rcases List.mem_cons.mp hx with rfl | hx2
            · rw [huf] at hxu
              exact Bool.noConfusion hxu
            · have hxj : x ≠ j := fun he => hjr (he ▸ hx2)
              have hres := ihc2 x hx2 hxu
              rw [hres.1, hres.2, upd_other _ _ _ _ hxj, upd_other _ _ _ _ hxj]
              exact ⟨rfl, rfl⟩
          · intro x hx hxu
            rcases List.mem_cons.mp hx with rfl | hx2
            · left
              have hres := ihc1 x hjr
              rw [hres.1, hres.2, upd_self, upd_self]
              exact ⟨rfl, rfl, himp⟩
            · have hxj : x ≠ j := fun he => hjr (he ▸ hx2)
              rcases ihc3 x hx2 hxu with ⟨ha, hb, hc⟩ | ⟨ha, hb, hc⟩
              · left
                rw [upd_other _ _ _ _ hxj] at hc
                exact ⟨ha, hb, hc⟩
              · right
                rw [upd_other _ _ _ _ hxj] at ha hc
                rw [upd_other _ _ _ _ hxj] at hb
                exact ⟨ha, hb, hc⟩
          · intro x hx hxu
            rcases List.mem_cons.mp hx with rfl | hx2
            · have hres := ihc1 x hjr
              have h6 := ihc6
              rw [upd_self] at h6
              rw [hres.1, upd_self]
              exact h6
            · exact ihc5 x hx2 hxu
          · refine oLE_trans _ _ _ ihc6 ?_
            exact oLE_of_oLT_true _ _ hd
        · rw [if_neg hd] at h
          have hinvr : ∀ d, delta = some d →
              upd minv j (some (toFiniteCost (cost (row0 - 1) (j - 1)) - u row0 - v j)) c1
                = some d ∧ used c1 = false ∧ c1 ∉ rest := by
            intro d hd2
            obtain ⟨ha, hb, hc⟩ := hinv d hd2
            have hc1j : c1 ≠ j := fun he => hc (he ▸ List.mem_cons_self _ _)
            rw [upd_other _ _ _ _ hc1j]
            exact ⟨ha, hb, fun hm => hc (List.mem_cons_of_mem _ hm)⟩
          obtain ⟨ihc1, ihc2, ihc3, ihc4, ihc5, ihc6⟩ := ih _ _ _ _ hndr hinvr _ _ _ _ h
          refine ⟨?_, ?_, ?_, ihc4, ?_, ihc6⟩
          · intro x hx
            have hxj : x ≠ j := fun he => hx (he ▸ List.mem_cons_self _ _)
            have hres := ihc1 x (fun hm => hx (List.mem_cons_of_mem _ hm))
            rw [hres.1, hres.2, upd_other _ _ _ _ hxj, upd_other _ _ _ _ hxj]
            exact ⟨rfl, rfl⟩
          · intro x hx hxu
            rcases List.mem_cons.mp hx with rfl | hx2
            · rw [huf] at hxu
              exact Bool.noConfusion hxu
            · have hxj : x ≠ j := fun he => hjr (he ▸ hx2)
              have hres := ihc2 x hx2 hxu
              rw [hres.1, hres.2, upd_other _ _ _ _ hxj, upd_other _ _ _ _ hxj]
              exact ⟨rfl, rfl⟩
          · intro x hx hxu
            rcases List.mem_cons.mp hx with rfl | hx2
            · left
              have hres := ihc1 x hjr
              rw [hres.1, hres.2, upd_self, upd_self]
              exact ⟨rfl, rfl, himp⟩
            · have hxj : x ≠ j := fun he => hjr (he ▸ hx2)
              rcases ihc3 x hx2 hxu with ⟨ha, hb, hc⟩ | ⟨ha, hb, hc⟩
              · left
                rw [upd_other _ _ _ _ hxj] at hc
                exact ⟨ha, hb, hc⟩
              · right
                rw [upd_other _ _ _ _ hxj] at ha hc
                rw [upd_other _ _ _ _ hxj] at hb
                exact ⟨ha, hb, hc⟩
          · intro x hx hxu
            rcases List.mem_cons.mp hx with rfl | hx2
            · have hres := ihc1 x hjr
              rw [hres.1, upd_self]
              refine oLE_trans _ _ _ ihc6 ?_
              have := oLE_of_oLT_false _ _ (by simpa using hd)
              rw [upd_self] at this
              exact this
            · exact ihc5 x hx2 hxu
      · rw [if_neg himp, if_neg himp] at h
        have himpf : oLT (some (toFiniteCost (cost (row0 - 1) (j - 1)) - u row0 - v j))
            (minv j) = false := by simpa using himp
        by_cases hd : oLT (minv j) delta = true
        · rw [if_pos hd] at h
          have hinvr : ∀ d, minv j = some d →
              minv j = some d ∧ used j = false ∧ j ∉ rest :=
            fun d hd2 => ⟨hd2, huf, hjr⟩
          obtain ⟨ihc1, ihc2, ihc3, ihc4, ihc5, ihc6⟩ := ih _ _ _ _ hndr hinvr _ _ _ _ h
          refine ⟨?_, ?_, ?_, ihc4, ?_, ?_⟩
          · intro x hx
            exact ihc1 x (fun hm => hx (List.mem_cons_of_mem _ hm))
          · intro x hx hxu
            rcases List.mem_cons.mp hx with rfl | hx2
            · rw [huf] at hxu
              exact Bool.noConfusion hxu
            · exact ihc2 x hx2 hxu
          · intro x hx hxu
            rcases List.mem_cons.mp hx with rfl | hx2
            · right
              have hres := ihc1 x hjr
              exact ⟨hres.1, hres.2, himpf⟩
            · exact ihc3 x hx2 hxu
          · intro x hx hxu
            rcases List.mem_cons.mp hx with rfl | hx2
            · have hres := ihc1 x hjr
              rw [hres.1]
              exact ihc6
            · exact ihc5 x hx2 hxu
          · exact oLE_trans _ _ _ ihc6 (oLE_of_oLT_true _ _ hd)
        · rw [if_neg hd] at h
          have hinvr : ∀ d, delta = some d → minv c1 = some d ∧ used c1 = false ∧ c1 ∉ rest := by
            intro d hd2
            obtain ⟨ha, hb, hc⟩ := hinv d hd2
            exact ⟨ha, hb, fun hm => hc (List.mem_cons_of_mem _ hm)⟩
          obtain ⟨ihc1, ihc2, ihc3, ihc4, ihc5, ihc6⟩ := ih _ _ _ _ hndr hinvr _ _ _ _ h
          refine ⟨?_, ?_, ?_, ihc4, ?_, ihc6⟩
          · intro x hx
            exact ihc1 x (fun hm => hx (List.mem_cons_of_mem _ hm))
          · intro x hx hxu
            rcases List.mem_cons.mp hx with rfl | hx2
            · rw [huf] at hxu
              exact Bool.noConfusion hxu
            · exact ihc2 x hx2 hxu
          · intro x hx hxu
            rcases List.mem_cons.mp hx with rfl | hx2
            · right
              have hres := ihc1 x hjr
              exact ⟨hres.1, hres.2, himpf⟩
            · exact ihc3 x hx2 hxu
          · intro x hx hxu
            rcases List.mem_cons.mp hx with rfl | hx2
            · have hres := ihc1 x hjr
              rw [hres.1]
              exact oLE_trans _ _ _ ihc6 (oLE_of_oLT_false _ _ (by simpa using hd))
            · exact ihc5 x hx2 hxu

/-- applyDelta on the minv component: each unused scanned column is shifted
down by delta exactly once (the column list is duplicate-free). -/
theorem applyDelta_minv (p : ℕ → ℕ) (used : ℕ → Bool) (delta : ℚ) :
    ∀ (cols : List ℕ), cols.Nodup →
    ∀ (u v : ℕ → ℚ) (minv : ℕ → Option ℚ) (j : ℕ), used j = false →
    (applyDelta p used delta cols (u, v, minv)).2.2 j =
      if j ∈ cols then oSub (minv j) delta else minv j := by
  intro cols
  induction cols with
  | nil =>
    intro _ u v minv j _
    simp [applyDelta]
  | cons c rest ih =>
    intro hnd u v minv j hj
    have hndr : rest.Nodup := hnd.of_cons
    have hcr : c ∉ rest := (List.nodup_cons.mp hnd).1
    simp only [applyDelta]
    by_cases hc : used c = true
    · rw [if_pos hc]
      rw [ih hndr _ _ _ j hj]
      have hjc : j ≠ c := by
        intro he
        rw [he, hc] at hj
        exact Bool.noConfusion hj
      by_cases hjr : j ∈ rest
      · rw [if_pos hjr, if_pos (List.mem_cons_of_mem _ hjr)]
      · rw [if_neg hjr, if_neg (by
          intro hm
          rcases List.mem_cons.mp hm with he | hm2
          · exact hjc he
          · exact hjr hm2)]
    · rw [if_neg hc]
      rw [ih hndr _ _ _ j hj]
      by_cases hjc : j = c
      · subst hjc
        rw [if_neg (fun hm => hcr hm), if_pos (List.mem_cons_self _ _), upd_self]
      · by_cases hjr : j ∈ rest
        · rw [if_pos hjr, if_pos (List.mem_cons_of_mem _ hjr), upd_other _ _ _ _ hjc]
        · rw [if_neg hjr, if_neg (by
            intro hm
            rcases List.mem_cons.mp hm with he | hm2
            · exact hjc he
            · exact hjr hm2), upd_other _ _ _ _ hjc]

/-- applyDelta on the v component: each used scanned column drops by
delta exactly once. -/
theorem applyDelta_v (p : ℕ → ℕ) (used : ℕ → Bool) (delta : ℚ) :
    ∀ (cols : List ℕ), cols.Nodup →
    ∀ (u v : ℕ → ℚ) (minv : ℕ → Option ℚ) (j : ℕ),
    (applyDelta p used delta cols (u, v, minv)).2.1 j =
      if j ∈ cols ∧ used j = true then v j - delta else v j := by
  intro cols
  induction cols with
  | nil =>
    intro _ u v minv j
    simp [applyDelta]
  | cons c rest ih =>
    intro hnd u v minv j
    have hndr : rest.Nodup := hnd.of_cons
    have hcr : c ∉ rest := (List.nodup_cons.mp hnd).1
    simp only [applyDelta]
    by_cases hc : used c = true
    · rw [if_pos hc]
      rw [ih hndr]
      by_cases hjc : j = c
      · subst hjc
        rw [if_neg (by rintro ⟨hm, _⟩; exact hcr hm),
          if_pos ⟨List.mem_cons_self _ _, hc⟩, upd_self]
      · rw [upd_other _ _ _ _ hjc]
        by_cases hjm : j ∈ rest ∧ used j = true
        · rw [if_pos hjm, if_pos ⟨List.mem_cons_of_mem _ hjm.1, hjm.2⟩]
        · rw [if_neg hjm, if_neg (by
            rintro ⟨hm, hu2⟩
            rcases List.mem_cons.mp hm with he | hm2
            · exact hjc he
            · exact hjm ⟨hm2, hu2⟩)]
    · rw [if_neg hc]
      rw [ih hndr]
      have hjc : ¬(j = c ∧ used j = true) := by
        rintro ⟨rfl, hu2⟩
        exact hc hu2
      by_cases hjm : j ∈ rest ∧ used j = true
      · rw [if_pos hjm, if_pos ⟨List.mem_cons_of_mem _ hjm.1, hjm.2⟩]
      · rw [if_neg hjm, if_neg (by
          rintro ⟨hm, hu2⟩
          rcases List.mem_cons.mp hm with he | hm2
          · exact hjc ⟨he, hu2⟩
          · exact hjm ⟨hm2, hu2⟩)]

/-- applyDelta on the u component: each row matched to a used scanned
column gains delta exactly once (rows of distinct used columns are
distinct). -/
theorem applyDelta_u (p : ℕ → ℕ) (used : ℕ → Bool) (delta : ℚ) :
    ∀ (cols : List ℕ), cols.Nodup →
    (∀ c1 c2, c1 ∈ cols → c2 ∈ cols → used c1 = true → used c2 = true →
      p c1 = p c2 → c1 = c2) →
    ∀ (u v : ℕ → ℚ) (minv : ℕ → Option ℚ) (i : ℕ),
    (applyDelta p used delta cols (u, v, minv)).1 i =
      if ∃ c, c ∈ cols ∧ used c = true ∧ p c = i then u i + delta else u i := by
  intro cols
  induction cols with
  | nil =>
    intro _ _ u v minv i
    simp [applyDelta]
  | cons c rest ih =>
    intro hnd hpinj u v minv i
    have hndr : rest.Nodup := hnd.of_cons
    have hcr : c ∉ rest := (List.nodup_cons.mp hnd).1
    have hpinjr : ∀ c1 c2, c1 ∈ rest → c2 ∈ rest → used c1 = true → used c2 = true →
        p c1 = p c2 → c1 = c2 :=
      fun c1 c2 h1 h2 => hpinj c1 c2 (List.mem_cons_of_mem _ h1) (List.mem_cons_of_mem _ h2)
    simp only [applyDelta]
    by_cases hc : used c = true
    · rw [if_pos hc]
      rw [ih hndr hpinjr]
      by_cases hip : i = p c
      · subst hip
        rw [if_neg (by
            rintro ⟨c2, hm2, hu2, hp2⟩
            have := hpinj c2 c (List.mem_cons_of_mem _ hm2) (List.mem_cons_self _ _)
              hu2 hc hp2
            subst this
            exact hcr hm2),
          if_pos ⟨c, List.mem_cons_self _ _, hc, rfl⟩, upd_self]
      · rw [upd_other _ _ _ _ hip]
        by_cases hex : ∃ c2, c2 ∈ rest ∧ used c2 = true ∧ p c2 = i
        · obtain ⟨c2, hm2, hu2, hp2⟩ := hex
          rw [if_pos ⟨c2, hm2, hu2, hp2⟩,
            if_pos ⟨c2, List.mem_cons_of_mem _ hm2, hu2, hp2⟩]
        · rw [if_neg hex, if_neg (by
            rintro ⟨c2, hm2, hu2, hp2⟩
            rcases List.mem_cons.mp hm2 with rfl | hm3
            · exact hip hp2.symm
            · exact hex ⟨c2, hm3, hu2, hp2⟩)]
    · rw [if_neg hc]
      rw [ih hndr hpinjr]
      by_cases hex : ∃ c2, c2 ∈ rest ∧ used c2 = true ∧ p c2 = i
      · obtain ⟨c2, hm2, hu2, hp2⟩ := hex
        rw [if_pos ⟨c2, hm2, hu2, hp2⟩,
          if_pos ⟨c2, List.mem_cons_of_mem _ hm2, hu2, hp2⟩]
      · rw [if_neg hex, if_neg (by
          rintro ⟨c2, hm2, hu2, hp2⟩
          rcases List.mem_cons.mp hm2 with rfl | hm3
          · exact hc hu2
          · exact hex ⟨c2, hm3, hu2, hp2⟩)]

theorem mem_of_head_eq {α : Type} (l : List α) (x : α) (h : l.head? = some x) : x ∈ l := by
  cases l with
  | nil => exact absurd h (by simp)
  | cons a t =>
    rw [List.head?_cons, Option.some.injEq] at h
    rw [← h]
    exact List.mem_cons_self _ _

/-- The shortest-augmenting-path loop with the full dual invariant pack:
on top of the structural facts of hungarianLoop_ok it maintains tightness
of matched edges, dual feasibility for all matched rows and for the row
being inserted, the minimum/provenance characterization of minv, and
tightness of the way-edges, and it hands all of them to the augmentation
step at the final potentials. -/
theorem hungarianLoop_full (size : ℕ) (cost : ℕ → ℕ → ℚ) (p : ℕ → ℕ)
    (hM : ((Finset.Icc 1 size).filter fun c => p c ≠ 0).card < size)
    (hPJ : ∀ j1 j2, 1 ≤ j1 → 1 ≤ j2 → p j1 ≠ 0 → p j1 = p j2 → j1 = j2)
    (hPR : ∀ j, j ≠ 0 → p j < p 0) :
    ∀ (fuel : ℕ) (L : List ℕ) (u v : ℕ → ℚ) (way : ℕ → ℕ) (used : ℕ → Bool)
      (minv : ℕ → Option ℚ) (column0 : ℕ),
    (∀ c, used c = true ↔ c ∈ L) →
    column0 ∉ L →
    (L ++ [column0]).head? = some 0 →
    (L ++ [column0]).Nodup →
    (∀ c ∈ L ++ [column0], c ≤ size) →
    (∀ c ∈ L ++ [column0], c ≠ 0 → p c ≠ 0) →
    (∀ c ∈ L ++ [column0], c ≠ 0 → before (L ++ [column0]) (way c) c) →
    (∀ j, used j = false → j ≠ column0 → minv j ≠ none → way j ∈ L ++ [column0]) →
    size + 1 ≤ fuel + L.length →
    (∀ j, 1 ≤ j → j ≤ size → p j ≠ 0 →
      u (p j) + v j = toFiniteCost (cost (p j - 1) (j - 1))) →
    (∀ j0, 1 ≤ j0 → j0 ≤ size → p j0 ≠ 0 → ∀ j, 1 ≤ j → j ≤ size →
      u (p j0) + v j ≤ toFiniteCost (cost (p j0 - 1) (j - 1))) →
    (L ≠ [] → ∀ j, 1 ≤ j → j ≤ size →
      u (p 0) + v j ≤ toFiniteCost (cost (p 0 - 1) (j - 1))) →
    (∀ j, 1 ≤ j → j ≤ size → j ∉ L → j ≠ column0 →
      IsOMin (fun c => c ∈ L)
        (fun c => toFiniteCost (cost (p c - 1) (j - 1)) - u (p c) - v j) (minv j)) →
    (∀ j, 1 ≤ j → j ≤ size → j ∉ L → j ≠ column0 → ∀ x, minv j = some x →
      way j ∈ L ∧
      x = toFiniteCost (cost (p (way j) - 1) (j - 1)) - u (p (way j)) - v j) →
    (∀ c ∈ L ++ [column0], c ≠ 0 →
      u (p (way c)) + v c = toFiniteCost (cost (p (way c) - 1) (c - 1))) →
    (L ≠ [] → ∀ j, 1 ≤ j → j ≤ size → j ∉ L → j ≠ column0 → ∀ x, minv j = some x →
      0 ≤ x) →
    ∃ u2 v2 way2 cf Lf,
      hungarianLoop size cost p fuel u v way used minv column0 = .ok (u2, v2, way2, cf) ∧
      cf ∉ Lf ∧ 1 ≤ cf ∧ cf ≤ size ∧ p cf = 0 ∧ way2 cf ∈ Lf ∧
      Lf.head? = some 0 ∧ Lf.Nodup ∧ (∀ c ∈ Lf, c ≤ size) ∧
      (∀ c ∈ Lf, c ≠ 0 → p c ≠ 0) ∧
      (∀ c ∈ Lf, c ≠ 0 → before Lf (way2 c) c) ∧
      Lf.length ≤ size + 1 ∧
      (∀ j, 1 ≤ j → j ≤ size → p j ≠ 0 →
        u2 (p j) + v2 j = toFiniteCost (cost (p j - 1) (j - 1))) ∧
      (∀ j0, 1 ≤ j0 → j0 ≤ size → p j0 ≠ 0 → ∀ j, 1 ≤ j → j ≤ size →
        u2 (p j0) + v2 j ≤ toFiniteCost (cost (p j0 - 1) (j - 1))) ∧
      (∀ j, 1 ≤ j → j ≤ size →
        u2 (p 0) + v2 j ≤ toFiniteCost (cost (p 0 - 1) (j - 1))) ∧
      (∀ c, (c ∈ Lf ∨ c = cf) → c ≠ 0 →
        u2 (p (way2 c)) + v2 c = toFiniteCost (cost (p (way2 c) - 1) (c - 1))) := by
  intro fuel
  induction fuel with
  | zero =>
    intro L u v way used minv column0 h1 h2 h3 h4 h5 h6 h7 h8 hfuel
    intro _ _ _ _ _ _ _
    exfalso
    have hlen : (L ++ [column0]).length ≤ size + 1 :=
      length_le_of_nodup_bounded _ _ h4 h5
    rw [List.length_append, List.length_singleton] at hlen
    omega
  | succ fuel ih =>
    intro L u v way used minv column0 h1 h2 h3 h4 h5 h6 h7 h8 hfuel
    intro hT hF hFr hMin hWM hZW hNN
    rcases hscan : scanCols cost u v (p column0) column0 (upd used column0 true)
        (List.range' 1 size) (minv, way, none, 0) with ⟨minv2, way2, deltaOpt, cf⟩
    have hused2 : ∀ c, (upd used column0 true) c = true ↔ c ∈ L ++ [column0] := by
      intro c
      by_cases hc : c = column0
      · subst hc
        rw [upd_self]
        simp
      · rw [upd_other _ _ _ _ hc, h1 c]
        simp [hc]
    have hdelta : deltaOpt ≠ none := by
      intro hnone
      obtain ⟨_, hall⟩ := scanCols_delta_none cost u v (p column0) column0
        (upd used column0 true) (List.range' 1 size) minv way none 0
        (by rw [hscan]; exact hnone)
      have hex : ∃ j, j ∈ Finset.Icc 1 size ∧ p j = 0 := by
        by_contra hno
        push_neg at hno
        have hsub : Finset.Icc 1 size ⊆ (Finset.Icc 1 size).filter fun c => p c ≠ 0 := by
          intro x hx
          rw [Finset.mem_filter]
          exact ⟨hx, hno x hx⟩
        have hcard := Finset.card_le_card hsub
        rw [Nat.card_Icc] at hcard
        omega
      obtain ⟨j, hjI, hjp⟩ := hex
      rw [Finset.mem_Icc] at hjI
      have hjrange : j ∈ List.range' 1 size := mem_range'_one.mpr ⟨hjI.1, by omega⟩
      have hju := hall j hjrange
      rw [hused2 j] at hju
      exact (h6 j hju (by omega)) hjp
    cases deltaOpt with
    | none => exact absurd rfl hdelta
    | some delta =>
    rcases happ : applyDelta p (upd used column0 true) delta (List.range (size + 1))
        (u, v, minv2) with ⟨u2, v2, minv3⟩
    rw [hungarianLoop_step size cost p fuel u v way used minv column0 minv2 way2
      delta cf u2 v2 minv3 hscan happ]
    have hscanres := scanCols_main cost u v (p column0) column0 (upd used column0 true)
      (fun j => 1 ≤ j ∧ j ≤ size) (fun c => c ∈ L ++ [column0])
      (List.mem_append_right _ (List.mem_cons_self _ _))
      (List.range' 1 size) minv way none 0
      (List.nodup_range' 1 size 1 Nat.one_pos)
      (fun j hj => by
        rw [mem_range'_one] at hj
        exact ⟨hj.1, by omega⟩)
      (fun hd => absurd rfl hd)
      (fun j hjf hjm => by
        have hjc : j ≠ column0 := by
          intro he
          rw [he, upd_self] at hjf
          exact Bool.noConfusion hjf
        rw [upd_other _ _ _ _ hjc] at hjf
        exact h8 j hjf hjc hjm)
      minv2 way2 (some delta) cf hscan
    obtain ⟨hcf_unused, ⟨hcf1, hcfs⟩, hwcf⟩ := hscanres.1 (by simp)
    have hr3 := hscanres.2.2
    have hcfnL2 : cf ∉ L ++ [column0] := by
      intro hmem
      rw [← hused2 cf] at hmem
      rw [hcf_unused] at hmem
      exact Bool.noConfusion hmem
    obtain ⟨hun, hus, hpt, hat, hlb, _⟩ := scanCols_vals cost u v (p column0) column0
      (upd used column0 true) (List.range' 1 size) minv way none 0
      (List.nodup_range' 1 size 1 Nat.one_pos)
      (fun d hd => Option.noConfusion hd)
      minv2 way2 (some delta) cf hscan
    obtain ⟨hatt, _⟩ := hat delta rfl
    have h0mem : (0 : ℕ) ∈ L ++ [column0] := mem_of_head_eq _ _ h3
    -- membership & unused facts for an unmarked column in 1..size
    have hunm : ∀ j, 1 ≤ j → j ≤ size → j ∉ L ++ [column0] →
        j ∈ List.range' 1 size ∧ (upd used column0 true) j = false ∧ j ∉ L ∧
        j ≠ column0 := by
      intro j hj1 hjs hjL2
      have hjnotL : j ∉ L := fun hm => hjL2 (List.mem_append_left _ hm)
      have hjc0 : j ≠ column0 :=
        fun he => hjL2 (he ▸ List.mem_append_right _ (List.mem_cons_self _ _))
      refine ⟨mem_range'_one.mpr ⟨hj1, by omega⟩, ?_, hjnotL, hjc0⟩
      rw [upd_other _ _ _ _ hjc0]
      cases hcase : used j with
      | false => rfl
      | true => exact absurd ((h1 j).mp hcase) hjnotL
    -- post-scan minimum characterization over the marked set L2
    have hMin2 : ∀ j, 1 ≤ j → j ≤ size → j ∉ L ++ [column0] →
        IsOMin (fun c => c ∈ L ++ [column0])
          (fun c => toFiniteCost (cost (p c - 1) (j - 1)) - u (p c) - v j) (minv2 j) := by
      intro j hj1 hjs hjL2
      obtain ⟨hjjs, hjun, hjnotL, hjc0⟩ := hunm j hj1 hjs hjL2
      have hold := hMin j hj1 hjs hjnotL hjc0
      rcases hpt j hjjs hjun with ⟨ha, _, hc⟩ | ⟨ha, _, hc⟩
      · rw [ha]
        refine ⟨⟨column0, List.mem_append_right _ (List.mem_cons_self _ _), rfl⟩, ?_⟩
        intro c hcL2
        rcases List.mem_append.mp hcL2 with hcL | hcc0
        · cases hmj : minv j with
          | none =>
            rw [hmj] at hold
            have hemp : ∀ c2, c2 ∈ L → False := hold
            exact (hemp c hcL).elim
          | some x =>
            rw [hmj] at hold hc
            have hlt := (oLT_some_some _ _).mp hc
            exact le_of_lt (lt_of_lt_of_le hlt (hold.2 c hcL))
        · rw [List.mem_singleton] at hcc0
          subst hcc0
          exact le_refl _
      · rw [ha]
        cases hmj : minv j with
        | none =>
          rw [hmj] at hc
          rw [oLT_some_none] at hc
          exact Bool.noConfusion hc
        | some x =>
          rw [hmj] at hold hc
          obtain ⟨⟨c, hcL, hx⟩, hlb2⟩ := hold
          refine ⟨⟨c, List.mem_append_left _ hcL, hx⟩, ?_⟩
          intro c2 hc2
          rcases List.mem_append.mp hc2 with hc2 | hc2
          · exact hlb2 c2 hc2
          · rw [List.mem_singleton] at hc2
            subst hc2
            have hnl : ¬(toFiniteCost (cost (p c2 - 1) (j - 1)) - u (p c2) - v j < x) := by
              rw [← oLT_some_some]
              simp [hc]
            exact le_of_not_lt hnl
    -- post-scan provenance of minv values
    have hWM2 : ∀ j, 1 ≤ j → j ≤ size → j ∉ L ++ [column0] → ∀ x, minv2 j = some x →
        way2 j ∈ L ++ [column0] ∧
        x = toFiniteCost (cost (p (way2 j) - 1) (j - 1)) - u (p (way2 j)) - v j := by
      intro j hj1 hjs hjL2 x hx
      obtain ⟨hjjs, hjun, hjnotL, hjc0⟩ := hunm j hj1 hjs hjL2
      rcases hpt j hjjs hjun with ⟨ha, hb, _⟩ | ⟨ha, hb, _⟩
      · rw [ha, Option.some.injEq] at hx
        rw [hb, ← hx]
        exact ⟨List.mem_append_right _ (List.mem_cons_self _ _), rfl⟩
      · rw [ha] at hx
        obtain ⟨hw1, hw2⟩ := hWM j hj1 hjs hjnotL hjc0 x hx
        rw [hb]
        exact ⟨List.mem_append_left _ hw1, hw2⟩
    -- delta is nonnegative from the second iteration on
    have hc00 : L ≠ [] → column0 ≠ 0 := by
      intro hLne he
      cases hL : L with
      | nil => exact hLne hL
      | cons a t =>
        rw [hL] at h3 h2
        rw [List.cons_append, List.head?_cons, Option.some.injEq] at h3
        exact h2 (by rw [he, ← h3]; exact List.mem_cons_self _ _)
    have hd0 : L ≠ [] → 0 ≤ delta := by
      intro hLne
      have hc0ne := hc00 hLne
      have hpc0 : p column0 ≠ 0 :=
        h6 column0 (List.mem_append_right _ (List.mem_cons_self _ _)) hc0ne
      have hc0s : column0 ≤ size :=
        h5 column0 (List.mem_append_right _ (List.mem_cons_self _ _))
      obtain ⟨hcfjs, hcfun, hcfnotL, hcfc0⟩ := hunm cf hcf1 hcfs hcfnL2
      rcases hpt cf hcfjs hcfun with ⟨ha, _, _⟩ | ⟨ha, _, _⟩
      · rw [hatt, Option.some.injEq] at ha
        have := hF column0 (by omega) hc0s hpc0 cf hcf1 hcfs
        rw [ha]
        linarith
      · rw [ha] at hatt
        exact hNN hLne cf hcf1 hcfs hcfnotL hcfc0 delta hatt
    -- applyDelta characterizations
    have hinjvis : ∀ c1 c2, c1 ∈ List.range (size + 1) → c2 ∈ List.range (size + 1) →
        (upd used column0 true) c1 = true → (upd used column0 true) c2 = true →
        p c1 = p c2 → c1 = c2 := by
      intro c1 c2 _ _ hu1 hu2 hpe
      rw [hused2] at hu1 hu2
      by_cases h10 : c1 = 0
      · by_cases h20 : c2 = 0
        · rw [h10, h20]
        · exfalso
          have hlt := hPR c2 h20
          rw [h10] at hpe
          omega
      · by_cases h20 : c2 = 0
        · exfalso
          have hlt := hPR c1 h10
          rw [h20] at hpe
          omega
        · exact hPJ c1 c2 (Nat.one_le_iff_ne_zero.mpr h10) (Nat.one_le_iff_ne_zero.mpr h20)
            (h6 c1 hu1 h10) hpe
    have hu2vis : ∀ c, c ∈ L ++ [column0] → u2 (p c) = u (p c) + delta := by
      intro c hcL2
      have hcs : c ≤ size := h5 c hcL2
      have hchar := applyDelta_u p (upd used column0 true) delta (List.range (size + 1))
        (List.nodup_range _) hinjvis u v minv2 (p c)
      rw [happ,
        if_pos ⟨c, List.mem_range.mpr (by omega), (hused2 c).mpr hcL2, rfl⟩] at hchar
      exact hchar
    have hu2non : ∀ i, (∀ c, c ∈ L ++ [column0] → p c ≠ i) → u2 i = u i := by
      intro i hno
      have hchar := applyDelta_u p (upd used column0 true) delta (List.range (size + 1))
        (List.nodup_range _) hinjvis u v minv2 i
      rw [happ, if_neg (by
        rintro ⟨c, _, hcu, hcp⟩
        exact hno c ((hused2 c).mp hcu) hcp)] at hchar
      exact hchar
    have hv2vis : ∀ j, j ∈ L ++ [column0] → v2 j = v j - delta := by
      intro j hjL2
      have hjs : j ≤ size := h5 j hjL2
      have hchar := applyDelta_v p (upd used column0 true) delta (List.range (size + 1))
        (List.nodup_range _) u v minv2 j
      rw [happ,
        if_pos ⟨List.mem_range.mpr (by omega), (hused2 j).mpr hjL2⟩] at hchar
      exact hchar
    have hv2non : ∀ j, j ∉ L ++ [column0] → v2 j = v j := by
      intro j hjL2
      have hchar := applyDelta_v p (upd used column0 true) delta (List.range (size + 1))
        (List.nodup_range _) u v minv2 j
      rw [happ, if_neg (by
        rintro ⟨_, hju⟩
        exact hjL2 ((hused2 j).mp hju))] at hchar
      exact hchar
    have hm3 : ∀ j, j ≤ size → j ∉ L ++ [column0] → minv3 j = oSub (minv2 j) delta := by
      intro j hjs hjL2
      have hjun : (upd used column0 true) j = false := by
        cases hcase : (upd used column0 true) j with
        | false => rfl
        | true => exact absurd ((hused2 j).mp hcase) hjL2
      have hchar := applyDelta_minv p (upd used column0 true) delta (List.range (size + 1))
        (List.nodup_range _) u v minv2 j hjun
      rw [happ, if_pos (List.mem_range.mpr (by omega))] at hchar
      exact hchar
    -- rows of unmarked matched columns are not rows of marked columns
    have hrowNotVis : ∀ j0, 1 ≤ j0 → j0 ≤ size → p j0 ≠ 0 → j0 ∉ L ++ [column0] →
        ∀ c, c ∈ L ++ [column0] → p c ≠ p j0 := by
      intro j0 hj01 hj0s hpj0 hj0L2 c hcL2 hpe
      by_cases hc0 : c = 0
      · subst hc0
        have hlt := hPR j0 (by omega)
        omega
      · have := hPJ c j0 (Nat.one_le_iff_ne_zero.mpr hc0) hj01 (h6 c hcL2 hc0) hpe
        exact hj0L2 (this ▸ hcL2)
    -- tightness of matched edges at the new potentials
    have hT2 : ∀ j, 1 ≤ j → j ≤ size → p j ≠ 0 →
        u2 (p j) + v2 j = toFiniteCost (cost (p j - 1) (j - 1)) := by
      intro j hj1 hjs hpj
      by_cases hjL2 : j ∈ L ++ [column0]
      · rw [hu2vis j hjL2, hv2vis j hjL2]
        have := hT j hj1 hjs hpj
        linarith
      · rw [hu2non (p j) (hrowNotVis j hj1 hjs hpj hjL2), hv2non j hjL2]
        exact hT j hj1 hjs hpj
    -- delta bounds all reduced costs from marked columns to unmarked columns
    have hdle : ∀ c, c ∈ L ++ [column0] → ∀ j, 1 ≤ j → j ≤ size → j ∉ L ++ [column0] →
        delta ≤ toFiniteCost (cost (p c - 1) (j - 1)) - u (p c) - v j := by
      intro c hcL2 j hj1 hjs hjL2
      obtain ⟨hjjs, hjun, _, _⟩ := hunm j hj1 hjs hjL2
      obtain ⟨x, hx, hxle⟩ := IsOMin_some_of_mem _ _ _ c hcL2 (hMin2 j hj1 hjs hjL2)
      have hle := hlb j hjjs hjun
      rw [hx] at hle
      exact le_trans hle hxle
    -- new-state feasibility for matched rows
    have hF2 : ∀ j0, 1 ≤ j0 → j0 ≤ size → p j0 ≠ 0 → ∀ j, 1 ≤ j → j ≤ size →
        u2 (p j0) + v2 j ≤ toFiniteCost (cost (p j0 - 1) (j - 1)) := by
      intro j0 hj01 hj0s hpj0 j hj1 hjs
      by_cases hj0L2 : j0 ∈ L ++ [column0]
      · rw [hu2vis j0 hj0L2]
        by_cases hjL2 : j ∈ L ++ [column0]
        · rw [hv2vis j hjL2]
          have := hF j0 hj01 hj0s hpj0 j hj1 hjs
          linarith
        · rw [hv2non j hjL2]
          have := hdle j0 hj0L2 j hj1 hjs hjL2
          linarith
      · rw [hu2non (p j0) (hrowNotVis j0 hj01 hj0s hpj0 hj0L2)]
        by_cases hjL2 : j ∈ L ++ [column0]
        · rw [hv2vis j hjL2]
          have hLne : L ≠ [] := by
            intro hL
            rw [hL, List.nil_append, List.mem_singleton] at hjL2
            subst hjL2
            rw [hL, List.nil_append, List.head?_cons, Option.some.injEq] at h3
            omega
          have hge := hd0 hLne
          have := hF j0 hj01 hj0s hpj0 j hj1 hjs
          linarith
        · rw [hv2non j hjL2]
          exact hF j0 hj01 hj0s hpj0 j hj1 hjs
    -- new-state feasibility for the row being inserted (row p 0)
    have hFr2 : ∀ j, 1 ≤ j → j ≤ size →
        u2 (p 0) + v2 j ≤ toFiniteCost (cost (p 0 - 1) (j - 1)) := by
      intro j hj1 hjs
      have hu0 : u2 (p 0) = u (p 0) + delta := hu2vis 0 h0mem
      rw [hu0]
      by_cases hjL2 : j ∈ L ++ [column0]
      · rw [hv2vis j hjL2]
        have hLne : L ≠ [] := by
          intro hL
          rw [hL, List.nil_append, List.mem_singleton] at hjL2
          subst hjL2
          rw [hL, List.nil_append, List.head?_cons, Option.some.injEq] at h3
          omega
        have := hFr hLne j hj1 hjs
        linarith
      · rw [hv2non j hjL2]
        have := hdle 0 h0mem j hj1 hjs hjL2
        linarith
    -- way-edge tightness at the new potentials, for marked columns and cf
    have hZW2 : ∀ c, (c ∈ L ++ [column0] ∨ c = cf) → c ≠ 0 →
        u2 (p (way2 c)) + v2 c = toFiniteCost (cost (p (way2 c) - 1) (c - 1)) := by
      intro c hc hc0
      rcases hc with hcL2 | rfl
      · have hcu : (upd used column0 true) c = true := (hused2 c).mpr hcL2
        rw [hr3 c hcu]
        have hwcL2 : way c ∈ L ++ [column0] := before_mem _ _ _ (h7 c hcL2 hc0)
        rw [hu2vis (way c) hwcL2, hv2vis c hcL2]
        have := hZW c hcL2 hc0
        linarith
      · rw [hv2non c hcfnL2, hu2vis (way2 c) hwcf]
        have hprov := hWM2 c hcf1 hcfs hcfnL2 delta hatt
        have := hprov.2
        linarith
    -- next-entry minv characterization, provenance and nonnegativity
    have hMin3 : ∀ j, 1 ≤ j → j ≤ size → j ∉ L ++ [column0] → j ≠ cf →
        IsOMin (fun c => c ∈ L ++ [column0])
          (fun c => toFiniteCost (cost (p c - 1) (j - 1)) - u2 (p c) - v2 j)
          (minv3 j) := by
      intro j hj1 hjs hjL2 _
      rw [hm3 j (by omega) hjL2]
      refine IsOMin_congr _ _ _ _ ?_ (IsOMin_sub _ _ _ delta (hMin2 j hj1 hjs hjL2))
      intro c hcL2
      rw [hu2vis c hcL2, hv2non j hjL2]
      ring
    have hWM3 : ∀ j, 1 ≤ j → j ≤ size → j ∉ L ++ [column0] → j ≠ cf → ∀ x,
        minv3 j = some x →
        way2 j ∈ L ++ [column0] ∧
        x = toFiniteCost (cost (p (way2 j) - 1) (j - 1)) - u2 (p (way2 j)) - v2 j := by
      intro j hj1 hjs hjL2 _ x hx
      rw [hm3 j (by omega) hjL2] at hx
      cases hm2 : minv2 j with
      | none =>
        rw [hm2] at hx
        exact Option.noConfusion hx
      | some y =>
        rw [hm2] at hx
        simp only [oSub, Option.some.injEq] at hx
        obtain ⟨hw1, hw2⟩ := hWM2 j hj1 hjs hjL2 y hm2
        refine ⟨hw1, ?_⟩
        rw [hu2vis (way2 j) hw1, hv2non j hjL2, ← hx, hw2]
        ring
    have hNN3 : ∀ j, 1 ≤ j → j ≤ size → j ∉ L ++ [column0] → j ≠ cf → ∀ x,
        minv3 j = some x → 0 ≤ x := by
      intro j hj1 hjs hjL2 _ x hx
      rw [hm3 j (by omega) hjL2] at hx
      cases hm2 : minv2 j with
      | none =>
        rw [hm2] at hx
        exact Option.noConfusion hx
      | some y =>
        rw [hm2] at hx
        simp only [oSub, Option.some.injEq] at hx
        obtain ⟨hjjs, hjun, _, _⟩ := hunm j hj1 hjs hjL2
        have hle := hlb j hjjs hjun
        rw [hm2] at hle
        have : delta ≤ y := hle
        linarith
    by_cases hpcf : p cf ≠ 0
    · rw [if_pos hpcf]
      refine ih (L ++ [column0]) u2 v2 way2 (upd used column0 true) minv3 cf
        hused2 hcfnL2 ?_ ?_ ?_ ?_ ?_ ?_ ?_ hT2 hF2 (fun _ => hFr2) ?_ ?_ ?_ ?_
      · exact head?_append_left _ _ _ h3
      · rw [List.nodup_append]
        refine ⟨h4, List.nodup_singleton _, ?_⟩
        intro a ha hb
        rw [List.mem_singleton] at hb
        subst hb
        exact hcfnL2 ha
      · intro c hc
        rcases List.mem_append.mp hc with hc2 | hc2
        · exact h5 c hc2
        · rw [List.mem_singleton] at hc2
          subst hc2
          exact hcfs
      · intro c hc hcne
        rcases List.mem_append.mp hc with hc2 | hc2
        · exact h6 c hc2 hcne
        · rw [List.mem_singleton] at hc2
          subst hc2
          exact hpcf
      · intro c hc hcne
        rcases List.mem_append.mp hc with hc2 | hc2
        · have hcu : (upd used column0 true) c = true := (hused2 c).mpr hc2
          rw [hr3 c hcu]
          exact before_append _ _ _ _ (h7 c hc2 hcne)
        · rw [List.mem_singleton] at hc2
          subst hc2
          exact ⟨L ++ [column0], [], rfl, hwcf⟩
      · intro j hjf hjc hjm
        have hjs2 : minv2 j ≠ none := by
          intro he
          have hiff := applyDelta_none_iff p (upd used column0 true) delta
            (List.range (size + 1)) u v minv2 j hjf
          rw [happ] at hiff
          exact hjm (hiff.mpr he)
        exact List.mem_append_left _ (hscanres.2.1 j hjf hjs2)
      · rw [List.length_append, List.length_singleton]
        omega
      · intro j hj1 hjs hjL2 hjcf
        exact hMin3 j hj1 hjs hjL2 hjcf
      · intro j hj1 hjs hjL2 hjcf x hx
        exact hWM3 j hj1 hjs hjL2 hjcf x hx
      · intro c hc hcne
        rcases List.mem_append.mp hc with hc2 | hc2
        · exact hZW2 c (Or.inl hc2) hcne
        · rw [List.mem_singleton] at hc2
          subst hc2
          exact hZW2 c (Or.inr rfl) hcne
      · intro _ j hj1 hjs hjL2 hjcf x hx
        exact hNN3 j hj1 hjs hjL2 hjcf x hx
    · rw [if_neg hpcf]
      push_neg at hpcf
      refine ⟨u2, v2, way2, cf, L ++ [column0], rfl, hcfnL2, hcf1, hcfs, hpcf, hwcf,
        h3, h4, h5, h6, ?_, ?_, hT2, hF2, hFr2, hZW2⟩
      · intro c hc hcne
        have hcu : (upd used column0 true) c = true := (hused2 c).mpr hc
        rw [hr3 c hcu]
        exact h7 c hc hcne
      · exact length_le_of_nodup_bounded _ _ h4 h5

/-- The augmenting walk from a marked column, carrying the matching
invariants: it flips the matching along the way-links, keeps every matched
edge tight, keeps the matching injective, and only ever installs rows that
were already matched or the row being inserted (p 0). -/
theorem augmentPath_walk (size : ℕ) (cost : ℕ → ℕ → ℚ) (u2 v2 : ℕ → ℚ)
    (way : ℕ → ℕ) (L : List ℕ) (hnd : L.Nodup)
    (hway : ∀ c ∈ L, c ≠ 0 → before L (way c) c)
    (hLs : ∀ c ∈ L, c ≤ size) :
    ∀ (fuel : ℕ) (c0 : ℕ) (p : ℕ → ℕ),
    c0 ∈ L → c0 ≠ 0 → L.indexOf c0 < fuel →
    p 0 ≠ 0 →
    (∀ c ∈ L, c ≠ 0 → p c ≠ 0) →
    (∀ j, j ≠ 0 → p j < p 0) →
    (∀ j, 1 ≤ j → j ≤ size → p j ≠ 0 →
      u2 (p j) + v2 j = toFiniteCost (cost (p j - 1) (j - 1))) →
    (∀ j1 j2, 1 ≤ j1 → 1 ≤ j2 → j1 ≠ j2 → p j1 ≠ 0 → p j1 = p j2 →
      (j1 = c0 ∨ j2 = c0)) →
    (∀ c ∈ L, c ≠ 0 → L.indexOf c ≤ L.indexOf c0 →
      u2 (p (way c)) + v2 c = toFiniteCost (cost (p (way c) - 1) (c - 1))) →
    ∃ p2, augmentPath way fuel p c0 = .ok p2 ∧
      (∀ c, (p2 c ≠ 0 ↔ (p c ≠ 0 ∨ c = c0))) ∧
      (∀ j, 1 ≤ j → j ≤ size → p2 j ≠ 0 →
        u2 (p2 j) + v2 j = toFiniteCost (cost (p2 j - 1) (j - 1))) ∧
      (∀ j1 j2, 1 ≤ j1 → 1 ≤ j2 → p2 j1 ≠ 0 → p2 j1 = p2 j2 → j1 = j2) ∧
      (∀ j, j ≠ 0 → p2 j ≤ p 0) ∧
      p2 0 = p 0 ∧
      (∀ j, p2 j = p j ∨ p2 j = p 0 ∨ ∃ c ∈ L, p2 j = p c) := by
  intro fuel
  induction fuel with
  | zero =>
    intro c0 p _ _ hlt
    exact absurd hlt (Nat.not_lt_zero _)
  | succ fuel ih =>
    intro c0 p hc0L hc0ne hlt hp0 hmark hPRc hT hdup hZWc
    have hb : before L (way c0) c0 := hway c0 hc0L hc0ne
    have hwL : way c0 ∈ L := before_mem _ _ _ hb
    have hidx : L.indexOf (way c0) < L.indexOf c0 := indexOf_lt_of_before L _ _ hnd hb
    have hwc0 : way c0 ≠ c0 := by
      intro he
      rw [he] at hidx
      exact absurd hidx (lt_irrefl _)
    have hc0s : c0 ≤ size := hLs c0 hc0L
    simp only [augmentPath]
    by_cases hz : way c0 ≠ 0
    · rw [if_pos hz]
      have hpw : p (way c0) ≠ 0 := hmark _ hwL hz
      have hp0b : upd p c0 (p (way c0)) 0 ≠ 0 := by
        rw [upd_other p c0 0 _ (Ne.symm hc0ne)]
        exact hp0
      have hmarkb : ∀ c ∈ L, c ≠ 0 → upd p c0 (p (way c0)) c ≠ 0 := by
        intro c hc hcne
        by_cases hcc : c = c0
        · subst hcc
          rw [upd_self]
          exact hpw
        · rw [upd_other p c0 c _ hcc]
          exact hmark c hc hcne
      have hPRb : ∀ j, j ≠ 0 → upd p c0 (p (way c0)) j < upd p c0 (p (way c0)) 0 := by
        intro j hj
        rw [upd_other p c0 0 _ (Ne.symm hc0ne)]
        by_cases hcc : j = c0
        · subst hcc
          rw [upd_self]
          exact hPRc _ hz
        · rw [upd_other p c0 j _ hcc]
          exact hPRc j hj
      have hTb : ∀ j, 1 ≤ j → j ≤ size → upd p c0 (p (way c0)) j ≠ 0 →
          u2 (upd p c0 (p (way c0)) j) + v2 j =
          toFiniteCost (cost (upd p c0 (p (way c0)) j - 1) (j - 1)) := by
        intro j hj1 hjs hpj
        by_cases hcc : j = c0
        · subst hcc
          rw [upd_self]
          exact hZWc j hc0L hc0ne (le_refl _)
        · rw [upd_other p c0 j _ hcc] at hpj ⊢
          exact hT j hj1 hjs hpj
      have hdupb : ∀ j1 j2, 1 ≤ j1 → 1 ≤ j2 → j1 ≠ j2 →
          upd p c0 (p (way c0)) j1 ≠ 0 →
          upd p c0 (p (way c0)) j1 = upd p c0 (p (way c0)) j2 →
          (j1 = way c0 ∨ j2 = way c0) := by
        intro j1 j2 hj1 hj2 hne hnz he
        by_cases h1c : j1 = c0
        · subst h1c
          rw [upd_self] at hnz he
          rw [upd_other p j1 j2 _ (Ne.symm hne)] at he
          by_cases h2w : j2 = way j1
          · exact Or.inr h2w
          · rcases hdup (way j1) j2 (Nat.one_le_iff_ne_zero.mpr hz) hj2
              (fun hee => h2w hee.symm) hnz he with hca | hca
            · exact absurd hca hwc0
            · exact absurd hca (by
                intro hee
                rw [hee] at hne
                exact hne rfl)
        · rw [upd_other p c0 j1 _ h1c] at hnz he
          by_cases h2c : j2 = c0
          · subst h2c
            rw [upd_self] at he
            by_cases h1w : j1 = way j2
            · exact Or.inl h1w
            · rcases hdup j1 (way j2) hj1 (Nat.one_le_iff_ne_zero.mpr hz)
                (fun hee => h1w hee) hnz he with hca | hca
              · exact absurd hca h1c
              · exact absurd hca hwc0
          · rw [upd_other p c0 j2 _ h2c] at he
            rcases hdup j1 j2 hj1 hj2 hne hnz he with hca | hca
            · exact absurd hca h1c
            · exact absurd hca h2c
      have hZWb : ∀ c ∈ L, c ≠ 0 → L.indexOf c ≤ L.indexOf (way c0) →
          u2 (upd p c0 (p (way c0)) (way c)) + v2 c =
          toFiniteCost (cost (upd p c0 (p (way c0)) (way c) - 1) (c - 1)) := by
        intro c hc hcne hle
        have hbc : before L (way c) c := hway c hc hcne
        have hidxc : L.indexOf (way c) < L.indexOf c := indexOf_lt_of_before L _ _ hnd hbc
        have hwcc0 : way c ≠ c0 := by
          intro he
          rw [he] at hidxc
          omega
        rw [upd_other p c0 (way c) _ hwcc0]
        exact hZWc c hc hcne (by omega)
      obtain ⟨p2, heq, hiff, hT2, hinj2, hrange2, hzero2, hprov2⟩ :=
        ih (way c0) (upd p c0 (p (way c0))) hwL hz (by omega) hp0b hmarkb hPRb
          hTb hdupb hZWb
      refine ⟨p2, heq, ?_, hT2, hinj2, ?_, ?_, ?_⟩
      · intro c
        rw [hiff c]
        by_cases hcc0 : c = c0
        · subst hcc0
          rw [upd_self]
          constructor
          · intro _
            exact Or.inr rfl
          · intro _
            exact Or.inl hpw
        · rw [upd_other p c0 c _ hcc0]
          constructor
          · rintro (hpc | rfl)
            · exact Or.inl hpc
            · exact Or.inl (hmark _ hwL hz)
          · rintro (hpc | rfl)
            · exact Or.inl hpc
            · exact absurd rfl hcc0
      · intro j hj
        have := hrange2 j hj
        rw [upd_other p c0 0 _ (Ne.symm hc0ne)] at this
        exact this
      · rw [hzero2, upd_other p c0 0 _ (Ne.symm hc0ne)]
      · intro j
        rcases hprov2 j with hp2 | hp2 | ⟨c, hcL, hp2⟩
        · by_cases hcc0 : j = c0
          · subst hcc0
            rw [upd_self] at hp2
            exact Or.inr (Or.inr ⟨way j, hwL, hp2⟩)
          · rw [upd_other p c0 j _ hcc0] at hp2
            exact Or.inl hp2
        · rw [upd_other p c0 0 _ (Ne.symm hc0ne)] at hp2
          exact Or.inr (Or.inl hp2)
        · by_cases hcc0 : c = c0
          · subst hcc0
            rw [upd_self] at hp2
            exact Or.inr (Or.inr ⟨way c, hwL, hp2⟩)
          · rw [upd_other p c0 c _ hcc0] at hp2
            exact Or.inr (Or.inr ⟨c, hcL, hp2⟩)
    · rw [if_neg hz]
      push_neg at hz
      refine ⟨upd p c0 (p (way c0)), rfl, ?_, ?_, ?_, ?_, ?_, ?_⟩
      · intro c
        by_cases hcc0 : c = c0
        · subst hcc0
          rw [upd_self, hz]
          constructor
          · intro _
            exact Or.inr rfl
          · intro _
            exact hp0
        · rw [upd_other p c0 c _ hcc0]
          constructor
          · intro hpc
            exact Or.inl hpc
          · rintro (hpc | rfl)
            · exact hpc
            · exact absurd rfl hcc0
      · intro j hj1 hjs hpj
        by_cases hcc0 : j = c0
        · subst hcc0
          rw [upd_self]
          exact hZWc j hc0L hc0ne (le_refl _)
        · rw [upd_other p c0 j _ hcc0] at hpj ⊢
          exact hT j hj1 hjs hpj
      · intro j1 j2 hj1 hj2 hnz he
        by_cases hne : j1 = j2
        · exact hne
        · exfalso
          by_cases h1c : j1 = c0
          · subst h1c
            rw [upd_self, hz] at hnz he
            rw [upd_other p j1 j2 _ (Ne.symm hne)] at he
            have := hPRc j2 (by omega)
            omega
          · rw [upd_other p c0 j1 _ h1c] at hnz he
            by_cases h2c : j2 = c0
            · subst h2c
              rw [upd_self, hz] at he
              have := hPRc j1 (by omega)
              omega
            · rw [upd_other p c0 j2 _ h2c] at he
              rcases hdup j1 j2 hj1 hj2 hne hnz he with hca | hca
              · exact h1c hca
              · exact h2c hca
      · intro j hj
        by_cases hcc0 : j = c0
        · subst hcc0
          rw [upd_self, hz]
        · rw [upd_other p c0 j _ hcc0]
          exact le_of_lt (hPRc j hj)
      · rw [upd_other p c0 0 _ (Ne.symm hc0ne)]
      · intro j
        by_cases hcc0 : j = c0
        · subst hcc0
          rw [upd_self, hz]
          exact Or.inr (Or.inl rfl)
        · rw [upd_other p c0 j _ hcc0]
          exact Or.inl rfl

/-- Entering the augmenting walk at the final free column cf, with the
full conclusion pack: the matching gains exactly column cf, stays tight,
injective, bounded by the inserted row p 0, and only installs previously
matched rows or p 0. -/
theorem augmentPath_entry (size : ℕ) (cost : ℕ → ℕ → ℚ) (u2 v2 : ℕ → ℚ)
    (way : ℕ → ℕ) (L : List ℕ) (hnd : L.Nodup) (h0 : L.head? = some 0)
    (hway : ∀ c ∈ L, c ≠ 0 → before L (way c) c)
    (hLs : ∀ c ∈ L, c ≤ size)
    (hlen : L.length ≤ size + 1)
    (cf : ℕ) (hcf : cf ∉ L) (hcfs : cf ≤ size) (hwcf : way cf ∈ L)
    (p : ℕ → ℕ) (hp0 : p 0 ≠ 0)
    (hmark : ∀ c ∈ L, c ≠ 0 → p c ≠ 0)
    (hPRc : ∀ j, j ≠ 0 → p j < p 0)
    (hT : ∀ j, 1 ≤ j → j ≤ size → p j ≠ 0 →
      u2 (p j) + v2 j = toFiniteCost (cost (p j - 1) (j - 1)))
    (hPJ : ∀ j1 j2, 1 ≤ j1 → 1 ≤ j2 → p j1 ≠ 0 → p j1 = p j2 → j1 = j2)
    (hZW : ∀ c, (c ∈ L ∨ c = cf) → c ≠ 0 →
      u2 (p (way c)) + v2 c = toFiniteCost (cost (p (way c) - 1) (c - 1))) :
    ∃ p2, augmentPath way (size + 2) p cf = .ok p2 ∧
      (∀ c, (p2 c ≠ 0 ↔ (p c ≠ 0 ∨ c = cf))) ∧
      (∀ j, 1 ≤ j → j ≤ size → p2 j ≠ 0 →
        u2 (p2 j) + v2 j = toFiniteCost (cost (p2 j - 1) (j - 1))) ∧
      (∀ j1 j2, 1 ≤ j1 → 1 ≤ j2 → p2 j1 ≠ 0 → p2 j1 = p2 j2 → j1 = j2) ∧
      (∀ j, j ≠ 0 → p2 j ≤ p 0) ∧
      p2 0 = p 0 ∧
      (∀ j, p2 j = p j ∨ p2 j = p 0 ∨ ∃ c ∈ L, p2 j = p c) := by
  have h0m : (0 : ℕ) ∈ L := mem_of_head_eq _ _ h0
  have hcf0 : cf ≠ 0 := fun he => hcf (he ▸ h0m)
  show ∃ p2, augmentPath way (size + 1 + 1) p cf = .ok p2 ∧ _
  simp only [augmentPath]
  by_cases hz : way cf ≠ 0
  · rw [if_pos hz]
    have hpw : p (way cf) ≠ 0 := hmark _ hwcf hz
    have hp0b : upd p cf (p (way cf)) 0 ≠ 0 := by
      rw [upd_other p cf 0 _ (Ne.symm hcf0)]
      exact hp0
    have hmarkb : ∀ c ∈ L, c ≠ 0 → upd p cf (p (way cf)) c ≠ 0 := by
      intro c hc hcne
      have hccf : c ≠ cf := fun he => hcf (he ▸ hc)
      rw [upd_other p cf c _ hccf]
      exact hmark c hc hcne
    have hPRb : ∀ j, j ≠ 0 → upd p cf (p (way cf)) j < upd p cf (p (way cf)) 0 := by
      intro j hj
      rw [upd_other p cf 0 _ (Ne.symm hcf0)]
      by_cases hcc : j = cf
      · subst hcc
        rw [upd_self]
        exact hPRc _ hz
      · rw [upd_other p cf j _ hcc]
        exact hPRc j hj
    have hTb : ∀ j, 1 ≤ j → j ≤ size → upd p cf (p (way cf)) j ≠ 0 →
        u2 (upd p cf (p (way cf)) j) + v2 j =
        toFiniteCost (cost (upd p cf (p (way cf)) j - 1) (j - 1)) := by
      intro j hj1 hjs hpj
      by_cases hcc : j = cf
      · subst hcc
        rw [upd_self]
        exact hZW j (Or.inr rfl) hcf0
      · rw [upd_other p cf j _ hcc] at hpj ⊢
        exact hT j hj1 hjs hpj
    have hdupb : ∀ j1 j2, 1 ≤ j1 → 1 ≤ j2 → j1 ≠ j2 →
        upd p cf (p (way cf)) j1 ≠ 0 →
        upd p cf (p (way cf)) j1 = upd p cf (p (way cf)) j2 →
        (j1 = way cf ∨ j2 = way cf) := by
      intro j1 j2 hj1 hj2 hne hnz he
      by_cases h1c : j1 = cf
      · subst h1c
        rw [upd_self] at hnz he
        rw [upd_other p j1 j2 _ (Ne.symm hne)] at he
        exact Or.inr (hPJ j2 (way j1) hj2 (Nat.one_le_iff_ne_zero.mpr hz)
          (by rw [← he]; exact hnz) he.symm)
      · rw [upd_other p cf j1 _ h1c] at hnz he
        by_cases h2c : j2 = cf
        · subst h2c
          rw [upd_self] at he
          exact Or.inl (hPJ j1 (way j2) hj1 (Nat.one_le_iff_ne_zero.mpr hz) hnz he)
        · rw [upd_other p cf j2 _ h2c] at he
          exact absurd (hPJ j1 j2 hj1 hj2 hnz he) hne
    have hZWb : ∀ c ∈ L, c ≠ 0 → L.indexOf c ≤ L.indexOf (way cf) →
        u2 (upd p cf (p (way cf)) (way c)) + v2 c =
        toFiniteCost (cost (upd p cf (p (way cf)) (way c) - 1) (c - 1)) := by
      intro c hc hcne _
      have hwcL : way c ∈ L := before_mem _ _ _ (hway c hc hcne)
      have hwccf : way c ≠ cf := fun he => hcf (he ▸ hwcL)
      rw [upd_other p cf (way c) _ hwccf]
      exact hZW c (Or.inl hc) hcne
    have hidx : L.indexOf (way cf) < size + 1 :=
      Nat.lt_of_lt_of_le (List.indexOf_lt_length.mpr hwcf) hlen
    obtain ⟨p2, heq, hiff, hT2, hinj2, hrange2, hzero2, hprov2⟩ :=
      augmentPath_walk size cost u2 v2 way L hnd hway hLs (size + 1) (way cf)
        (upd p cf (p (way cf))) hwcf hz hidx hp0b hmarkb hPRb hTb hdupb hZWb
    refine ⟨p2, heq, ?_, hT2, hinj2, ?_, ?_, ?_⟩
    · intro c
      rw [hiff c]
      by_cases hccf : c = cf
      · subst hccf
        rw [upd_self]
        constructor
        · intro _
          exact Or.inr rfl
        · intro _
          exact Or.inl hpw
      · rw [upd_other p cf c _ hccf]
        constructor
        · rintro (hpc | rfl)
          · exact Or.inl hpc
          · exact Or.inl (hmark _ hwcf hz)
        · rintro (hpc | rfl)
          · exact Or.inl hpc
          · exact absurd rfl hccf
    · intro j hj
      have := hrange2 j hj
      rw [upd_other p cf 0 _ (Ne.symm hcf0)] at this
      exact this
    · rw [hzero2, upd_other p cf 0 _ (Ne.symm hcf0)]
    · intro j
      rcases hprov2 j with hp2 | hp2 | ⟨c, hcL, hp2⟩
      · by_cases hccf : j = cf
        · subst hccf
          rw [upd_self] at hp2
          exact Or.inr (Or.inr ⟨way j, hwcf, hp2⟩)
        · rw [upd_other p cf j _ hccf] at hp2
          exact Or.inl hp2
      · rw [upd_other p cf 0 _ (Ne.symm hcf0)] at hp2
        exact Or.inr (Or.inl hp2)
      · by_cases hccf : c = cf
        · subst hccf
          rw [upd_self] at hp2
          exact Or.inr (Or.inr ⟨way c, hwcf, hp2⟩)
        · rw [upd_other p cf c _ hccf] at hp2
          exact Or.inr (Or.inr ⟨c, hcL, hp2⟩)
  · rw [if_neg hz]
    push_neg at hz
    refine ⟨upd p cf (p (way cf)), rfl, ?_, ?_, ?_, ?_, ?_, ?_⟩
    · intro c
      by_cases hccf : c = cf
      · subst hccf
        rw [upd_self, hz]
        constructor
        · intro _
          exact Or.inr rfl
        · intro _
          exact hp0
      · rw [upd_other p cf c _ hccf]
        constructor
        · intro hpc
          exact Or.inl hpc
        · rintro (hpc | rfl)
          · exact hpc
          · exact absurd rfl hccf
    · intro j hj1 hjs hpj
      by_cases hccf : j = cf
      · subst hccf
        rw [upd_self]
        exact hZW j (Or.inr rfl) hcf0
      · rw [upd_other p cf j _ hccf] at hpj ⊢
        exact hT j hj1 hjs hpj
    · intro j1 j2 hj1 hj2 hnz he
      by_cases hne : j1 = j2
      · exact hne
      · exfalso
        by_cases h1c : j1 = cf
        · subst h1c
          rw [upd_self, hz] at hnz he
          rw [upd_other p j1 j2 _ (Ne.symm hne)] at he
          have := hPRc j2 (by omega)
          omega
        · rw [upd_other p cf j1 _ h1c] at hnz he
          by_cases h2c : j2 = cf
          · subst h2c
            rw [upd_self, hz] at he
            have := hPRc j1 (by omega)
            omega
          · rw [upd_other p cf j2 _ h2c] at he
            exact hne (hPJ j1 j2 hj1 hj2 hnz he)
    · intro j hj
      by_cases hccf : j = cf
      · subst hccf
        rw [upd_self, hz]
      · rw [upd_other p cf j _ hccf]
        exact le_of_lt (hPRc j hj)
    · rw [upd_other p cf 0 _ (Ne.symm hcf0)]
    · intro j
      by_cases hccf : j = cf
      · subst hccf
        rw [upd_self, hz]
        exact Or.inr (Or.inl rfl)
      · rw [upd_other p cf j _ hccf]
        exact Or.inl rfl

/-- The outer row loop with the full invariant pack: processing rows
k..k+n-1 succeeds and preserves the matching count, injectivity, row
bound, tightness of matched edges and dual feasibility of matched rows. -/
theorem processRows_full (size : ℕ) (cost : ℕ → ℕ → ℚ) :
    ∀ (n k : ℕ) (u v : ℕ → ℚ) (p way : ℕ → ℕ),
    1 ≤ k → k + n ≤ size + 1 →
    ((Finset.Icc 1 size).filter fun c => p c ≠ 0).card + 1 = k →
    (∀ j1 j2, 1 ≤ j1 → 1 ≤ j2 → p j1 ≠ 0 → p j1 = p j2 → j1 = j2) →
    (∀ j, j ≠ 0 → p j < k) →
    (∀ j, 1 ≤ j → j ≤ size → p j ≠ 0 →
      u (p j) + v j = toFiniteCost (cost (p j - 1) (j - 1))) →
    (∀ j0, 1 ≤ j0 → j0 ≤ size → p j0 ≠ 0 → ∀ j, 1 ≤ j → j ≤ size →
      u (p j0) + v j ≤ toFiniteCost (cost (p j0 - 1) (j - 1))) →
    ∃ uF vF pF wayF,
      processRows size cost (List.range' k n) (u, v, p, way) = .ok (uF, vF, pF, wayF) ∧
      ((Finset.Icc 1 size).filter fun c => pF c ≠ 0).card + 1 = k + n ∧
      (∀ j1 j2, 1 ≤ j1 → 1 ≤ j2 → pF j1 ≠ 0 → pF j1 = pF j2 → j1 = j2) ∧
      (∀ j, j ≠ 0 → pF j < k + n) ∧
      (∀ j, 1 ≤ j → j ≤ size → pF j ≠ 0 →
        uF (pF j) + vF j = toFiniteCost (cost (pF j - 1) (j - 1))) ∧
      (∀ j0, 1 ≤ j0 → j0 ≤ size → pF j0 ≠ 0 → ∀ j, 1 ≤ j → j ≤ size →
        uF (pF j0) + vF j ≤ toFiniteCost (cost (pF j0 - 1) (j - 1))) := by
  intro n
  induction n with
  | zero =>
    intro k u v p way _ _ e1 e2 e3 e4 e5
    exact ⟨u, v, p, way, rfl, by omega, e2, by
      intro j hj
      have := e3 j hj
      omega, e4, e5⟩
  | succ n ihn =>
    intro k u v p way hk1 hkn e1 e2 e3 e4 e5
    have hksize : k ≤ size := by omega
    have hp0j : ∀ j, j ≠ 0 → upd p 0 k j = p j := fun j hj => upd_other p 0 j k hj
    have hp00 : upd p 0 k 0 = k := upd_self p 0 k
    have hMp0 : ((Finset.Icc 1 size).filter fun c => (upd p 0 k) c ≠ 0).card < size := by
      have hfe : ((Finset.Icc 1 size).filter fun c => (upd p 0 k) c ≠ 0) =
          ((Finset.Icc 1 size).filter fun c => p c ≠ 0) := by
        apply Finset.filter_congr
        intro x hx
        rw [Finset.mem_Icc] at hx
        rw [hp0j x (by omega)]
      rw [hfe]
      omega
    have hPJ0 : ∀ j1 j2, 1 ≤ j1 → 1 ≤ j2 → (upd p 0 k) j1 ≠ 0 →
        (upd p 0 k) j1 = (upd p 0 k) j2 → j1 = j2 := by
      intro j1 j2 hj1 hj2 hnz he
      rw [hp0j j1 (by omega)] at hnz he
      rw [hp0j j2 (by omega)] at he
      exact e2 j1 j2 hj1 hj2 hnz he
    have hPR0 : ∀ j, j ≠ 0 → (upd p 0 k) j < (upd p 0 k) 0 := by
      intro j hj
      rw [hp0j j hj, hp00]
      exact e3 j hj
    obtain ⟨u2, v2, way2, cf, Lf, hloop, hcfL, hcf1, hcfs, hpcf0, hwcf, hLh, hLnd,
        hLs, hLp, hLb, hLlen, hT2, hF2, hFr2, hZW2⟩ :=
      hungarianLoop_full size cost (upd p 0 k) hMp0 hPJ0 hPR0 (size + 2) [] u v way
        (fun _ => false) (fun _ => none) 0
        (by intro c; simp)
        (by simp)
        rfl
        (by simp)
        (by
          intro c hc
          rw [List.nil_append, List.mem_singleton] at hc
          subst hc
          exact Nat.zero_le _)
        (by
          intro c hc hcne
          rw [List.nil_append, List.mem_singleton] at hc
          exact absurd hc hcne)
        (by
          intro c hc hcne
          rw [List.nil_append, List.mem_singleton] at hc
          exact absurd hc hcne)
        (by
          intro j _ _ hm
          exact absurd rfl hm)
        (by simp)
        (by
          intro j hj1 hjs hpj
          rw [hp0j j (by omega)] at hpj ⊢
          exact e4 j hj1 hjs hpj)
        (by
          intro j0 hj01 hj0s hpj0 j hj1 hjs
          rw [hp0j j0 (by omega)] at hpj0 ⊢
          exact e5 j0 hj01 hj0s hpj0 j hj1 hjs)
        (fun h => absurd rfl h)
        (by
          intro j _ _ hjL _
          intro c hc
          exact absurd hc (List.not_mem_nil c))
        (by
          intro j _ _ _ _ x hx
          exact Option.noConfusion hx)
        (by
          intro c hc hcne
          rw [List.nil_append, List.mem_singleton] at hc
          exact absurd hc hcne)
        (fun h => absurd rfl h)
    have hp000 : (upd p 0 k) 0 ≠ 0 := by
      rw [hp00]
      omega
    obtain ⟨p2, haug, hiff, hT3, hinj3, hrange3, hzero3, hprov3⟩ :=
      augmentPath_entry size cost u2 v2 way2 Lf hLnd hLh hLb hLs hLlen
        cf hcfL hcfs hwcf (upd p 0 k) hp000 hLp hPR0 hT2 hPJ0 hZW2
    -- the matching gains exactly column cf
    have hpcf : p cf = 0 := by
      rw [← hp0j cf (by omega)]
      exact hpcf0
    have hstep : ((Finset.Icc 1 size).filter fun c => p2 c ≠ 0) =
        insert cf ((Finset.Icc 1 size).filter fun c => p c ≠ 0) := by
      ext x
      rw [Finset.mem_insert, Finset.mem_filter, Finset.mem_filter]
      constructor
      · rintro ⟨hxI, hx2⟩
        rw [hiff x] at hx2
        rcases hx2 with hx2 | rfl
        · right
          refine ⟨hxI, ?_⟩
          rwa [hp0j x (by rw [Finset.mem_Icc] at hxI; omega)] at hx2
        · left
          rfl
      · rintro (rfl | ⟨hxI, hx2⟩)
        · refine ⟨?_, ?_⟩
          · rw [Finset.mem_Icc]
            exact ⟨hcf1, hcfs⟩
          · rw [hiff x]
            right
            rfl
        · refine ⟨hxI, ?_⟩
          rw [hiff x]
          left
          rwa [hp0j x (by rw [Finset.mem_Icc] at hxI; omega)]
    have hcfM : cf ∉ (Finset.Icc 1 size).filter fun c => p c ≠ 0 := by
      rw [Finset.mem_filter]
      rintro ⟨_, hne⟩
      exact hne hpcf
    have hcount2 : ((Finset.Icc 1 size).filter fun c => p2 c ≠ 0).card + 1 = k + 1 := by
      rw [hstep, Finset.card_insert_of_not_mem hcfM]
      omega
    -- feasibility transfers to the new matching rows
    have hF3 : ∀ j0, 1 ≤ j0 → j0 ≤ size → p2 j0 ≠ 0 → ∀ j, 1 ≤ j → j ≤ size →
        u2 (p2 j0) + v2 j ≤ toFiniteCost (cost (p2 j0 - 1) (j - 1)) := by
      intro j0 hj01 hj0s hpj0 j hj1 hjs
      rcases hprov3 j0 with hpr | hpr | ⟨c, hcL, hpr⟩
      · rw [hpr] at hpj0 ⊢
        exact hF2 j0 hj01 hj0s hpj0 j hj1 hjs
      · rw [hpr]
        exact hFr2 j hj1 hjs
      · rw [hpr]
        by_cases hc0 : c = 0
        · subst hc0
          exact hFr2 j hj1 hjs
        · exact hF2 c (Nat.one_le_iff_ne_zero.mpr hc0) (hLs c hcL) (hLp c hcL hc0)
            j hj1 hjs
    have hPR3 : ∀ j, j ≠ 0 → p2 j < k + 1 := by
      intro j hj
      have := hrange3 j hj
      rw [hp00] at this
      omega
    obtain ⟨uF, vF, pF, wayF, hrest, f1, f2, f3, f4, f5⟩ :=
      ihn (k + 1) u2 v2 p2 way2 (by omega) (by omega) hcount2 hinj3 hPR3 hT3 hF3
    refine ⟨uF, vF, pF, wayF, ?_, by omega, f2, by
      intro j hj
      have := f3 j hj
      omega, f4, f5⟩
    rw [List.range'_succ k n 1]
    simp only [processRows,
      processRow_step size cost u v p way k u2 v2 way2 cf p2 hloop haug]
    exact hrest

/-- The assignment-extraction fold writes each slot p c - 1 at most once
(columns with distinct nonzero p-values), so the final cell value is the
writing column's 0-based index. -/
theorem buildAssignment_fold (p : ℕ → ℕ) :
    ∀ (cols : List ℕ), cols.Nodup →
    (∀ c1 c2, c1 ∈ cols → c2 ∈ cols → p c1 ≠ 0 → p c1 = p c2 → c1 = c2) →
    ∀ (asg0 : ℕ → Int) (i : ℕ),
    ((∀ c ∈ cols, ¬(p c > 0 ∧ p c - 1 = i)) →
      (cols.foldl (fun (asg : ℕ → Int) columnIndex =>
        if p columnIndex > 0 then
          upd asg (p columnIndex - 1) ((columnIndex - 1 : ℕ) : Int)
        else asg) asg0) i = asg0 i) ∧
    (∀ c ∈ cols, p c > 0 → p c - 1 = i →
      (cols.foldl (fun (asg : ℕ → Int) columnIndex =>
        if p columnIndex > 0 then
          upd asg (p columnIndex - 1) ((columnIndex - 1 : ℕ) : Int)
        else asg) asg0) i = ((c - 1 : ℕ) : Int)) := by
  intro cols
  induction cols with
  | nil =>
    intro _ _ asg0 i
    exact ⟨fun _ => rfl, fun c hc => absurd hc (List.not_mem_nil _)⟩
  | cons c rest ihc =>
    intro hnd hinj asg0 i
    have hndr : rest.Nodup := hnd.of_cons
    have hcr : c ∉ rest := (List.nodup_cons.mp hnd).1
    have hinjr : ∀ c1 c2, c1 ∈ rest → c2 ∈ rest → p c1 ≠ 0 → p c1 = p c2 → c1 = c2 :=
      fun c1 c2 h1 h2 => hinj c1 c2 (List.mem_cons_of_mem _ h1) (List.mem_cons_of_mem _ h2)
    constructor
    · intro hno
      rw [List.foldl_cons]
      have hnor : ∀ c2 ∈ rest, ¬(p c2 > 0 ∧ p c2 - 1 = i) :=
        fun c2 h2 => hno c2 (List.mem_cons_of_mem _ h2)
      rw [(ihc hndr hinjr _ i).1 hnor]
      by_cases hp : p c > 0
      · rw [if_pos hp]
        have hslot : p c - 1 ≠ i := fun he => hno c (List.mem_cons_self _ _) ⟨hp, he⟩
        exact upd_other _ _ _ _ (Ne.symm hslot)
      · rw [if_neg hp]
    · intro c2 hc2 hp2 hslot2
      rw [List.foldl_cons]
      rcases List.mem_cons.mp hc2 with rfl | hc3
      · have hnor : ∀ c3 ∈ rest, ¬(p c3 > 0 ∧ p c3 - 1 = i) := by
          intro c3 h3
          rintro ⟨hp3, hslot3⟩
          have hpe : p c3 = p c2 := by omega
          have := hinj c3 c2 (List.mem_cons_of_mem _ h3) (List.mem_cons_self _ _)
            (by omega) hpe
          subst this
          exact hcr h3
        rw [(ihc hndr hinjr _ i).1 hnor, if_pos hp2, ← hslot2, upd_self]
      · exact (ihc hndr hinjr _ i).2 c2 hc3 hp2 hslot2

/-- Reading the extracted assignment: it has one entry per row, and the
entry at row p c - 1 is column c - 1 (0-based), for every matched column
c. -/
theorem buildAssignment_read (size : ℕ) (p : ℕ → ℕ)
    (hinj : ∀ j1 j2, 1 ≤ j1 → 1 ≤ j2 → p j1 ≠ 0 → p j1 = p j2 → j1 = j2) :
    (buildAssignment size p).length = size ∧
    ∀ c, 1 ≤ c → c ≤ size → p c ≠ 0 → p c - 1 < size →
      (buildAssignment size p).getD (p c - 1) 0 = ((c - 1 : ℕ) : Int) := by
  have hlen : (buildAssignment size p).length = size := by
    simp [buildAssignment]
  refine ⟨hlen, ?_⟩
  intro c hc1 hcs hpc hlt
  have hfold := (buildAssignment_fold p (List.range' 1 size)
    (List.nodup_range' 1 size 1 Nat.one_pos)
    (fun c1 c2 h1 h2 => hinj c1 c2 (mem_range'_one.mp h1).1 (mem_range'_one.mp h2).1)
    (fun _ => (-1 : Int)) (p c - 1)).2 c (mem_range'_one.mpr ⟨hc1, by omega⟩)
    (by omega) rfl
  rw [List.getD_eq_getElem _ _ (by rw [hlen]; exact hlt)]
  simp only [buildAssignment]
  rw [List.getElem_map]
  rw [List.getElem_range]
  exact hfold

/-- C1: on every non-empty square matrix of (finite) rational costs,
solveHungarianAssignment returns an assignment list that is a permutation
of 0..n-1 (one entry per row, entries pairwise distinct and in range) whose
total cost, summed as costMatrix[row][assignment[row]], is at most the
total cost of every permutation — i.e. it attains the global minimum. -/
theorem C1_solver_returns_min_cost_permutation (m : List (List ℚ)) (hne : m ≠ [])
    (hsq : ∀ row ∈ m, row.length = m.length) :
    ∃ a, solveHungarianAssignment m = .ok a ∧
      a.length = m.length ∧
      a.Nodup ∧
      (∀ x ∈ a, ∃ j : ℕ, j < m.length ∧ x = (j : Int)) ∧
      (∀ σ : Equiv.Perm (Fin m.length),
        (∑ i : Fin m.length, costAt m i.1 ((a.getD i.1 0).toNat)) ≤
          ∑ i : Fin m.length, costAt m i.1 (σ i).1) := by
  have hassert : assertSquareCostMatrix m = .ok () := by
    rw [assertSquareCostMatrix]
    rw [if_neg (by simpa using hne)]
    rw [if_pos]
    rw [List.all_eq_true]
    intro row hrow
    simpa using hsq row hrow
  have hsize : 1 ≤ m.length := by
    cases m with
    | nil => exact absurd rfl hne
    | cons a t => simp
  obtain ⟨uF, vF, pF, wayF, hrows, f1, f2, f3, f4, f5⟩ :=
    processRows_full m.length (costAt m) m.length 1
      (fun _ => 0) (fun _ => 0) (fun _ => 0) (fun _ => 0) le_rfl (by omega)
      (by simp)
      (by
        intro j1 j2 _ _ h
        exact absurd rfl h)
      (by
        intro j _
        exact Nat.zero_lt_one)
      (by
        intro j _ _ h
        exact absurd rfl h)
      (by
        intro j0 _ _ h
        exact absurd rfl h)
  have hcard : ((Finset.Icc 1 m.length).filter fun c => pF c ≠ 0).card = m.length := by
    omega
  have hfilter : ((Finset.Icc 1 m.length).filter fun c => pF c ≠ 0) =
      Finset.Icc 1 m.length := by
    apply Finset.eq_of_subset_of_card_le (Finset.filter_subset _ _)
    rw [hcard, Nat.card_Icc]
    omega
  have hall : ∀ c, 1 ≤ c → c ≤ m.length → pF c ≠ 0 := by
    intro c h1 h2
    have hc : c ∈ (Finset.Icc 1 m.length).filter fun c => pF c ≠ 0 := by
      rw [hfilter, Finset.mem_Icc]
      exact ⟨h1, h2⟩
    exact (Finset.mem_filter.mp hc).2
  have hub : ∀ c, 1 ≤ c → c ≤ m.length → pF c ≤ m.length := by
    intro c h1 h2
    have := f3 c (by omega)
    omega
  have himg : (Finset.Icc 1 m.length).image pF = Finset.Icc 1 m.length := by
    apply Finset.eq_of_subset_of_card_le
    · intro x hx
      rw [Finset.mem_image] at hx
      obtain ⟨c, hc, rfl⟩ := hx
      rw [Finset.mem_Icc] at hc ⊢
      exact ⟨Nat.one_le_iff_ne_zero.mpr (hall c hc.1 hc.2), hub c hc.1 hc.2⟩
    · rw [Finset.card_image_of_injOn (by
        intro x hx y hy he
        rw [Finset.mem_coe, Finset.mem_Icc] at hx hy
        exact f2 x y hx.1 hy.1 (hall x hx.1 hx.2) he)]
  have hsurj : ∀ i, 1 ≤ i → i ≤ m.length → ∃ c, 1 ≤ c ∧ c ≤ m.length ∧ pF c = i := by
    intro i h1 h2
    have hi : i ∈ (Finset.Icc 1 m.length).image pF := by
      rw [himg, Finset.mem_Icc]
      exact ⟨h1, h2⟩
    rw [Finset.mem_image] at hi
    obtain ⟨c, hc, he⟩ := hi
    rw [Finset.mem_Icc] at hc
    exact ⟨c, hc.1, hc.2, he⟩
  have hFall : ∀ i, 1 ≤ i → i ≤ m.length → ∀ j, 1 ≤ j → j ≤ m.length →
      uF i + vF j ≤ toFiniteCost (costAt m (i - 1) (j - 1)) := by
    intro i hi1 his j hj1 hjs
    obtain ⟨c, hc1, hcs, hpc⟩ := hsurj i hi1 his
    have hfe := f5 c hc1 hcs (by rw [hpc]; omega) j hj1 hjs
    rw [hpc] at hfe
    exact hfe
  obtain ⟨halen, haread⟩ := buildAssignment_read m.length pF f2
  have hasg : ∀ i, i < m.length → ∃ c, 1 ≤ c ∧ c ≤ m.length ∧ pF c = i + 1 ∧
      (buildAssignment m.length pF).getD i 0 = ((c - 1 : ℕ) : Int) := by
    intro i hi
    obtain ⟨c, hc1, hcs, hpc⟩ := hsurj (i + 1) (by omega) (by omega)
    refine ⟨c, hc1, hcs, hpc, ?_⟩
    have hr := haread c hc1 hcs (by rw [hpc]; omega) (by rw [hpc]; omega)
    rw [hpc] at hr
    simpa using hr
  refine ⟨buildAssignment m.length pF, ?_, halen, ?_, ?_, ?_⟩
  · simp only [solveHungarianAssignment, hassert, hrows]
  · rw [List.nodup_iff_injective_get]
    rintro ⟨i1, h1⟩ ⟨i2, h2⟩ he
    rw [halen] at h1 h2
    obtain ⟨c1, hc11, hc1s, hpc1, hr1⟩ := hasg i1 h1
    obtain ⟨c2, hc21, hc2s, hpc2, hr2⟩ := hasg i2 h2
    simp only [List.get_eq_getElem] at he
    have he2 : (buildAssignment m.length pF).getD i1 0 =
        (buildAssignment m.length pF).getD i2 0 := by
      rw [List.getD_eq_getElem _ _ (by rw [halen]; exact h1),
        List.getD_eq_getElem _ _ (by rw [halen]; exact h2)]
      exact he
    rw [hr1, hr2, Nat.cast_inj] at he2
    have hc12 : c1 = c2 := by omega
    subst hc12
    rw [hpc1] at hpc2
    exact Fin.ext (show i1 = i2 by omega)
  · intro x hx
    rw [List.mem_iff_getElem] at hx
    obtain ⟨i, hilen, he⟩ := hx
    rw [halen] at hilen
    obtain ⟨c, hc1, hcs, hpc, hread⟩ := hasg i hilen
    have he2 : (buildAssignment m.length pF).getD i 0 = x := by
      rw [List.getD_eq_getElem _ _ (by rw [halen]; exact hilen)]
      exact he
    rw [hread] at he2
    exact ⟨c - 1, by omega, he2.symm⟩
  · intro σ
    have hinjslot : Set.InjOn (fun c => pF c - 1) (Finset.Icc 1 m.length) := by
      intro x hx y hy he
      rw [Finset.mem_coe, Finset.mem_Icc] at hx hy
      have hx1 : pF x ≠ 0 := hall x hx.1 hx.2
      have hy1 : pF y ≠ 0 := hall y hy.1 hy.2
      have he2 : pF x - 1 = pF y - 1 := he
      exact f2 x y hx.1 hy.1 hx1 (by omega)
    have hsumA : ∑ i in Finset.range m.length,
        costAt m i (((buildAssignment m.length pF).getD i 0).toNat) =
        ∑ c in Finset.Icc 1 m.length, costAt m (pF c - 1) (c - 1) := by
      symm
      refine Finset.sum_nbij (fun c => pF c - 1) ?_ hinjslot ?_ ?_
      · intro c hc
        rw [Finset.mem_Icc] at hc
        rw [Finset.mem_range]
        have h1 := hall c hc.1 hc.2
        have h2 := hub c hc.1 hc.2
        show pF c - 1 < m.length
        omega
      · intro i hi
        rw [Finset.mem_coe, Finset.mem_range] at hi
        obtain ⟨c, hc1, hcs, hpc⟩ := hsurj (i + 1) (by omega) (by omega)
        refine ⟨c, by rw [Finset.mem_coe, Finset.mem_Icc]; exact ⟨hc1, hcs⟩, ?_⟩
        show pF c - 1 = i
        omega
      · intro c hc
        rw [Finset.mem_Icc] at hc
        have hr := haread c hc.1 hc.2 (hall c hc.1 hc.2) (by
          have := hub c hc.1 hc.2
          have := hall c hc.1 hc.2
          omega)
        rw [hr]
        simp
    have hsumT : ∑ c in Finset.Icc 1 m.length, costAt m (pF c - 1) (c - 1) =
        (∑ c in Finset.Icc 1 m.length, uF (pF c)) +
          ∑ c in Finset.Icc 1 m.length, vF c := by
      rw [← Finset.sum_add_distrib]
      refine Finset.sum_congr rfl ?_
      intro c hc
      rw [Finset.mem_Icc] at hc
      exact (f4 c hc.1 hc.2 (hall c hc.1 hc.2)).symm
    have hsumU : ∑ c in Finset.Icc 1 m.length, uF (pF c) =
        ∑ i in Finset.Icc 1 m.length, uF i := by
      refine Finset.sum_nbij pF ?_ ?_ ?_ ?_
      · intro c hc
        rw [Finset.mem_Icc] at hc
        rw [Finset.mem_Icc]
        exact ⟨Nat.one_le_iff_ne_zero.mpr (hall c hc.1 hc.2), hub c hc.1 hc.2⟩
      · intro x hx y hy he
        rw [Finset.mem_coe, Finset.mem_Icc] at hx hy
        exact f2 x y hx.1 hy.1 (hall x hx.1 hx.2) he
      · intro i hi
        rw [Finset.mem_coe, Finset.mem_Icc] at hi
        obtain ⟨c, hc1, hcs, hpc⟩ := hsurj i hi.1 hi.2
        exact ⟨c, by rw [Finset.mem_coe, Finset.mem_Icc]; exact ⟨hc1, hcs⟩, hpc⟩
      · intro c _
        rfl
    have hshift : ∀ g : ℕ → ℚ, ∑ i in Finset.range m.length, g (i + 1) =
        ∑ i in Finset.Icc 1 m.length, g i := by
      intro g
      refine Finset.sum_nbij (fun i => i + 1) ?_ ?_ ?_ ?_
      · intro i hi
        rw [Finset.mem_range] at hi
        rw [Finset.mem_Icc]
        show 1 ≤ i + 1 ∧ i + 1 ≤ m.length
        omega
      · intro x _ y _ he
        have he2 : x + 1 = y + 1 := he
        omega
      · intro i hi
        rw [Finset.mem_coe, Finset.mem_Icc] at hi
        exact ⟨i - 1, by rw [Finset.mem_coe, Finset.mem_range]; omega,
          show i - 1 + 1 = i by omega⟩
      · intro i _
        rfl
    have hlhs : (∑ i : Fin m.length,
        costAt m i.1 (((buildAssignment m.length pF).getD i.1 0).toNat)) =
        (∑ i in Finset.Icc 1 m.length, uF i) + ∑ c in Finset.Icc 1 m.length, vF c := by
      rw [Fin.sum_univ_eq_sum_range
        (fun i => costAt m i (((buildAssignment m.length pF).getD i 0).toNat)) m.length]
      rw [hsumA, hsumT, hsumU]
    rw [hlhs]
    have hfeas : ∀ i : Fin m.length,
        uF (i.1 + 1) + vF ((σ i).1 + 1) ≤ costAt m i.1 (σ i).1 := by
      intro i
      have := hFall (i.1 + 1) (by omega) (by omega) ((σ i).1 + 1) (by omega)
        (by have := (σ i).2; omega)
      simpa using this
    have hstep1 : (∑ i : Fin m.length, (uF (i.1 + 1) + vF ((σ i).1 + 1))) ≤
        ∑ i : Fin m.length, costAt m i.1 (σ i).1 :=
      Finset.sum_le_sum (fun i _ => hfeas i)
    refine le_trans (le_of_eq ?_) hstep1
    rw [Finset.sum_add_distrib]
    have hu : (∑ i : Fin m.length, uF (i.1 + 1)) =
        ∑ i in Finset.Icc 1 m.length, uF i := by
      rw [Fin.sum_univ_eq_sum_range (fun i => uF (i + 1)) m.length]
      exact hshift uF
    have hv : (∑ i : Fin m.length, vF ((σ i).1 + 1)) =
        ∑ c in Finset.Icc 1 m.length, vF c := by
      rw [Equiv.sum_comp σ (fun i : Fin m.length => vF (i.1 + 1))]
      rw [Fin.sum_univ_eq_sum_range (fun i => vF (i + 1)) m.length]
      exact hshift vF
    rw [hu, hv]

theorem C1_solver_returns_min_cost_permutation_witness :
    ([[(0 : ℚ)]] ≠ ([] : List (List ℚ))) ∧
    ∃ a, solveHungarianAssignment [[(0 : ℚ)]] = .ok a ∧
      a.length = [[(0 : ℚ)]].length ∧
      a.Nodup ∧
      (∀ x ∈ a, ∃ j : ℕ, j < [[(0 : ℚ)]].length ∧ x = (j : Int)) ∧
      (∀ σ : Equiv.Perm (Fin [[(0 : ℚ)]].length),
        (∑ i : Fin [[(0 : ℚ)]].length, costAt [[(0 : ℚ)]] i.1 ((a.getD i.1 0).toNat)) ≤
          ∑ i : Fin [[(0 : ℚ)]].length, costAt [[(0 : ℚ)]] i.1 (σ i).1) :=
  ⟨by simp, C1_solver_returns_min_cost_permutation [[(0 : ℚ)]] (by simp)
    (by
      intro row hrow
      rw [List.mem_singleton] at hrow
      subst hrow
      rfl)⟩

end Reception
